import Mathlib

/-!
# TelegramMessageAnalyzer: the statistics engine

A shallow embedding of `analyzer/analyzer.go` and `stopwords/russian.go`.

Conventions of the embedding.

* A Go `string` is a Lean `String`; ranging over a string visits its characters
  (the texts are valid UTF-8, they come out of the HTML parser).
* A Go `map[κ]ν` is the list of its entries, in the order in which a `range`
  loop visits them.  Every statement about a map argument is made for every
  such list, hence for every iteration order.
* A Go `int` is a Lean `Int`: all integers of the program are message, word or
  hour counts, bounded by the length of the input.
* A run-time panic is the value `none`.
* The Unicode tables of the Go library (`unicode.IsLetter`, `unicode.IsDigit`,
  `unicode.ToLower`) are a parameter `U : unicode.Tables`.
-/

set_option autoImplicit false

/-! ## Go maps -/

namespace Go

/-- A Go map, as the list of its entries in iteration order. -/
abbrev Map (κ ν : Type) := List (κ × ν)

namespace Map

variable {κ ν : Type} [DecidableEq κ]

/-- The comma-ok lookup `v, ok := m[k]`. -/
def find? : Map κ ν → κ → Option ν
  | [], _ => none
  | (k', v') :: m, k => if k' = k then some v' else find? m k

/-- The assignment `m[k] = v`: overwrite the entry of `k`, or add one. -/
def set : Map κ ν → κ → ν → Map κ ν
  | [], k, v => [(k, v)]
  | (k', v') :: m, k, v => if k' = k then (k, v) :: m else (k', v') :: set m k v

/-- The keys of a map, in iteration order. -/
def keys (m : Map κ ν) : List κ := m.map Prod.fst

/-- The values of a map, in iteration order. -/
def values (m : Map κ ν) : List ν := m.map Prod.snd

/-- The read `m[k]` of an integer-valued map: the zero value for an absent key. -/
def get (m : Map κ Int) (k : κ) : Int := (find? m k).getD 0

/-- The statement `m[k]++`. -/
def incr (m : Map κ Int) (k : κ) : Map κ Int := set m k (get m k + 1)

/-- The sum of the values of an integer-valued map. -/
def total (m : Map κ Int) : Int := (values m).sum

/-- A list of entries is a map when its keys are pairwise distinct. -/
def WF (m : Map κ ν) : Prop := (keys m).Nodup

instance (m : Map κ ν) : Decidable (WF m) := inferInstanceAs (Decidable (keys m).Nodup)

end Map

/-- The library function `sort.Slice` places one element into a sorted slice:
it moves left past every element it is less than. -/
def insertSorted {α : Type} (less : α → α → Bool) (x : α) : List α → List α
  | [] => [x]
  | y :: ys => if less x y then x :: y :: ys else y :: insertSorted less x ys

/-- The library function `sort.Slice(xs, less)`, as insertion sort (the
algorithm the library runs on short slices).  The order it leaves between
elements that compare equal is not specified by the library; the theorems
below use only that the result is a permutation of the input ordered by
`less`. -/
def sortSlice {α : Type} (less : α → α → Bool) (xs : List α) : List α :=
  xs.foldl (fun acc x => insertSorted less x acc) []

/-- A value of the Go type `float64`: a finite value, given by the rational
number it represents, an infinity, or NaN.  The sign of zero and the range of
the exponent are outside the model (the numbers of the program are sums and
quotients of message lengths and message counts). -/
inductive Float64 where
  | finite (value : ℚ)
  | inf (negative : Bool)
  | nan
  deriving DecidableEq

namespace Float64

/-- The binary exponent of a rational number other than 0: the integer `e`
with `2 ^ e ≤ |q| < 2 ^ (e + 1)`. -/
def exponent (q : ℚ) : Int := Int.log 2 |q|

/-- The integer nearest to a rational number, the even one of two nearest. -/
def roundEven (q : ℚ) : Int :=
  if q - (⌊q⌋ : ℚ) < 1 / 2 then ⌊q⌋
  else if 1 / 2 < q - (⌊q⌋ : ℚ) then ⌊q⌋ + 1
  else if ⌊q⌋ % 2 = 0 then ⌊q⌋ else ⌊q⌋ + 1

/-- The rounding of the IEEE 754 arithmetic of `float64`: the nearest number
with a significand of 53 bits, the one with an even significand of two nearest. -/
def round (q : ℚ) : ℚ :=
  if q = 0 then 0 else (roundEven (q / 2 ^ (exponent q - 52)) : ℚ) * 2 ^ (exponent q - 52)

/-- The conversion `float64(n)` of an integer. -/
def ofInt (n : Int) : Float64 := finite (round n)

/-- The operator `+` of `float64`. -/
def add : Float64 → Float64 → Float64
  | finite a, finite b => finite (round (a + b))
  | finite _, inf s => inf s
  | inf s, finite _ => inf s
  | inf s, inf t => if s = t then inf s else nan
  | _, _ => nan

/-- The operator `/` of `float64`: a division by zero yields an infinity, and
NaN for `0 / 0`. -/
def div : Float64 → Float64 → Float64
  | finite a, finite b =>
    if b = 0 then (if a = 0 then nan else inf (decide (a < 0))) else finite (round (a / b))
  | finite _, inf _ => finite 0
  | inf s, finite b => inf (s != decide (b < 0))
  | _, _ => nan

/-- The operator `*` of `float64`. -/
def mul : Float64 → Float64 → Float64
  | finite a, finite b => finite (round (a * b))
  | finite a, inf s => if a = 0 then nan else inf (s != decide (a < 0))
  | inf s, finite b => if b = 0 then nan else inf (s != decide (b < 0))
  | inf s, inf t => inf (s != t)
  | _, _ => nan

end Float64

end Go

/-! ## The Unicode tables -/

namespace unicode

/-- The three functions of the Go `unicode` package the tokenizer calls. -/
structure Tables where
  /-- Models `unicode.IsLetter`. -/
  IsLetter : Char → Bool
  /-- Models `unicode.IsDigit`. -/
  IsDigit : Char → Bool
  /-- Models `unicode.ToLower`. -/
  ToLower : Char → Char

/-- The Go tables restricted to Basic Latin and to the Russian alphabet
(U+0410..U+044F, U+0401, U+0451); every other code point counts as a symbol.
Used to evaluate the definitions on concrete texts. -/
def latinCyrillic : Tables where
  IsLetter c :=
    (65 ≤ c.toNat && c.toNat ≤ 90) || (97 ≤ c.toNat && c.toNat ≤ 122) ||
    (1040 ≤ c.toNat && c.toNat ≤ 1103) || c.toNat == 1025 || c.toNat == 1105
  IsDigit c := 48 ≤ c.toNat && c.toNat ≤ 57
  ToLower c :=
    if 65 ≤ c.toNat && c.toNat ≤ 90 then Char.ofNat (c.toNat + 32)
    else if 1040 ≤ c.toNat && c.toNat ≤ 1071 then Char.ofNat (c.toNat + 32)
    else if c.toNat == 1025 then Char.ofNat 1105
    else c

end unicode

/-! ## `stopwords/russian.go` -/

namespace stopwords

/-- The keys of the map literal `Russian` (every value is `true`). -/
def Russian : List String :=
  [ -- Предлоги
    "в", "на", "с", "к", "по", "за",
    "из", "у", "о", "об", "от", "до",
    "для", "при", "без", "под", "над",
    "про", "через", "между", "перед", "после",
    "около", "возле", "вокруг", "ради",
    -- Союзы
    "и", "а", "но", "или", "да", "ни",
    "что", "чтобы", "если", "когда", "как",
    "потому", "поэтому", "так", "тоже", "также",
    "хотя", "пока", "либо", "чем", "где",
    -- Местоимения
    "я", "ты", "он", "она", "оно", "мы",
    "вы", "они", "мне", "тебе", "ему", "ей",
    "нам", "вам", "им", "меня", "тебя", "его",
    "её", "ее", "нас", "вас", "их", "мной",
    "тобой", "ним", "ней", "нами", "вами", "ними",
    "себя", "себе", "собой",
    "этот", "эта", "это", "эти", "этого", "этой",
    "этих", "этому", "этим", "этом",
    "тот", "та", "то", "те", "того", "той",
    "тех", "тому", "тем", "том",
    "кто", "какой", "какая", "какое", "какие",
    "чей", "чья", "чьё", "чье", "чьи",
    "который", "которая", "которое", "которые",
    "весь", "вся", "всё", "все", "всего", "всей",
    "всех", "всему", "всем",
    "сам", "сама", "само", "сами",
    "свой", "своя", "своё", "свое", "свои",
    "мой", "моя", "моё", "мое", "мои",
    "твой", "твоя", "твоё", "твое", "твои",
    "наш", "наша", "наше", "наши",
    "ваш", "ваша", "ваше", "ваши",
    -- Частицы
    "не", "бы", "же", "ли", "ведь",
    "вот", "вон", "даже", "лишь", "только",
    "уже", "ещё", "еще", "разве", "неужели",
    -- Наречия
    "очень", "там", "тут", "здесь", "туда",
    "сюда", "оттуда", "отсюда", "тогда",
    "теперь", "сейчас", "потом", "затем", "почему",
    "зачем", "куда", "откуда", "сколько",
    -- Глаголы-связки и вспомогательные
    "быть", "был", "была", "было", "были",
    "буду", "будет", "будут", "будем", "будете",
    "есть", "нет", "ну",
    "можно", "нужно", "надо", "нельзя",
    -- Прочие частые слова
    "ага", "ок", "окей", "ладно", "хорошо",
    "просто", "типа", "короче", "вообще", "кстати",
    "блин", "бля", "хз", "лол", "ахах", "хах",
    "ахаха", "хаха", "ахахах", "хахаха",
    "чё", "че", "ща", "щас" ]

/-- IsStopWord checks if a word is a stop word: `Russian[word]`. -/
def IsStopWord (word : String) : Bool := Russian.contains word

end stopwords

/-! ## The library type `time.Time` -/

namespace time

/-- A `time.Time` at a resolution of one second, by the calendar fields that
`Year`, `Month`, `Day`, `Hour`, `Minute` and `Second` return.  Every time of
the program comes from `time.Parse`; its fraction of a second and its location
are outside the model, so `IsZero`, `Before` and `After` below compare the
calendar fields, which is the comparison of the instants for times of whole
seconds in one location. -/
structure Time where
  /-- The year. -/
  year : Int
  /-- The month, 1 to 12. -/
  month : Nat
  /-- The day of the month. -/
  day : Nat
  /-- The hour. -/
  hour : Nat
  /-- The minute. -/
  minute : Nat
  /-- The second. -/
  second : Nat
  deriving DecidableEq

namespace Time

/-- The zero value `time.Time{}`: January 1, year 1, 00:00:00 UTC. -/
def zero : Time := ⟨1, 1, 1, 0, 0, 0⟩

/-- Models `t.IsZero()`. -/
def IsZero (t : Time) : Bool := decide (t = zero)

/-- Models `t.Year()`. -/
def Year (t : Time) : Int := t.year

/-- Models `t.Month()`. -/
def Month (t : Time) : Nat := t.month

/-- Models `t.Hour()`. -/
def Hour (t : Time) : Int := t.hour

/-- Models `t.Before(u)`: the calendar fields compared from the year down. -/
def Before (t u : Time) : Bool :=
  t.year < u.year || (t.year == u.year &&
  (t.month < u.month || (t.month == u.month &&
  (t.day < u.day || (t.day == u.day &&
  (t.hour < u.hour || (t.hour == u.hour &&
  (t.minute < u.minute || (t.minute == u.minute && t.second < u.second)))))))))

/-- Models `t.After(u)`. -/
def After (t u : Time) : Bool := Before u t

end Time

/-- The library helper `appendInt(b, x, width)`: the decimal digits of `x`,
after a minus sign when `x` is negative, zero-padded to `width` digits. -/
def appendInt (x : Int) (width : Nat) : List Char :=
  let digits := Nat.toDigits 10 x.natAbs
  (if x < 0 then ['-'] else []) ++ List.replicate (width - digits.length) '0' ++ digits

/-- Models `t.Format("2006-01")`. -/
def formatYearMonth (t : Time) : String :=
  String.mk (appendInt t.year 4 ++ ['-'] ++ appendInt t.month 2)

/-- The library helper `isDigit`: an ASCII digit. -/
def isDigit (c : Char) : Bool := 48 ≤ c.toNat && c.toNat ≤ 57

/-- The value of an ASCII digit. -/
def digitVal (c : Char) : Nat := c.toNat - 48

/-- Models `time.Parse("2006-01", value)`: four digits of year, a hyphen, two
digits of a month from 1 to 12, and nothing else; `none` is the error. -/
def parseYearMonth (value : String) : Option Time :=
  match value.toList with
  | [y1, y2, y3, y4, sep, m1, m2] =>
    let month := digitVal m1 * 10 + digitVal m2
    if isDigit y1 && isDigit y2 && isDigit y3 && isDigit y4 && sep == '-' &&
        isDigit m1 && isDigit m2 && 1 ≤ month && month ≤ 12 then
      some ⟨(digitVal y1 * 1000 + digitVal y2 * 100 + digitVal y3 * 10 + digitVal y4 : Nat),
        month, 1, 0, 0, 0⟩
    else none
  | _ => none

end time

/-! ## The records of `parser/parser.go` -/

namespace parser

/-- Message represents a single chat message. -/
structure Message where
  /-- The chat name. -/
  ChatName : String
  /-- The timestamp. -/
  Date : time.Time
  /-- The sender. -/
  From : String
  /-- The text. -/
  Text : String
  /-- The number of characters of the text. -/
  Length : Int
  /-- Whether the message is a reply. -/
  IsReply : Bool
  /-- Whether the message is forwarded. -/
  IsForwarded : Bool
  deriving DecidableEq

/-- ChatMetadata contains information about the chat (the field `Type` is `Kind` here). -/
structure ChatMetadata where
  /-- The chat name. -/
  Name : String
  /-- The chat type. -/
  Kind : String
  /-- The timestamp of the first message. -/
  FirstMessage : time.Time
  /-- The timestamp of the last message. -/
  LastMessage : time.Time
  /-- The number of messages. -/
  TotalCount : Int
  deriving DecidableEq

/-- ParseResult contains all parsed data. -/
structure ParseResult where
  /-- The chat metadata. -/
  Metadata : ChatMetadata
  /-- The messages, in file order then document order. -/
  Messages : List Message
  deriving DecidableEq

end parser

/-! ## The tokenizer of `analyzer/analyzer.go` -/

namespace analyzer

/-- The class `\s` of the library `regexp` package: tab, line feed, form feed,
carriage return and space. -/
def isRegexpSpace (c : Char) : Bool :=
  c == '\t' || c == '\n' || c == '\x0c' || c == '\r' || c == ' '

/-- Whether the pattern `https?://\S+` matches at the head of the text: the
scheme, the separator, and one character outside `\s`. -/
def urlAt (l : List Char) : Bool :=
  ("http://".toList.isPrefixOf l && (l.drop 7).head?.any (fun c => !isRegexpSpace c)) ||
  ("https://".toList.isPrefixOf l && (l.drop 8).head?.any (fun c => !isRegexpSpace c))

/-- The scan of `urlRegex.ReplaceAllString(text, "")`.  No character of the
scheme is in `\s` and `\S+` is greedy, so a match that starts at a position
runs to the next character of `\s` (or to the end of the text); the flag says
that the scan is inside a match. -/
def stripURLs : Bool → List Char → List Char
  | _, [] => []
  | true, c :: cs => if isRegexpSpace c then c :: stripURLs false cs else stripURLs true cs
  | false, c :: cs => if urlAt (c :: cs) then stripURLs true cs else c :: stripURLs false cs

/-- The call `urlRegex.ReplaceAllString(text, "")` with `urlRegex` the pattern `https?://\S+`. -/
def removeURLs (text : String) : String := String.mk (stripURLs false text.toList)

/-- The library function `strings.ToLower`: `unicode.ToLower` on every character. -/
def toLower (U : unicode.Tables) (text : String) : String := String.mk (text.toList.map U.ToLower)

/-- isNumber checks if string contains only digits. -/
def isNumber (U : unicode.Tables) (s : String) : Bool := s.toList.all U.IsDigit

/-- The variables of the loop of `extractWords`. -/
structure WordScan where
  /-- The words found so far. -/
  result : List String
  /-- The characters of the `strings.Builder`. -/
  currentWord : List Char

/-- The block `if currentWord.Len() > 0 { ... }` without the `Reset`: the
result slice after the current word is closed. -/
def closeWord (U : unicode.Tables) (s : WordScan) : List String :=
  if s.currentWord.length > 0 then
    let word := String.mk s.currentWord
    if word.length > 1 && !isNumber U word then s.result ++ [word] else s.result
  else s.result

/-- One iteration of the loop of `extractWords` over the character `r`. -/
def scanRune (U : unicode.Tables) (s : WordScan) (r : Char) : WordScan :=
  if U.IsLetter r || U.IsDigit r then
    { s with currentWord := s.currentWord ++ [r] }
  else
    { result := closeWord U s, currentWord := [] }

/-- extractWords extracts and normalizes words from text. -/
def extractWords (U : unicode.Tables) (text : String) : List String :=
  let text := removeURLs text
  closeWord U ((toLower U text).toList.foldl (scanRune U) { result := [], currentWord := [] })

end analyzer


/-! ## The aggregator of `analyzer/analyzer.go` -/

namespace analyzer

/-- WordCount represents a word with its count. -/
structure WordCount where
  /-- The word. -/
  Word : String
  /-- Its count. -/
  Count : Int
  deriving DecidableEq

/-- TimeWindow represents a 2-hour time window. -/
structure TimeWindow where
  /-- The first hour of the window. -/
  StartHour : Int
  /-- The hour after the last hour of the window. -/
  EndHour : Int
  /-- The number of messages in the window. -/
  Count : Int
  deriving DecidableEq

/-- MonthStat represents month activity. -/
structure MonthStat where
  /-- The year. -/
  Year : Int
  /-- The month (a `time.Month`). -/
  Month : Nat
  /-- The number of messages in the month. -/
  Count : Int
  deriving DecidableEq

/-- YearStats contains statistics for a single year. -/
structure YearStats where
  /-- The year. -/
  Year : Int
  /-- The number of messages. -/
  TotalMessages : Int
  /-- The number of messages of each sender. -/
  MessagesByUser : Go.Map String Int
  /-- The number of occurrences of each word. -/
  WordFrequency : Go.Map String Int
  /-- The number of occurrences of each word, per sender. -/
  WordFrequencyByUser : Go.Map String (Go.Map String Int)
  /-- The most frequent words. -/
  TopWords : List WordCount
  /-- The most frequent words of each sender. -/
  TopWordsByUser : Go.Map String (List WordCount)
  /-- The number of messages of each hour of the day. -/
  HourlyActivity : Go.Map Int Int
  /-- The number of messages of each month, keyed by "YYYY-MM". -/
  MonthlyActivity : Go.Map String Int
  /-- The most active 2-hour window. -/
  MostActiveWindow : TimeWindow
  /-- The most active month. -/
  MostActiveMonth : MonthStat
  /-- The earliest timestamp. -/
  FirstMessage : time.Time
  /-- The latest timestamp. -/
  LastMessage : time.Time
  /-- The number of replies. -/
  RepliesCount : Int
  /-- The number of forwarded messages. -/
  ForwardedCount : Int
  /-- The sum, then the average, of the message lengths. -/
  AvgMessageLength : Go.Float64
  deriving DecidableEq

/-- Stats contains all analysis results. -/
structure Stats where
  /-- The accumulator of the whole history. -/
  Overall : YearStats
  /-- The accumulator of each year. -/
  ByYear : Go.Map Int YearStats
  /-- The chat name. -/
  ChatName : String
  /-- The chat type. -/
  ChatType : String
  deriving DecidableEq

/-- The composite literal `&YearStats{Year: year, ...}` of `Analyze`: empty
maps, every other field at its zero value. -/
def newYearStats (year : Int) : YearStats where
  Year := year
  TotalMessages := 0
  MessagesByUser := []
  WordFrequency := []
  WordFrequencyByUser := []
  TopWords := []
  TopWordsByUser := []
  HourlyActivity := []
  MonthlyActivity := []
  MostActiveWindow := ⟨0, 0, 0⟩
  MostActiveMonth := ⟨0, 0, 0⟩
  FirstMessage := time.Time.zero
  LastMessage := time.Time.zero
  RepliesCount := 0
  ForwardedCount := 0
  AvgMessageLength := Go.Float64.finite 0

/-- getTopWords returns top N words by frequency; `none` is the panic of the
slice expression `words[:n]` on a negative `n`. -/
def getTopWords (freq : Go.Map String Int) (n : Int) : Option (List WordCount) :=
  let words : List WordCount := freq.map (fun e => { Word := e.1, Count := e.2 })
  let words := Go.sortSlice (fun a b => decide (a.Count > b.Count)) words
  if (words.length : Int) > n then
    if 0 ≤ n then some (words.take n.toNat) else none
  else some words

/-- The slice literal `windows` of `getMostActiveWindow`. -/
def windowTable : List TimeWindow :=
  [⟨0, 2, 0⟩, ⟨2, 4, 0⟩, ⟨4, 6, 0⟩, ⟨6, 8, 0⟩,
   ⟨8, 10, 0⟩, ⟨10, 12, 0⟩, ⟨12, 14, 0⟩, ⟨14, 16, 0⟩,
   ⟨16, 18, 0⟩, ⟨18, 20, 0⟩, ⟨20, 22, 0⟩, ⟨22, 24, 0⟩]

/-- The inner loop of `getMostActiveWindow`: add `hourly[h]` to the count of
the window for every `h` from `StartHour` up to `EndHour` exclusive. -/
def fillWindow (hourly : Go.Map Int Int) (w : TimeWindow) : TimeWindow :=
  ((List.range (w.EndHour - w.StartHour).toNat).map (fun i => w.StartHour + (i : Int))).foldl
    (fun w h => { w with Count := w.Count + hourly.get h }) w

/-- One iteration of the second loop of `getMostActiveWindow`. -/
def pickWindow (maxWindow w : TimeWindow) : TimeWindow :=
  if w.Count > maxWindow.Count then w else maxWindow

/-- getMostActiveWindow finds the most active 2-hour window. -/
def getMostActiveWindow (hourly : Go.Map Int Int) : TimeWindow :=
  let windows := windowTable.map (fillWindow hourly)
  windows.foldl pickWindow ⟨0, 0, 0⟩

/-- One iteration of the loop of `getMostActiveMonth`. -/
def scanMonth (maxStat : MonthStat) (e : String × Int) : MonthStat :=
  if e.2 > maxStat.Count then
    match time.parseYearMonth e.1 with
    | some t => { Year := t.Year, Month := t.Month, Count := e.2 }
    | none => maxStat
  else maxStat

/-- getMostActiveMonth finds the most active month. -/
def getMostActiveMonth (monthly : Go.Map String Int) : MonthStat :=
  monthly.foldl scanMonth ⟨0, 0, 0⟩

/-- The updates that the loop of `Analyze` applies alike to the year
accumulator and to the overall accumulator: the message count, the count by
user, the reply and forward counts, the length, the hour and the month. -/
def countMessage (msg : parser.Message) (ys : YearStats) : YearStats :=
  { ys with
    TotalMessages := ys.TotalMessages + 1
    MessagesByUser := ys.MessagesByUser.incr msg.From
    RepliesCount := if msg.IsReply then ys.RepliesCount + 1 else ys.RepliesCount
    ForwardedCount := if msg.IsForwarded then ys.ForwardedCount + 1 else ys.ForwardedCount
    AvgMessageLength := ys.AvgMessageLength.add (Go.Float64.ofInt msg.Length)
    HourlyActivity := ys.HourlyActivity.incr msg.Date.Hour
    MonthlyActivity := ys.MonthlyActivity.incr (time.formatYearMonth msg.Date) }

/-- The first and last timestamps, tracked on the year accumulator only. -/
def trackFirstLast (msg : parser.Message) (ys : YearStats) : YearStats :=
  { ys with
    FirstMessage :=
      if ys.FirstMessage.IsZero || msg.Date.Before ys.FirstMessage then msg.Date
      else ys.FirstMessage
    LastMessage :=
      if ys.LastMessage.IsZero || msg.Date.After ys.LastMessage then msg.Date
      else ys.LastMessage }

/-- The statements of the word loop on one accumulator: `WordFrequency[word]++`,
then the inner map of the sender is made if it is nil and its count of the
word is incremented. -/
def countWord (user word : String) (ys : YearStats) : YearStats :=
  let byUser :=
    if (ys.WordFrequencyByUser.find? user).isNone then ys.WordFrequencyByUser.set user []
    else ys.WordFrequencyByUser
  { ys with
    WordFrequency := ys.WordFrequency.incr word
    WordFrequencyByUser := byUser.set user (((byUser.find? user).getD []).incr word) }

/-- One iteration of the word loop of `Analyze`, on the pair of the year
accumulator and the overall accumulator. -/
def countWords (user : String) (acc : YearStats × YearStats) (word : String) :
    YearStats × YearStats :=
  if !stopwords.IsStopWord word && word.length > 1 then
    (countWord user word acc.1, countWord user word acc.2)
  else acc

/-- One iteration of the message loop of `Analyze`. -/
def processMessage (U : unicode.Tables) (stats : Stats) (msg : parser.Message) : Stats :=
  let year := msg.Date.Year
  let byYear :=
    if (stats.ByYear.find? year).isNone then stats.ByYear.set year (newYearStats year)
    else stats.ByYear
  let yearStats := (byYear.find? year).getD (newYearStats year)
  let yearStats := trackFirstLast msg (countMessage msg yearStats)
  let overall := countMessage msg stats.Overall
  let words := extractWords U msg.Text
  let acc := words.foldl (countWords msg.From) (yearStats, overall)
  { stats with Overall := acc.2, ByYear := byYear.set year acc.1 }

/-- The loop that fills `TopWordsByUser` from `WordFrequencyByUser`. -/
def topWordsByUser (byUser : Go.Map String (Go.Map String Int)) :
    Option (Go.Map String (List WordCount)) :=
  byUser.foldlM (fun acc e => do
    let top ← getTopWords e.2 20
    pure (acc.set e.1 top)) []

/-- The finalization of one accumulator: the average and the top and most-active summaries. -/
def finalize (ys : YearStats) : Option YearStats := do
  let avg :=
    if ys.TotalMessages > 0 then ys.AvgMessageLength.div (Go.Float64.ofInt ys.TotalMessages)
    else ys.AvgMessageLength
  let topWords ← getTopWords ys.WordFrequency 20
  let byUser ← topWordsByUser ys.WordFrequencyByUser
  pure { ys with
    AvgMessageLength := avg
    TopWords := topWords
    TopWordsByUser := byUser
    MostActiveWindow := getMostActiveWindow ys.HourlyActivity
    MostActiveMonth := getMostActiveMonth ys.MonthlyActivity }

/-- The loop `for _, yearStats := range stats.ByYear` that finalizes every year accumulator. -/
def finalizeYears : Go.Map Int YearStats → Option (Go.Map Int YearStats)
  | [] => some []
  | (year, ys) :: rest => do
    let ys ← finalize ys
    let rest ← finalizeYears rest
    pure ((year, ys) :: rest)

/-- The composite literal `&Stats{...}` at the start of `Analyze`. -/
def initStats (result : parser.ParseResult) : Stats where
  Overall := newYearStats 0
  ByYear := []
  ChatName := result.Metadata.Name
  ChatType := result.Metadata.Kind

/-- The message loop of `Analyze`. -/
def accumulate (U : unicode.Tables) (result : parser.ParseResult) : Stats :=
  result.Messages.foldl (processMessage U) (initStats result)

/-- Analyze performs full analysis on parsed messages. -/
def Analyze (U : unicode.Tables) (result : parser.ParseResult) : Option Stats := do
  let stats := accumulate U result
  let byYear ← finalizeYears stats.ByYear
  let overall ← finalize stats.Overall
  pure { stats with
    ByYear := byYear
    Overall := { overall with
      FirstMessage := result.Metadata.FirstMessage
      LastMessage := result.Metadata.LastMessage } }

/-- The accumulators of a result: the overall one, then one for every year. -/
def Stats.accumulators (stats : Stats) : List YearStats :=
  stats.Overall :: Go.Map.values stats.ByYear

/-- The relation between an accumulator `ys` after the message loop and the
accumulator `ys'` that the finalization pass makes of it: the counters and
the maps are kept, the summaries are computed from them. -/
structure Finalized (ys ys' : YearStats) : Prop where
  /-- The year is kept. -/
  year : ys'.Year = ys.Year
  /-- The message count is kept. -/
  totalMessages : ys'.TotalMessages = ys.TotalMessages
  /-- The counts by user are kept. -/
  messagesByUser : ys'.MessagesByUser = ys.MessagesByUser
  /-- The word counts are kept. -/
  wordFrequency : ys'.WordFrequency = ys.WordFrequency
  /-- The word counts by user are kept. -/
  wordFrequencyByUser : ys'.WordFrequencyByUser = ys.WordFrequencyByUser
  /-- The hour histogram is kept. -/
  hourlyActivity : ys'.HourlyActivity = ys.HourlyActivity
  /-- The month histogram is kept. -/
  monthlyActivity : ys'.MonthlyActivity = ys.MonthlyActivity
  /-- The reply count is kept. -/
  repliesCount : ys'.RepliesCount = ys.RepliesCount
  /-- The forward count is kept. -/
  forwardedCount : ys'.ForwardedCount = ys.ForwardedCount
  /-- The top words come from `getTopWords`. -/
  topWords : getTopWords ys.WordFrequency 20 = some ys'.TopWords
  /-- The top words by user come from the loop over the senders. -/
  topWordsByUser : topWordsByUser ys.WordFrequencyByUser = some ys'.TopWordsByUser
  /-- The most active window comes from `getMostActiveWindow`. -/
  mostActiveWindow : ys'.MostActiveWindow = getMostActiveWindow ys.HourlyActivity
  /-- The most active month comes from `getMostActiveMonth`. -/
  mostActiveMonth : ys'.MostActiveMonth = getMostActiveMonth ys.MonthlyActivity
  /-- The sum of the lengths is divided by a positive message count. -/
  avgMessageLength : ys'.AvgMessageLength =
    if ys.TotalMessages > 0 then ys.AvgMessageLength.div (Go.Float64.ofInt ys.TotalMessages)
    else ys.AvgMessageLength

/-! ### The reference definition of the tokenizer

The definitions below follow the words of the specification, not the code;
the theorems compare them with `extractWords`. -/

/-- Whether the pattern `https?://\S+` matches somewhere in the text. -/
def hasURL : List Char → Bool
  | [] => false
  | c :: cs => urlAt (c :: cs) || hasURL cs

/-- The text contains a URL. -/
def containsURL (text : String) : Bool := hasURL text.toList

/-- The maximal runs of characters that satisfy `p`: every other character is
a boundary, and the empty pieces between adjacent boundaries are no runs. -/
def maximalRuns (p : Char → Bool) (l : List Char) : List (List Char) :=
  (l.splitOnP (fun c => !p c)).filter (fun run => !run.isEmpty)

/-- The maximal runs of Unicode letters and digits of the lowercased text. -/
def tokenRuns (U : unicode.Tables) (text : String) : List (List Char) :=
  maximalRuns (fun c => U.IsLetter c || U.IsDigit c) (text.toList.map U.ToLower)

/-- The words the specification counts for a text: the token runs, minus the
runs that are exactly one character long, the runs that consist entirely of
digits, and the runs that are in the stopword set. -/
def referenceWords (U : unicode.Tables) (text : String) : List String :=
  ((tokenRuns U text).filter (fun run =>
    run.length != 1 && !run.all U.IsDigit && !stopwords.IsStopWord (String.mk run))).map String.mk

end analyzer

/-! ## The library functions of `parser/parser.go` -/

namespace unicode

/-- Models `unicode.IsSpace`: the characters with the Unicode property White_Space. -/
def IsSpace (c : Char) : Bool :=
  (9 ≤ c.toNat && c.toNat ≤ 13) || c.toNat == 32 || c.toNat == 0x85 || c.toNat == 0xA0 ||
  c.toNat == 0x1680 || (0x2000 ≤ c.toNat && c.toNat ≤ 0x200A) || c.toNat == 0x2028 ||
  c.toNat == 0x2029 || c.toNat == 0x202F || c.toNat == 0x205F || c.toNat == 0x3000

end unicode

namespace strings

/-- The characters of `strings.TrimSpace(s)`: the leading and the trailing white space removed. -/
def trimSpace (l : List Char) : List Char :=
  ((l.dropWhile unicode.IsSpace).reverse.dropWhile unicode.IsSpace).reverse

/-- Models `strings.TrimSpace`. -/
def TrimSpace (s : String) : String := String.mk (trimSpace s.toList)

/-- The characters of `strings.Split(s, sep)[0]`: the text before the first
occurrence of the separator, the whole text when there is none. -/
def beforeFirst (sep : List Char) : List Char → List Char
  | [] => []
  | c :: cs => if sep.isPrefixOf (c :: cs) then [] else c :: beforeFirst sep cs

end strings

namespace time

/-- The library helper `daysIn(month, year)`. -/
def daysIn (month : Nat) (year : Int) : Nat :=
  if month = 2 then
    if year % 4 = 0 ∧ (year % 100 ≠ 0 ∨ year % 400 = 0) then 29 else 28
  else if month = 4 ∨ month = 6 ∨ month = 9 ∨ month = 11 then 30
  else 31

/-- The day after, in the calendar. -/
def Time.nextDay (t : Time) : Time :=
  if t.day < daysIn t.month t.year then { t with day := t.day + 1 }
  else if t.month < 12 then { t with month := t.month + 1, day := 1 }
  else { t with year := t.year + 1, month := 1, day := 1 }

/-- The day before, in the calendar. -/
def Time.prevDay (t : Time) : Time :=
  if 1 < t.day then { t with day := t.day - 1 }
  else if 1 < t.month then { t with month := t.month - 1, day := daysIn (t.month - 1) t.year }
  else { t with year := t.year - 1, month := 12, day := 31 }

/-- The calendar fields that `Year`, `Month`, `Day` and `Hour` return for a
time in the location `time.FixedZone(name, hours * 3600)`, from its calendar
fields in UTC; `hours` is between -23 and 23. -/
def Time.inFixedZone (t : Time) (hours : Int) : Time :=
  if (t.hour : Int) + hours < 0 then
    { t.prevDay with hour := ((t.hour : Int) + hours + 24).toNat }
  else if 24 ≤ (t.hour : Int) + hours then
    { t.nextDay with hour := ((t.hour : Int) + hours - 24).toNat }
  else { t with hour := ((t.hour : Int) + hours).toNat }

/-- The library helper `getnum(s, fixed)`: one or two digits, two when `fixed`. -/
def getnum (s : List Char) (fixed : Bool) : Option (Nat × List Char) :=
  match s with
  | [] => none
  | c₁ :: rest =>
    if !isDigit c₁ then none
    else
      match rest with
      | [] => if fixed then none else some (digitVal c₁, [])
      | c₂ :: rest' =>
        if isDigit c₂ then some (digitVal c₁ * 10 + digitVal c₂, rest')
        else if fixed then none else some (digitVal c₁, rest)

/-- The library helper `skip(value, prefix)` for a one-character layout prefix
other than the space: the character must come next. -/
def skipChar (c : Char) (value : List Char) : Option (List Char) :=
  match value with
  | [] => none
  | v :: rest => if v = c then some rest else none

/-- The library helper `skip(value, " ")`: a space of the layout stands for
the end of the value or for a run of spaces. -/
def skipSpace (value : List Char) : Option (List Char) :=
  match value with
  | [] => some []
  | v :: rest => if v = ' ' then some (rest.dropWhile (fun c => c == ' ')) else none

/-- The element `2006` of a layout: four digits. -/
def getYear (value : List Char) : Option (Nat × List Char) :=
  match value with
  | y₁ :: y₂ :: y₃ :: y₄ :: rest =>
    if isDigit y₁ && isDigit y₂ && isDigit y₃ && isDigit y₄ then
      some (digitVal y₁ * 1000 + digitVal y₂ * 100 + digitVal y₃ * 10 + digitVal y₄, rest)
    else none
  | _ => none

/-- The fraction of a second that `time.Parse` reads after the seconds even
when the layout has none: a period or comma and digits.  The model keeps whole
seconds and drops it. -/
def skipFraction (value : List Char) : List Char :=
  match value with
  | p :: d :: rest =>
    if (p == '.' || p == ',') && isDigit d then rest.dropWhile isDigit else p :: d :: rest
  | _ => value

/-- The value of a run of ASCII digits. -/
def decimalValue (ds : List Char) : Nat := ds.foldl (fun n c => 10 * n + digitVal c) 0

/-- The library helper `parseSignedOffset`: the length of a sign and an hour
from 0 to 23 at the head of the value, 0 when there is none. -/
def parseSignedOffset (value : List Char) : Nat :=
  match value with
  | [] => 0
  | sign :: rest =>
    if sign = '+' ∨ sign = '-' then
      let ds := rest.takeWhile isDigit
      if ds = [] then 0 else if decimalValue ds > 23 then 0 else 1 + ds.length
    else 0

/-- An upper-case ASCII letter. -/
def isUpper (c : Char) : Bool := 65 ≤ c.toNat && c.toNat ≤ 90

/-- The library helper `parseTimeZone`: the length of the zone abbreviation at
the head of the value, `none` when there is none. -/
def parseTimeZone (value : List Char) : Option Nat :=
  if value.length < 3 then none
  else if "ChST".toList.isPrefixOf value || "MeST".toList.isPrefixOf value then some 4
  else if "GMT".toList.isPrefixOf value then
    some (if value.length = 3 then 3 else 3 + parseSignedOffset (value.drop 3))
  else if value.head? = some '+' ∨ value.head? = some '-' then
    if parseSignedOffset value > 0 then some (parseSignedOffset value) else none
  else
    let nUpper := ((value.take 6).takeWhile isUpper).length
    if nUpper = 5 then (if (value.drop 4).head? = some 'T' then some 5 else none)
    else if nUpper = 4 then
      (if (value.drop 3).head? = some 'T' ∨ "WITA".toList.isPrefixOf value then some 4 else none)
    else if nUpper = 3 then some 3
    else none

/-- The library helper `atoi` on the text after `GMT` in a zone abbreviation:
a sign and digits. -/
def atoi (s : List Char) : Int :=
  if s.head? = some '-' then -(decimalValue s.tail : Int)
  else if s.head? = some '+' then (decimalValue s.tail : Int)
  else (decimalValue s : Int)

/-- The offset in hours of the location that `time.Parse` makes for a zone
abbreviation that the local location does not know: the number after `GMT`,
and 0 for every other abbreviation. -/
def zoneOffsetHours (zoneName : List Char) : Int :=
  if zoneName.length > 3 ∧ "GMT".toList.isPrefixOf zoneName then atoi (zoneName.drop 3) else 0

/-- The element `MST` of a layout: the text `UTC` or a zone abbreviation; the
rest of the value and the offset of the zone in hours. -/
def skipZone (value : List Char) : Option (List Char × Int) :=
  if "UTC".toList.isPrefixOf value then some (value.drop 3, 0)
  else (parseTimeZone value).map (fun n => (value.drop n, zoneOffsetHours (value.take n)))

/-- A range check of `time.Parse`: the error when the field is out of range. -/
def inRange (ok : Bool) : Option Unit := if ok then some () else none

/-- The first half of the two layouts, `02.01.2006`: the day, the month, the
year and the rest of the value. -/
def parseDateFields (value : List Char) : Option (Nat × Nat × Nat × List Char) :=
  (getnum value true).bind fun d =>
  (skipChar '.' d.2).bind fun v =>
  (getnum v true).bind fun m =>
  (inRange (decide (1 ≤ m.1 ∧ m.1 ≤ 12))).bind fun _ =>
  (skipChar '.' m.2).bind fun v =>
  (getYear v).bind fun y =>
  some (d.1, m.1, y.1, y.2)

/-- The second half of the two layouts, `15:04:05`: the hour, the minute, the
second and the rest of the value after the fraction of a second. -/
def parseClockFields (value : List Char) : Option (Nat × Nat × Nat × List Char) :=
  (getnum value false).bind fun h =>
  (inRange (decide (h.1 < 24))).bind fun _ =>
  (skipChar ':' h.2).bind fun v =>
  (getnum v true).bind fun m =>
  (inRange (decide (m.1 < 60))).bind fun _ =>
  (skipChar ':' m.2).bind fun v =>
  (getnum v true).bind fun s =>
  (inRange (decide (s.1 < 60))).bind fun _ =>
  some (h.1, m.1, s.1, skipFraction s.2)

/-- Models `time.Parse(layout, value)` for the layouts `"02.01.2006 15:04:05"`
and, when `zoned`, `"02.01.2006 15:04:05 MST"`; `none` is the error.  The
result has the calendar fields that `Year`, `Month`, `Day`, `Hour`, `Minute`
and `Second` return for the parsed time: the fields that are written in the
value, moved by `N` hours when the zone is `GMT+N` or `GMT-N` (the library
reads the fields in UTC and attaches a fixed zone of that offset, as it does
with the offset 0 for every other abbreviation that the local location does
not have).  The fraction of a second is read and left out of the result. -/
def parseClock (zoned : Bool) (value : List Char) : Option Time :=
  (parseDateFields value).bind fun d =>
  (skipSpace d.2.2.2).bind fun v =>
  (parseClockFields v).bind fun c =>
  (if zoned then (skipSpace c.2.2.2).bind skipZone else some (c.2.2.2, 0)).bind fun z =>
  (inRange z.1.isEmpty).bind fun _ =>
  (inRange (decide (1 ≤ d.1 ∧ d.1 ≤ daysIn d.2.1 d.2.2.1))).bind fun _ =>
  some ((⟨(d.2.2.1 : Nat), d.2.1, d.1, c.1, c.2.1, c.2.2.1⟩ : Time).inFixedZone z.2)

end time

/-! ## The document of `parser/parser.go`

The HTML library `goquery` is outside the repository.  A document is modelled
by what the selections of `parseFile` yield: matched elements are records of
their text and attributes, and a message node is the function that maps a
selector to the selection `s.Find(selector)` among its descendants. -/

namespace goquery

/-- A matched element: the text of the element with its descendants, as
`Text()` returns it, and its attributes. -/
structure Element where
  /-- The text content. -/
  text : String
  /-- The attributes. -/
  attrs : Go.Map String String
  deriving DecidableEq

/-- A selection: the matched elements in document order. -/
abbrev Selection := List Element

namespace Selection

/-- Models `s.First()`. -/
def First (s : Selection) : Selection := s.take 1

/-- Models `s.Length()`. -/
def Length (s : Selection) : Int := s.length

/-- Models `s.Text()`: the combined text of the matched elements. -/
def Text (s : Selection) : String := String.join (s.map (fun e => e.text))

/-- Models `s.Attr(name)`: the attribute of the first matched element. -/
def Attr (s : Selection) (name : String) : Option String :=
  match s with
  | [] => none
  | e :: _ => Go.Map.find? e.attrs name

end Selection

/-- A node of the document: `s selector` is the selection `s.Find(selector)`. -/
abbrev Node := String → Selection

/-- A parsed file: the selection `doc.Find(".page_header .text.bold")` and the
nodes of the selection `doc.Find(".message.default")` in document order. -/
structure Document where
  /-- The header elements. -/
  header : Selection
  /-- The message nodes. -/
  messages : List Node

/-- A message node of an export file, for the examples: the `title` of its
date element, its own sender label and text (children of its body), and the
sender label and the text of a forwarded message nested in it.  The selections
of the example are the ones that the comments of `parseFile` describe: a
selector that starts with `>` yields the children of the body only, a selector
without yields the nested elements as well, after the direct ones.  What
`parseFile` reads from an example node is the same when the selectors that
start with `>` yield nothing, since the first element of the second selection
is then the direct one whenever there is one. -/
def exampleNode (date fromName text fwdFrom fwdText : Option String) : Node := fun selector =>
  if selector = "> .body > .pull_right.date.details" ∨ selector = ".date.details" then
    date.toList.map (fun d => { text := "", attrs := [("title", d)] })
  else if selector = "> .body > .from_name" then
    fromName.toList.map (fun t => { text := t, attrs := [] })
  else if selector = ".from_name" then
    (fromName.toList ++ fwdFrom.toList).map (fun t => { text := t, attrs := [] })
  else if selector = "> .body > .text" then
    text.toList.map (fun t => { text := t, attrs := [] })
  else if selector = ".text" then
    (text.toList ++ fwdText.toList).map (fun t => { text := t, attrs := [] })
  else if selector = ".forwarded" then
    (fwdFrom.toList ++ fwdText.toList).map (fun t => { text := t, attrs := [] })
  else []

end goquery

/-- The files of the export directory: the document that `os.Open` and
`goquery.NewDocumentFromReader` yield for a path, `none` when one of them fails. -/
abbrev FileSystem := String → Option goquery.Document

/-! ## The extractor of `parser/parser.go` -/

namespace parser

/-- The pattern `\d{2}\.\d{2}\.\d{4}` of `cleanForwardedName`, one test for each character. -/
def datePattern : List (Char → Bool) :=
  [time.isDigit, time.isDigit, fun c => c == '.', time.isDigit, time.isDigit,
   fun c => c == '.', time.isDigit, time.isDigit, time.isDigit, time.isDigit]

/-- Whether the characters at the head of the text pass the tests of a pattern, one by one. -/
def matchesHead : List (Char → Bool) → List Char → Bool
  | [], _ => true
  | _ :: _, [] => false
  | p :: ps, c :: cs => p c && matchesHead ps cs

/-- Whether the pattern `\s+\d{2}\.\d{2}\.\d{4}.*$` matches at the head of the
text: a run of `\s`, the date, and then no line feed up to the end of the text. -/
def dateSuffixAt : List Char → Bool
  | [] => false
  | c :: cs =>
    analyzer.isRegexpSpace c &&
    matchesHead datePattern (cs.dropWhile analyzer.isRegexpSpace) &&
    (((cs.dropWhile analyzer.isRegexpSpace).drop 10).all (fun x => x != '\n'))

/-- The scan of `datePattern.ReplaceAllString(name, "")`: a match runs to the
end of the text, so the text is cut at the first position with a match. -/
def stripDateSuffix : List Char → List Char
  | [] => []
  | c :: cs => if dateSuffixAt (c :: cs) then [] else c :: stripDateSuffix cs

/-- cleanForwardedName removes date suffix from forwarded message sender names. -/
def cleanForwardedName (name : String) : String :=
  strings.TrimSpace (String.mk (stripDateSuffix name.toList))

/-- The variable `dateStr` of `parseDate` when the parse attempts start: the
argument trimmed, cut before the first `" UTC"`, and trimmed again. -/
def dateText (dateStr : String) : List Char :=
  strings.trimSpace (strings.beforeFirst " UTC".toList (strings.TrimSpace dateStr).toList)

/-- parseDate parses date from format "01.09.2020 23:56:18 UTC+03:00". -/
def parseDate (dateStr : String) : time.Time :=
  let dateStr := dateText dateStr
  match time.parseClock true dateStr with
  | some t => t
  | none =>
    match time.parseClock false dateStr with
    | some t => t
    | none =>
      match time.parseClock false dateStr with
      | some t => t
      | none => time.Time.zero

/-- The date element of a message node. -/
def nodeDateEl (s : goquery.Node) : goquery.Selection :=
  let dateEl := (s "> .body > .pull_right.date.details").First
  if dateEl.Length == 0 then (s ".date.details").First else dateEl

/-- The date of the message of a node: the attribute `title` of the date
element parsed, the zero time when the attribute is absent. -/
def nodeDate (s : goquery.Node) : time.Time :=
  match (nodeDateEl s).Attr "title" with
  | some dateStr => parseDate dateStr
  | none => time.Time.zero

/-- The sender label of a message node after trimming and cleaning: the variable `fromName`. -/
def nodeFromName (s : goquery.Node) : String :=
  let fromEl := (s "> .body > .from_name").First
  let fromEl := if fromEl.Length == 0 then (s ".from_name").First else fromEl
  cleanForwardedName (strings.TrimSpace fromEl.Text)

/-- The text element of a message node. -/
def nodeTextEl (s : goquery.Node) : goquery.Selection :=
  let textEl := (s "> .body > .text").First
  if textEl.Length == 0 then (s ".text").First else textEl

/-- The text of a message node: the text element trimmed, the empty string without text element. -/
def nodeText (s : goquery.Node) : String :=
  if (nodeTextEl s).Length > 0 then strings.TrimSpace (nodeTextEl s).Text else ""

/-- The message that the callback of `parseFile` builds for a node, given the sender it resolved. -/
def nodeMessage (chatName lastFrom : String) (s : goquery.Node) : Message where
  ChatName := chatName
  Date := nodeDate s
  From := lastFrom
  Text := nodeText s
  Length := (nodeText s).length
  IsReply := (s ".reply_to").Length > 0
  IsForwarded := (s ".forwarded").Length > 0

/-- The variables that the callback of `parseFile` updates. -/
structure FileScan where
  /-- The messages retained so far. -/
  messages : List Message
  /-- The last known sender. -/
  lastFrom : String

/-- The callback of `parseFile` on one message node. -/
def scanNode (chatName : String) (st : FileScan) (s : goquery.Node) : FileScan :=
  let fromName := nodeFromName s
  let lastFrom := if fromName != "" then fromName else st.lastFrom
  let msg := nodeMessage chatName lastFrom s
  { messages :=
      if msg.Text != "" && !msg.Date.IsZero then st.messages ++ [msg] else st.messages
    lastFrom := lastFrom }

/-- The body of `parseFile` on an opened document: the messages and the chat name. -/
def parseDocument (doc : goquery.Document) : List Message × String :=
  let chatName := strings.TrimSpace doc.header.First.Text
  ((doc.messages.foldl (scanNode chatName) { messages := [], lastFrom := "" }).messages, chatName)

/-- parseFile parses a single HTML file and returns messages; `none` is the error. -/
def parseFile (fs : FileSystem) (filename : String) : Option (List Message × String) :=
  (fs filename).map parseDocument

end parser

namespace filepath

/-- Models `filepath.Base` for the separator `/`: the last element of the
path, after the trailing slashes are removed. -/
def Base (path : String) : String :=
  if path = "" then "."
  else
    let stripped := (path.toList.reverse.dropWhile (fun c => c == '/')).reverse
    let last := (stripped.reverse.takeWhile (fun c => c != '/')).reverse
    if last = [] then "/" else String.mk last

end filepath

namespace parser

/-- Whether the pattern `messages(\d*)\.html` matches at the head of the text,
and the digits of its group. -/
def fileNumberAt (l : List Char) : Option (List Char) :=
  if "messages".toList.isPrefixOf l &&
      ".html".toList.isPrefixOf ((l.drop 8).dropWhile time.isDigit) then
    some ((l.drop 8).takeWhile time.isDigit)
  else none

/-- The group of the leftmost match of `messages(\d*)\.html`, as in
`re.FindStringSubmatch(base)[1]`; `none` when there is no match. -/
def findFileNumber : List Char → Option (List Char)
  | [] => none
  | c :: cs =>
    match fileNumberAt (c :: cs) with
    | some digits => some digits
    | none => findFileNumber cs

/-- The variable `num` after `fmt.Sscanf(digits, "%d", &num)`: the value of
the digits, and 0 when the scan fails because the value is not an `int`. -/
def scanInt (digits : List Char) : Int :=
  if time.decimalValue digits < 2 ^ 63 then (time.decimalValue digits : Int) else 0

/-- extractFileNumber extracts the number from filename like "messages123.html". -/
def extractFileNumber (filename : String) : Int :=
  match findFileNumber (filepath.Base filename).toList with
  | none => 0
  | some digits => if digits = [] then 0 else scanInt digits

/-- The loop of `ParseAllFiles` over the sorted files, from the file of index `i`. -/
def parseFiles (fs : FileSystem) : Nat → List String → ParseResult → Option ParseResult
  | _, [], result => some result
  | i, file :: rest, result =>
    (parseFile fs file).bind fun parsed =>
      parseFiles fs (i + 1) rest
        { Metadata :=
            if i == 0 && parsed.2 != "" then
              { result.Metadata with Name := parsed.2, Kind := "личный" }
            else result.Metadata
          Messages := result.Messages ++ parsed.1 }

/-- The end of `ParseAllFiles`: the metadata of a non-empty message sequence. -/
def withMetadata (result : ParseResult) : ParseResult :=
  match result.Messages.head?, result.Messages.getLast? with
  | some first, some last =>
    { result with
      Metadata := { result.Metadata with
        FirstMessage := first.Date
        LastMessage := last.Date
        TotalCount := result.Messages.length } }
  | _, _ => result

/-- ParseAllFiles parses all messages*.html files in the given directory.
The list `files` is the result of `filepath.Glob`; `none` is the error. -/
def ParseAllFiles (fs : FileSystem) (files : List String) : Option ParseResult :=
  if files.length = 0 then none
  else
    let files := Go.sortSlice (fun a b => decide (extractFileNumber a < extractFileNumber b)) files
    (parseFiles fs 0 files
      { Metadata := { Name := "", Kind := "", FirstMessage := time.Time.zero,
                      LastMessage := time.Time.zero, TotalCount := 0 }
        Messages := [] }).map withMetadata

/-! ### Reference definitions for the extractor

The definitions below follow the words of the specification, not the code. -/

/-- The sender of a node, from the cleaned labels of the node and of the nodes
before it, nearest first: the first label that is not empty, and the empty
string when there is none. -/
def nearestLabel : List String → String
  | [] => ""
  | label :: before => if label != "" then label else nearestLabel before

/-- Whether the text has a character of `\s` followed by a `DD.MM.YYYY` digit pattern. -/
def spaceDateIn : List Char → Bool
  | [] => false
  | c :: cs => (analyzer.isRegexpSpace c && matchesHead datePattern cs) || spaceDateIn cs

/-- The calendar fields of a text that is exactly a valid timestamp
`DD.MM.YYYY HH:MM:SS`: two digits for the day, the month, the hour, the
minute and the second, four for the year, a month from 1 to 12, a day of that
month, an hour below 24, a minute and a second below 60. -/
def timestampFields (d : List Char) : Option time.Time :=
  match d with
  | [d₁, d₂, p₁, m₁, m₂, p₂, y₁, y₂, y₃, y₄, sp, h₁, h₂, c₁, n₁, n₂, c₂, s₁, s₂] =>
    let day := time.digitVal d₁ * 10 + time.digitVal d₂
    let month := time.digitVal m₁ * 10 + time.digitVal m₂
    let year := time.digitVal y₁ * 1000 + time.digitVal y₂ * 100 + time.digitVal y₃ * 10 +
      time.digitVal y₄
    let hour := time.digitVal h₁ * 10 + time.digitVal h₂
    let minute := time.digitVal n₁ * 10 + time.digitVal n₂
    let second := time.digitVal s₁ * 10 + time.digitVal s₂
    if [d₁, d₂, m₁, m₂, y₁, y₂, y₃, y₄, h₁, h₂, n₁, n₂, s₁, s₂].all time.isDigit ∧
        p₁ = '.' ∧ p₂ = '.' ∧ sp = ' ' ∧ c₁ = ':' ∧ c₂ = ':' ∧
        1 ≤ month ∧ month ≤ 12 ∧ 1 ≤ day ∧ day ≤ time.daysIn month year ∧
        hour < 24 ∧ minute < 60 ∧ second < 60 then
      some ⟨(year : Nat), month, day, hour, minute, second⟩
    else none
  | _ => none

/-! ### Reference definitions for the texts that `parseDate` reads

The definitions below describe the accepted texts by their shape, in the words
of the amended inclusion rule, not by the steps of `time.Parse`. -/

end parser

namespace analyzer

/-- UserStat represents user with message count. -/
structure UserStat where
  /-- The user. -/
  Name : String
  /-- The number of messages. -/
  Count : Int
  deriving DecidableEq

/-- GetSortedUsers returns users sorted by message count (descending). -/
def GetSortedUsers (messagesByUser : Go.Map String Int) : List UserStat :=
  Go.sortSlice (fun a b => decide (a.Count > b.Count))
    (messagesByUser.map (fun e => { Name := e.1, Count := e.2 }))

/-- The loop of `GetMainUsers` from the user of index `i`, with the result so far. -/
def mainUsersLoop (threshold : Int) : Nat → List UserStat → List UserStat → List UserStat
  | _, [], result => result
  | i, u :: users, result =>
    let result := if u.Count ≥ threshold || i < 10 then result ++ [u] else result
    if i ≥ 10 && u.Count < threshold then result
    else mainUsersLoop threshold (i + 1) users result

/-- GetMainUsers returns users with significant message count (>1% or top 10). -/
def GetMainUsers (messagesByUser : Go.Map String Int) (total : Int) : List UserStat :=
  let users := GetSortedUsers messagesByUser
  let threshold := Int.tdiv total 100
  let threshold := if threshold < 10 then 10 else threshold
  mainUsersLoop threshold 0 users []

end analyzer

/-! ## Facts about Go maps -/

namespace Go.Map

variable {κ ν : Type} [DecidableEq κ]

theorem find?_set_self (m : Map κ ν) (k : κ) (v : ν) : find? (set m k v) k = some v := by
  induction m with
  | nil => simp [set, find?]
  | cons e m ih =>
    obtain ⟨k', v'⟩ := e
    by_cases h : k' = k
    · simp [set, find?, h]
    · simp [set, find?, h, ih]

theorem find?_set_ne (m : Map κ ν) (k k' : κ) (v : ν) (h : k' ≠ k) :
    find? (set m k v) k' = find? m k' := by
  induction m with
  | nil => simp [set, find?, Ne.symm h]
  | cons e m ih =>
    obtain ⟨k₀, v₀⟩ := e
    by_cases h₀ : k₀ = k
    · subst h₀
      simp [set, find?, Ne.symm h]
    · simp [set, find?, h₀, ih]

theorem mem_set (m : Map κ ν) (k : κ) (v : ν) (e : κ × ν) (he : e ∈ set m k v) :
    e ∈ m ∨ e = (k, v) := by
  induction m with
  | nil => simpa [set] using he
  | cons e₀ m ih =>
    obtain ⟨k₀, v₀⟩ := e₀
    by_cases h₀ : k₀ = k
    · simp only [set, h₀, if_true, List.mem_cons] at he
      rcases he with he | he
      · exact Or.inr he
      · exact Or.inl (List.mem_cons_of_mem _ he)
    · simp only [set, h₀, if_false, List.mem_cons] at he
      rcases he with he | he
      · exact Or.inl (he ▸ List.mem_cons_self _ _)
      · rcases ih he with h | h
        · exact Or.inl (List.mem_cons_of_mem _ h)
        · exact Or.inr h

theorem mem_of_find? (m : Map κ ν) (k : κ) (v : ν) (h : find? m k = some v) : (k, v) ∈ m := by
  induction m with
  | nil => simp [find?] at h
  | cons e m ih =>
    obtain ⟨k₀, v₀⟩ := e
    by_cases h₀ : k₀ = k
    · simp [find?, h₀] at h
      simp [h₀, h]
    · simp [find?, h₀] at h
      exact List.mem_cons_of_mem _ (ih h)

theorem find?_of_mem (m : Map κ ν) (hm : WF m) (k : κ) (v : ν) (h : (k, v) ∈ m) :
    find? m k = some v := by
  induction m with
  | nil => simp at h
  | cons e m ih =>
    obtain ⟨k₀, v₀⟩ := e
    simp only [WF, keys, List.map_cons, List.nodup_cons, List.mem_map, not_exists, not_and] at hm
    rcases List.mem_cons.1 h with h | h
    · cases h
      simp [find?]
    · have hne : k₀ ≠ k := fun hk => hm.1 (k, v) h hk.symm
      simp only [find?, hne, if_false]
      exact ih hm.2 h

theorem keys_set (m : Map κ ν) (k : κ) (v : ν) :
    keys (set m k v) = if k ∈ keys m then keys m else keys m ++ [k] := by
  induction m with
  | nil => simp [set, keys]
  | cons e m ih =>
    obtain ⟨k₀, v₀⟩ := e
    by_cases h₀ : k₀ = k
    · subst h₀
      simp [set, keys]
    · have ih' := ih
      simp only [keys] at ih'
      simp only [set, h₀, if_false, keys, List.map_cons, ih', List.mem_cons, Ne.symm h₀,
        false_or]
      split <;> simp

theorem wf_set (m : Map κ ν) (hm : WF m) (k : κ) (v : ν) : WF (set m k v) := by
  unfold WF at *
  rw [keys_set]
  split
  · exact hm
  · rename_i hk
    exact List.Nodup.append hm (List.nodup_singleton k) (by simpa using hk)

/-- The sum of an integer measure over the values of a map after an assignment. -/
theorem sum_set (f : ν → Int) (m : Map κ ν) (k : κ) (v : ν) :
    ((set m k v).map (fun e => f e.2)).sum =
      (m.map (fun e => f e.2)).sum - ((find? m k).map f).getD 0 + f v := by
  induction m with
  | nil => simp [set, find?]
  | cons e m ih =>
    obtain ⟨k₀, v₀⟩ := e
    by_cases h₀ : k₀ = k
    · simp [set, find?, h₀]
      ring
    · simp [set, find?, h₀, ih]
      ring

theorem total_incr (m : Map κ Int) (k : κ) : total (incr m k) = total m + 1 := by
  have h := sum_set (fun x : Int => x) m k (get m k + 1)
  have e : ∀ l : Map κ Int, total l = (l.map (fun e => e.2)).sum := fun l => rfl
  rw [incr, e, e, h]
  simp only [get]
  cases find? m k with
  | none => simp
  | some x => simp only [Option.map_some', Option.getD_some]; ring

theorem keys_incr (m : Map κ Int) (k : κ) (w : κ) (hw : w ∈ keys (incr m k)) :
    w ∈ keys m ∨ w = k := by
  simp only [incr, keys_set] at hw
  split at hw
  · exact Or.inl hw
  · simpa using hw

end Go.Map

/-! ## Facts about `sort.Slice` and `getTopWords` -/

namespace Go

theorem insertSorted_perm {α : Type} (less : α → α → Bool) (x : α) (ys : List α) :
    (insertSorted less x ys).Perm (x :: ys) := by
  induction ys with
  | nil => simp [insertSorted]
  | cons y ys ih =>
    simp only [insertSorted]
    split
    · exact List.Perm.refl _
    · exact (List.Perm.cons y ih).trans (List.Perm.swap x y ys)

theorem foldl_insertSorted_perm {α : Type} (less : α → α → Bool) (xs acc : List α) :
    (xs.foldl (fun acc x => insertSorted less x acc) acc).Perm (xs ++ acc) := by
  induction xs generalizing acc with
  | nil => simp
  | cons x xs ih =>
    simp only [List.foldl_cons]
    refine (ih _).trans ?_
    refine (List.Perm.append_left xs (insertSorted_perm less x acc)).trans ?_
    simp

theorem sortSlice_perm {α : Type} (less : α → α → Bool) (xs : List α) :
    (sortSlice less xs).Perm xs := by
  simpa [sortSlice] using foldl_insertSorted_perm less xs []

theorem insertSorted_pairwise {α : Type} (key : α → Int) (x : α) (ys : List α)
    (h : ys.Pairwise (fun a b => key b ≤ key a)) :
    (insertSorted (fun a b => decide (key a > key b)) x ys).Pairwise
      (fun a b => key b ≤ key a) := by
  induction ys with
  | nil => simp [insertSorted]
  | cons y ys ih =>
    rw [List.pairwise_cons] at h
    simp only [insertSorted]
    by_cases hxy : key x > key y
    · simp only [hxy, decide_True, if_true]
      refine List.Pairwise.cons ?_ (List.Pairwise.cons h.1 h.2)
      intro z hz
      rcases List.mem_cons.1 hz with hz | hz
      · subst hz; omega
      · have := h.1 z hz; omega
    · simp only [hxy, decide_False, Bool.false_eq_true, if_false]
      refine List.Pairwise.cons ?_ (ih h.2)
      intro z hz
      rcases List.mem_cons.1 ((insertSorted_perm _ x ys).subset hz) with hz | hz
      · subst hz; omega
      · exact h.1 z hz

theorem sortSlice_pairwise {α : Type} (key : α → Int) (xs : List α) :
    (sortSlice (fun a b => decide (key a > key b)) xs).Pairwise (fun a b => key b ≤ key a) := by
  have h : ∀ acc : List α, acc.Pairwise (fun a b => key b ≤ key a) →
      (xs.foldl (fun acc x => insertSorted (fun a b => decide (key a > key b)) x acc) acc).Pairwise
        (fun a b => key b ≤ key a) := by
    induction xs with
    | nil => intro acc hacc; simpa using hacc
    | cons x xs ih =>
      intro acc hacc
      simp only [List.foldl_cons]
      exact ih _ (insertSorted_pairwise key x acc hacc)
  exact h [] List.Pairwise.nil

end Go

namespace analyzer

/-- The slice that `getTopWords` sorts: one `WordCount` for every entry of the map. -/
theorem getTopWords_eq (freq : Go.Map String Int) (n : Int) (h : 0 ≤ n) :
    getTopWords freq n = some
      ((Go.sortSlice (fun a b => decide (a.Count > b.Count))
        (freq.map (fun e => ({ Word := e.1, Count := e.2 } : WordCount)))).take n.toNat) := by
  simp only [getTopWords]
  split
  · simp [h]
  · rename_i hlen
    congr 1
    symm
    apply List.take_of_length_le
    omega

theorem getTopWords_some (freq : Go.Map String Int) (n : Int) (l : List WordCount)
    (h : getTopWords freq n = some l) :
    ∃ k : Nat, l = (Go.sortSlice (fun a b => decide (a.Count > b.Count))
        (freq.map (fun e => ({ Word := e.1, Count := e.2 } : WordCount)))).take k := by
  simp only [getTopWords] at h
  split at h
  · split at h
    · exact ⟨n.toNat, by simpa using h.symm⟩
    · simp at h
  · refine ⟨(freq.map (fun e => ({ Word := e.1, Count := e.2 } : WordCount))).length, ?_⟩
    simp only [Option.some.injEq] at h
    rw [← h]
    symm
    apply List.take_of_length_le
    rw [(Go.sortSlice_perm _ _).length_eq]

theorem getTopWords_length (freq : Go.Map String Int) (n : Int) (h : 0 ≤ n)
    (l : List WordCount) (hl : getTopWords freq n = some l) :
    (l.length : Int) = min n (Go.Map.keys freq).length := by
  rw [getTopWords_eq freq n h] at hl
  simp only [Option.some.injEq] at hl
  rw [← hl, List.length_take, (Go.sortSlice_perm _ _).length_eq]
  simp only [List.length_map, Go.Map.keys]
  omega

theorem getTopWords_sorted (freq : Go.Map String Int) (n : Int)
    (l : List WordCount) (hl : getTopWords freq n = some l) :
    l.Pairwise (fun a b => b.Count ≤ a.Count) := by
  obtain ⟨k, rfl⟩ := getTopWords_some freq n l hl
  exact (Go.sortSlice_pairwise WordCount.Count _).sublist (List.take_sublist _ _)

end analyzer

/-! ## The two passes of `Analyze` -/

namespace analyzer

theorem topWordsByUser_fold (b : Go.Map String (Go.Map String Int))
    (l : Go.Map String (Go.Map String Int)) (hl : ∀ e ∈ l, e ∈ b)
    (acc : Go.Map String (List WordCount))
    (hacc : ∀ e ∈ acc, ∃ e₀ ∈ b, e₀.1 = e.1 ∧ getTopWords e₀.2 20 = some e.2) :
    ∃ m, l.foldlM (fun acc e => do
        let top ← getTopWords e.2 20
        pure (acc.set e.1 top)) acc = some m ∧
      ∀ e ∈ m, ∃ e₀ ∈ b, e₀.1 = e.1 ∧ getTopWords e₀.2 20 = some e.2 := by
  induction l generalizing acc with
  | nil => exact ⟨acc, by simp, hacc⟩
  | cons e l ih =>
    have htop := getTopWords_eq e.2 20 (by decide)
    simp only [List.foldlM_cons, htop, Option.some_bind, Option.pure_def, Option.bind_eq_bind]
    apply ih (fun e' he' => hl e' (List.mem_cons_of_mem _ he'))
    intro e' he'
    rcases Go.Map.mem_set _ _ _ _ he' with h | h
    · exact hacc e' h
    · exact ⟨e, hl e (List.mem_cons_self _ _), by rw [h], by rw [h]; exact htop⟩

theorem topWordsByUser_some (b : Go.Map String (Go.Map String Int)) :
    ∃ m, topWordsByUser b = some m ∧
      ∀ e ∈ m, ∃ e₀ ∈ b, e₀.1 = e.1 ∧ getTopWords e₀.2 20 = some e.2 :=
  topWordsByUser_fold b b (fun _ h => h) [] (by simp)

theorem finalize_some (ys : YearStats) :
    ∃ ys', finalize ys = some ys' ∧ Finalized ys ys' ∧
      ys'.FirstMessage = ys.FirstMessage ∧ ys'.LastMessage = ys.LastMessage := by
  obtain ⟨m, hm, -⟩ := topWordsByUser_some ys.WordFrequencyByUser
  have htop := getTopWords_eq ys.WordFrequency 20 (by decide)
  simp only [finalize, htop, hm, Option.some_bind, Option.pure_def, Option.bind_eq_bind]
  refine ⟨_, rfl, ?_, rfl, rfl⟩
  constructor <;> first | rfl | exact htop | exact hm

theorem finalizeYears_some (m : Go.Map Int YearStats) :
    ∃ m', finalizeYears m = some m' ∧
      List.Forall₂ (fun e e' => e'.1 = e.1 ∧ Finalized e.2 e'.2 ∧
        e'.2.FirstMessage = e.2.FirstMessage ∧ e'.2.LastMessage = e.2.LastMessage) m m' := by
  induction m with
  | nil => exact ⟨[], rfl, List.Forall₂.nil⟩
  | cons e m ih =>
    obtain ⟨year, ys⟩ := e
    obtain ⟨m', hm', hall⟩ := ih
    obtain ⟨ys', hys', hfin⟩ := finalize_some ys
    refine ⟨(year, ys') :: m', ?_, List.Forall₂.cons ⟨rfl, hfin⟩ hall⟩
    simp only [finalizeYears, hys', hm', Option.some_bind, Option.pure_def, Option.bind_eq_bind]

/-- `Analyze` returns: the result is the message loop followed by the
finalization of every accumulator. -/
theorem Analyze_some (U : unicode.Tables) (result : parser.ParseResult) :
    ∃ stats, Analyze U result = some stats ∧
      Finalized (accumulate U result).Overall stats.Overall ∧
      stats.Overall.FirstMessage = result.Metadata.FirstMessage ∧
      stats.Overall.LastMessage = result.Metadata.LastMessage ∧
      List.Forall₂ (fun e e' => e'.1 = e.1 ∧ Finalized e.2 e'.2 ∧
        e'.2.FirstMessage = e.2.FirstMessage ∧ e'.2.LastMessage = e.2.LastMessage)
        (accumulate U result).ByYear stats.ByYear := by
  obtain ⟨m', hm', hall⟩ := finalizeYears_some (accumulate U result).ByYear
  obtain ⟨ys', hys', hfin, -, -⟩ := finalize_some (accumulate U result).Overall
  simp only [Analyze, hm', hys', Option.some_bind, Option.pure_def, Option.bind_eq_bind]
  refine ⟨_, rfl, ?_, rfl, rfl, hall⟩
  exact ⟨hfin.1, hfin.2, hfin.3, hfin.4, hfin.5, hfin.6, hfin.7, hfin.8, hfin.9, hfin.10,
    hfin.11, hfin.12, hfin.13, hfin.14⟩

theorem forall₂_right_mem {α β : Type} (R : α → β → Prop) (l : List α) (l' : List β)
    (h : List.Forall₂ R l l') (b : β) (hb : b ∈ l') : ∃ a ∈ l, R a b := by
  induction h with
  | nil => simp at hb
  | cons hab _ ih =>
    rcases List.mem_cons.1 hb with hb | hb
    · subst hb
      exact ⟨_, List.mem_cons_self _ _, hab⟩
    · obtain ⟨a, ha, hR⟩ := ih hb
      exact ⟨a, List.mem_cons_of_mem _ ha, hR⟩

/-- Every accumulator of the result is the finalization of an accumulator of the message loop. -/
theorem Analyze_accumulators (U : unicode.Tables) (result : parser.ParseResult) :
    ∃ stats, Analyze U result = some stats ∧
      ∀ ys' ∈ stats.accumulators, ∃ ys ∈ (accumulate U result).accumulators, Finalized ys ys' := by
  obtain ⟨stats, hs, hov, -, -, hall⟩ := Analyze_some U result
  refine ⟨stats, hs, ?_⟩
  intro ys' hys'
  simp only [Stats.accumulators, List.mem_cons, Go.Map.values, List.mem_map] at hys' ⊢
  rcases hys' with rfl | ⟨e', he', rfl⟩
  · exact ⟨_, Or.inl rfl, hov⟩
  · obtain ⟨e, he, -, hfin, -⟩ := forall₂_right_mem _ _ _ hall e' he'
    exact ⟨e.2, Or.inr ⟨e, he, rfl⟩, hfin⟩

theorem countWords_fold_inv₂ (Q₁ Q₂ : YearStats → Prop) (user : String) (words : List String)
    (hword₁ : ∀ w ∈ words, ∀ ys, stopwords.IsStopWord w = false → w.length > 1 → Q₁ ys →
      Q₁ (countWord user w ys))
    (hword₂ : ∀ w ∈ words, ∀ ys, stopwords.IsStopWord w = false → w.length > 1 → Q₂ ys →
      Q₂ (countWord user w ys))
    (acc : YearStats × YearStats) (h : Q₁ acc.1 ∧ Q₂ acc.2) :
    Q₁ (words.foldl (countWords user) acc).1 ∧ Q₂ (words.foldl (countWords user) acc).2 := by
  induction words generalizing acc with
  | nil => exact h
  | cons w ws ih =>
    simp only [List.foldl_cons]
    apply ih (fun w' hw' => hword₁ w' (List.mem_cons_of_mem _ hw'))
      (fun w' hw' => hword₂ w' (List.mem_cons_of_mem _ hw'))
    simp only [countWords]
    by_cases hc : stopwords.IsStopWord w = false ∧ w.length > 1
    · have h1 := hword₁ w (List.mem_cons_self _ _) acc.1 hc.1 hc.2 h.1
      have h2 := hword₂ w (List.mem_cons_self _ _) acc.2 hc.1 hc.2 h.2
      simp [hc.1, hc.2, h1, h2]
    · split
      · rename_i hc'
        simp only [Bool.and_eq_true, Bool.not_eq_true', decide_eq_true_eq] at hc'
        exact absurd hc' hc
      · exact h

theorem countWords_fold_inv (Q : YearStats → Prop) (user : String) (words : List String)
    (hword : ∀ w ∈ words, ∀ ys, stopwords.IsStopWord w = false → w.length > 1 → Q ys →
      Q (countWord user w ys))
    (acc : YearStats × YearStats) (h : Q acc.1 ∧ Q acc.2) :
    Q (words.foldl (countWords user) acc).1 ∧ Q (words.foldl (countWords user) acc).2 :=
  countWords_fold_inv₂ Q Q user words hword hword acc h

/-- An invariant of the accumulators: a property of the fresh accumulator that
every update of the message loop keeps holds of every accumulator at the end of the loop. -/
theorem accumulate_inv (U : unicode.Tables) (Q : YearStats → Prop)
    (hnew : ∀ y, Q (newYearStats y))
    (hmsg : ∀ msg ys, Q ys → Q (countMessage msg ys))
    (hfl : ∀ msg ys, Q ys → Q (trackFirstLast msg ys))
    (hword : ∀ (msg : parser.Message) (w : String) (ys : YearStats),
      w ∈ extractWords U msg.Text → stopwords.IsStopWord w = false → w.length > 1 → Q ys →
      Q (countWord msg.From w ys))
    (result : parser.ParseResult) :
    ∀ ys ∈ (accumulate U result).accumulators, Q ys := by
  have step : ∀ (msgs : List parser.Message) (s : Stats),
      (∀ ys ∈ s.accumulators, Q ys) →
      ∀ ys ∈ (msgs.foldl (processMessage U) s).accumulators, Q ys := by
    intro msgs
    induction msgs with
    | nil => intro s hs; simpa using hs
    | cons msg msgs ih =>
      intro s hs
      simp only [List.foldl_cons]
      apply ih
      have hov : Q s.Overall := hs _ (by simp [Stats.accumulators])
      have hby : ∀ e ∈ s.ByYear, Q e.2 := fun e he =>
        hs _ (by simp only [Stats.accumulators, Go.Map.values, List.mem_cons, List.mem_map]
                 exact Or.inr ⟨e, he, rfl⟩)
      -- the year accumulator after the lazy initialization
      have hby' : ∀ e ∈ (if (s.ByYear.find? msg.Date.Year).isNone then
          s.ByYear.set msg.Date.Year (newYearStats msg.Date.Year) else s.ByYear), Q e.2 := by
        intro e he
        split at he
        · rcases Go.Map.mem_set _ _ _ _ he with h | h
          · exact hby e h
          · rw [h]; exact hnew _
        · exact hby e he
      have hys : Q (((if (s.ByYear.find? msg.Date.Year).isNone then
          s.ByYear.set msg.Date.Year (newYearStats msg.Date.Year) else s.ByYear).find?
            msg.Date.Year).getD (newYearStats msg.Date.Year)) := by
        cases hf : Go.Map.find? (if (s.ByYear.find? msg.Date.Year).isNone then
          s.ByYear.set msg.Date.Year (newYearStats msg.Date.Year) else s.ByYear) msg.Date.Year with
        | none => exact hnew _
        | some v => exact hby' _ (Go.Map.mem_of_find? _ _ _ hf)
      have hfold := countWords_fold_inv Q msg.From (extractWords U msg.Text)
        (fun w hw ys h1 h2 hq => hword msg w ys hw h1 h2 hq)
        (trackFirstLast msg (countMessage msg _), countMessage msg s.Overall)
        ⟨hfl _ _ (hmsg _ _ hys), hmsg _ _ hov⟩
      intro ys hys'
      simp only [Stats.accumulators, processMessage, Go.Map.values, List.mem_cons,
        List.mem_map] at hys'
      rcases hys' with rfl | ⟨e, he, rfl⟩
      · exact hfold.2
      · rcases Go.Map.mem_set _ _ _ _ he with h | h
        · exact hby' e h
        · rw [h]; exact hfold.1
  apply step
  intro ys hys
  simp only [Stats.accumulators, initStats, Go.Map.values, List.map_nil, List.mem_singleton] at hys
  rw [hys]
  exact hnew 0

end analyzer

/-! ## The counters of the message loop -/

namespace analyzer

theorem forall₂_map_eq {α β γ : Type} (R : α → β → Prop) (f : α → γ) (g : β → γ)
    (hR : ∀ a b, R a b → f a = g b) (l : List α) (l' : List β) (h : List.Forall₂ R l l') :
    l.map f = l'.map g := by
  induction h with
  | nil => rfl
  | cons hab _ ih => simp [hR _ _ hab, ih]

theorem countWords_fold_totalMessages (user : String) (words : List String)
    (acc : YearStats × YearStats) :
    (words.foldl (countWords user) acc).1.TotalMessages = acc.1.TotalMessages ∧
    (words.foldl (countWords user) acc).2.TotalMessages = acc.2.TotalMessages :=
  countWords_fold_inv₂ (fun ys => ys.TotalMessages = acc.1.TotalMessages)
    (fun ys => ys.TotalMessages = acc.2.TotalMessages) user words
    (fun _ _ _ _ _ h => h) (fun _ _ _ _ _ h => h) acc ⟨rfl, rfl⟩

/-- One message adds one to the overall count and one to the sum of the year counts. -/
theorem processMessage_totalMessages (U : unicode.Tables) (s : Stats) (msg : parser.Message) :
    (processMessage U s msg).Overall.TotalMessages = s.Overall.TotalMessages + 1 ∧
    ((processMessage U s msg).ByYear.map (fun e => e.2.TotalMessages)).sum =
      (s.ByYear.map (fun e => e.2.TotalMessages)).sum + 1 := by
  have hfold := countWords_fold_totalMessages msg.From (extractWords U msg.Text)
  simp only [processMessage]
  refine ⟨by rw [(hfold _).2]; rfl, ?_⟩
  rw [Go.Map.sum_set (fun ys : YearStats => ys.TotalMessages), (hfold _).1]
  cases hf : Go.Map.find? s.ByYear msg.Date.Year with
  | none =>
    simp only [Option.isNone_none, if_true, Go.Map.find?_set_self, Option.getD_some,
      Option.map_some', Go.Map.sum_set (fun ys : YearStats => ys.TotalMessages), hf,
      Option.map_none', Option.getD_none, trackFirstLast, countMessage, newYearStats]
    ring
  | some ys =>
    simp only [Option.isNone_some, Bool.false_eq_true, if_false, hf, Option.getD_some,
      Option.map_some', trackFirstLast, countMessage]
    ring

theorem accumulate_totalMessages (U : unicode.Tables) (result : parser.ParseResult) :
    (accumulate U result).Overall.TotalMessages = result.Messages.length ∧
    ((accumulate U result).ByYear.map (fun e => e.2.TotalMessages)).sum =
      result.Messages.length := by
  have step : ∀ (msgs : List parser.Message) (s : Stats),
      (msgs.foldl (processMessage U) s).Overall.TotalMessages =
        s.Overall.TotalMessages + msgs.length ∧
      ((msgs.foldl (processMessage U) s).ByYear.map (fun e => e.2.TotalMessages)).sum =
        (s.ByYear.map (fun e => e.2.TotalMessages)).sum + msgs.length := by
    intro msgs
    induction msgs with
    | nil => intro s; simp
    | cons msg msgs ih =>
      intro s
      obtain ⟨h1, h2⟩ := processMessage_totalMessages U s msg
      obtain ⟨i1, i2⟩ := ih (processMessage U s msg)
      simp only [List.foldl_cons, List.length_cons, Nat.cast_add, Nat.cast_one]
      rw [i1, i2, h1, h2]
      constructor <;> ring
  have h := step result.Messages (initStats result)
  simpa [accumulate, initStats, newYearStats] using h

theorem conserved_countMessage (msg : parser.Message) (ys : YearStats)
    (h : ys.MessagesByUser.total = ys.TotalMessages ∧
      ys.HourlyActivity.total = ys.TotalMessages ∧
      ys.MonthlyActivity.total = ys.TotalMessages) :
    (countMessage msg ys).MessagesByUser.total = (countMessage msg ys).TotalMessages ∧
    (countMessage msg ys).HourlyActivity.total = (countMessage msg ys).TotalMessages ∧
    (countMessage msg ys).MonthlyActivity.total = (countMessage msg ys).TotalMessages := by
  simp only [countMessage, Go.Map.total_incr, h.1, h.2.1, h.2.2, and_self]

theorem not_stopword_iff (w : String) : stopwords.IsStopWord w = false ↔ w ∉ stopwords.Russian := by
  simp [stopwords.IsStopWord]

theorem stopfree_countWord (user w : String) (ys : YearStats)
    (hw : stopwords.IsStopWord w = false)
    (h : (∀ k ∈ Go.Map.keys ys.WordFrequency, k ∉ stopwords.Russian) ∧
      ∀ e ∈ ys.WordFrequencyByUser, ∀ k ∈ Go.Map.keys e.2, k ∉ stopwords.Russian) :
    (∀ k ∈ Go.Map.keys (countWord user w ys).WordFrequency, k ∉ stopwords.Russian) ∧
    ∀ e ∈ (countWord user w ys).WordFrequencyByUser, ∀ k ∈ Go.Map.keys e.2,
      k ∉ stopwords.Russian := by
  have hw' := (not_stopword_iff w).1 hw
  constructor
  · intro k hk
    rcases Go.Map.keys_incr _ _ _ hk with hk | hk
    · exact h.1 k hk
    · rw [hk]; exact hw'
  · -- the map of the senders after the inner map of `user` is made
    have hby : ∀ e ∈ (if (ys.WordFrequencyByUser.find? user).isNone then
        ys.WordFrequencyByUser.set user [] else ys.WordFrequencyByUser),
        ∀ k ∈ Go.Map.keys e.2, k ∉ stopwords.Russian := by
      intro e he
      split at he
      · rcases Go.Map.mem_set _ _ _ _ he with he | he
        · exact h.2 e he
        · rw [he]; simp [Go.Map.keys]
      · exact h.2 e he
    intro e he k hk
    simp only [countWord] at he
    rcases Go.Map.mem_set _ _ _ _ he with he | he
    · exact hby e he k hk
    · rw [he] at hk
      rcases Go.Map.keys_incr _ _ _ hk with hk | hk
      · cases hf : Go.Map.find? (if (ys.WordFrequencyByUser.find? user).isNone then
          ys.WordFrequencyByUser.set user [] else ys.WordFrequencyByUser) user with
        | none => rw [hf] at hk; simp [Go.Map.keys] at hk
        | some inner =>
          rw [hf] at hk
          exact hby _ (Go.Map.mem_of_find? _ _ _ hf) k hk
      · rw [hk]; exact hw'

end analyzer

/-! ## The tokenizer -/

namespace analyzer

theorem stripURLs_of_no_url (l : List Char) (h : hasURL l = false) : stripURLs false l = l := by
  induction l with
  | nil => rfl
  | cons c cs ih =>
    simp only [hasURL, Bool.or_eq_false_iff] at h
    simp only [stripURLs, h.1, Bool.false_eq_true, if_false, ih h.2]

theorem removeURLs_of_no_url (text : String) (h : containsURL text = false) :
    removeURLs text = text := by
  simp only [removeURLs, stripURLs_of_no_url _ h]
  rfl

/-- The result slice after the current word is closed. -/
theorem closeWord_eq (U : unicode.Tables) (res : List String) (cur : List Char) :
    closeWord U ⟨res, cur⟩ =
      res ++ (if decide (2 ≤ cur.length) && !cur.all U.IsDigit then [String.mk cur] else []) := by
  cases cur with
  | nil => simp [closeWord]
  | cons c cs =>
    simp only [closeWord, isNumber, String.length, List.length_cons, String.toList]
    by_cases h1 : 2 ≤ cs.length + 1
    · have h2 : cs.length + 1 > 1 := by omega
      by_cases h3 : (c :: cs).all U.IsDigit = true
      · simp [h1, h2, h3]
      · simp [h1, h2, h3]
    · have h2 : ¬ (cs.length + 1 > 1) := by omega
      simp [h1, h2]

/-- The loop of `extractWords` collects the maximal runs of letters and
digits that have at least two characters and are not all digits. -/
theorem scan_runs (U : unicode.Tables) (l : List Char) (res : List String) (cur : List Char)
    (hcur : ∀ c ∈ cur, (U.IsLetter c || U.IsDigit c) = true) :
    closeWord U (l.foldl (scanRune U) ⟨res, cur⟩) =
      res ++ ((maximalRuns (fun c => U.IsLetter c || U.IsDigit c) (cur ++ l)).filter
        (fun run => decide (2 ≤ run.length) && !run.all U.IsDigit)).map String.mk := by
  have hsplit : ∀ x ∈ cur, ¬ ((fun c => !(U.IsLetter c || U.IsDigit c)) x = true) := by
    intro x hx
    simp only [hcur x hx, Bool.not_true, Bool.false_eq_true, not_false_eq_true]
  have hone : (([cur].filter (fun run => !run.isEmpty)).filter
      (fun run => decide (2 ≤ run.length) && !run.all U.IsDigit)).map String.mk =
      (if decide (2 ≤ cur.length) && !cur.all U.IsDigit then [String.mk cur] else []) := by
    cases cur with
    | nil => simp
    | cons c cs =>
      simp only [List.filter_cons, List.isEmpty_cons, Bool.not_false, if_true, List.filter_nil]
      split <;> simp
  induction l generalizing res cur with
  | nil =>
    rw [List.foldl_nil, closeWord_eq, List.append_nil, maximalRuns,
      List.splitOnP_eq_single _ _ hsplit, hone]
  | cons c l ih =>
    rw [List.foldl_cons]
    by_cases hc : (U.IsLetter c || U.IsDigit c) = true
    · have hstep : scanRune U ⟨res, cur⟩ c = ⟨res, cur ++ [c]⟩ := by
        simp only [scanRune, hc, if_true]
      have hcur' : ∀ x ∈ cur ++ [c], (U.IsLetter x || U.IsDigit x) = true := by
        intro x hx
        rcases List.mem_append.1 hx with hx | hx
        · exact hcur x hx
        · simp only [List.mem_singleton] at hx
          rw [hx]; exact hc
      have hsplit' : ∀ x ∈ cur ++ [c], ¬ ((fun c => !(U.IsLetter c || U.IsDigit c)) x = true) := by
        intro x hx
        simp only [hcur' x hx, Bool.not_true, Bool.false_eq_true, not_false_eq_true]
      have hone' : (([cur ++ [c]].filter (fun run => !run.isEmpty)).filter
          (fun run => decide (2 ≤ run.length) && !run.all U.IsDigit)).map String.mk =
          (if decide (2 ≤ (cur ++ [c]).length) && !(cur ++ [c]).all U.IsDigit then
            [String.mk (cur ++ [c])] else []) := by
        have hne : (cur ++ [c]).isEmpty = false := by cases cur <;> rfl
        simp only [List.filter_cons, hne, Bool.not_false, if_true, List.filter_nil]
        split <;> simp
      rw [hstep, ih res (cur ++ [c]) hcur' hsplit' hone', List.append_assoc, List.singleton_append]
    · have hstep : scanRune U ⟨res, cur⟩ c = ⟨closeWord U ⟨res, cur⟩, []⟩ := by
        simp [scanRune, hc]
      have hsep : (fun c => !(U.IsLetter c || U.IsDigit c)) c = true := by
        simpa using hc
      rw [hstep, ih _ [] (by simp) (by simp) (by simp), closeWord_eq, maximalRuns, maximalRuns,
        List.splitOnP_first _ _ hsplit c hsep, List.nil_append, ← hone]
      have e : ∀ X : List (List Char), cur :: X = [cur] ++ X := fun _ => rfl
      rw [e (List.splitOnP (fun c => !(U.IsLetter c || U.IsDigit c)) l)]
      simp only [List.filter_append, List.map_append, List.append_assoc]

theorem extractWords_of_no_url (U : unicode.Tables) (text : String)
    (h : containsURL text = false) :
    extractWords U text =
      ((tokenRuns U text).filter
        (fun run => decide (2 ≤ run.length) && !run.all U.IsDigit)).map String.mk := by
  simp only [extractWords, removeURLs_of_no_url text h, toLower, String.toList, tokenRuns]
  have := scan_runs U (text.data.map U.ToLower) [] [] (by simp)
  simpa using this

end analyzer

/-! ## The words counted by the message loop -/

namespace Go.Map

variable {κ : Type} [DecidableEq κ]

theorem get_incr (m : Map κ Int) (k w : κ) :
    get (incr m k) w = get m w + (if w = k then 1 else 0) := by
  by_cases h : w = k
  · subst h
    simp [get, incr, find?_set_self]
  · simp [get, incr, find?_set_ne _ _ _ _ h, h]

end Go.Map

namespace analyzer

/-- The word loop adds to the overall count of `w` the number of occurrences
of `w` among the words that pass the stopword and length test. -/
theorem countWords_fold_get (user : String) (words : List String)
    (acc : YearStats × YearStats) (w : String) :
    (words.foldl (countWords user) acc).2.WordFrequency.get w =
      acc.2.WordFrequency.get w +
        ((words.filter (fun x => !stopwords.IsStopWord x && decide (x.length > 1))).count w : Nat) := by
  induction words generalizing acc with
  | nil => simp
  | cons x xs ih =>
    rw [List.foldl_cons, ih]
    by_cases hc : (!stopwords.IsStopWord x && decide (x.length > 1)) = true
    · have hstep : (countWords user acc x).2.WordFrequency.get w =
          acc.2.WordFrequency.get w + (if w = x then 1 else 0) := by
        simp only [countWords, hc, if_true, countWord, Go.Map.get_incr]
      have hf : (x :: xs).filter (fun x => !stopwords.IsStopWord x && decide (x.length > 1)) =
          x :: xs.filter (fun x => !stopwords.IsStopWord x && decide (x.length > 1)) := by
        simp only [List.filter_cons, hc, if_true]
      rw [hstep, hf, List.count_cons]
      by_cases hw : w = x
      · subst hw
        simp
        ring
      · have hw' : ¬ (x = w) := fun h => hw h.symm
        simp [hw, hw']
    · have hstep : countWords user acc x = acc := by
        simp only [countWords, hc, Bool.false_eq_true, if_false]
      have hf : (x :: xs).filter (fun x => !stopwords.IsStopWord x && decide (x.length > 1)) =
          xs.filter (fun x => !stopwords.IsStopWord x && decide (x.length > 1)) := by
        simp only [List.filter_cons, hc, Bool.false_eq_true, if_false]
      rw [hstep, hf]

theorem processMessage_wordFrequency (U : unicode.Tables) (s : Stats) (msg : parser.Message)
    (w : String) :
    (processMessage U s msg).Overall.WordFrequency.get w =
      s.Overall.WordFrequency.get w +
        (((extractWords U msg.Text).filter
          (fun x => !stopwords.IsStopWord x && decide (x.length > 1))).count w : Nat) := by
  simp only [processMessage]
  rw [countWords_fold_get]
  rfl

theorem accumulate_wordFrequency (U : unicode.Tables) (result : parser.ParseResult)
    (w : String) :
    (accumulate U result).Overall.WordFrequency.get w =
      (result.Messages.map (fun msg =>
        ((((extractWords U msg.Text).filter
          (fun x => !stopwords.IsStopWord x && decide (x.length > 1))).count w : Nat) :
            Int))).sum := by
  have step : ∀ (msgs : List parser.Message) (s : Stats),
      (msgs.foldl (processMessage U) s).Overall.WordFrequency.get w =
        s.Overall.WordFrequency.get w +
          (msgs.map (fun msg =>
            ((((extractWords U msg.Text).filter
              (fun x => !stopwords.IsStopWord x && decide (x.length > 1))).count w : Nat) :
                Int))).sum := by
    intro msgs
    induction msgs with
    | nil => intro s; simp
    | cons msg msgs ih =>
      intro s
      rw [List.foldl_cons, ih, processMessage_wordFrequency, List.map_cons, List.sum_cons]
      ring
  have h := step result.Messages (initStats result)
  simpa [accumulate, initStats, newYearStats, Go.Map.get, Go.Map.find?] using h

/-- On a text without URL the words that pass the test of the word loop are
the reference words. -/
theorem counted_words_eq (U : unicode.Tables) (text : String) (h : containsURL text = false) :
    (extractWords U text).filter (fun x => !stopwords.IsStopWord x && decide (x.length > 1)) =
      referenceWords U text := by
  rw [extractWords_of_no_url U text h, referenceWords, List.filter_map, List.filter_filter]
  congr 1
  apply List.filter_congr
  intro run _
  simp only [Function.comp, String.length]
  rcases run with _ | ⟨a, _ | ⟨b, rest⟩⟩
  · simp
  · simp
  · cases (a :: b :: rest).all U.IsDigit <;> cases stopwords.IsStopWord (String.mk (a :: b :: rest)) <;>
      simp

end analyzer

/-! ## The removal of URLs -/

namespace analyzer

/-- A scheme without a character of `\s` matches before a space exactly when
it matches in the text before the space. -/
theorem scheme_before_space (sch : List Char) (hsch : ∀ c ∈ sch, isRegexpSpace c = false)
    (t s : List Char) :
    (sch.isPrefixOf (t ++ ' ' :: s) &&
        ((t ++ ' ' :: s).drop sch.length).head?.any (fun c => !isRegexpSpace c)) =
      (sch.isPrefixOf t && (t.drop sch.length).head?.any (fun c => !isRegexpSpace c)) := by
  induction sch generalizing t with
  | nil =>
    cases t with
    | nil => simp [isRegexpSpace]
    | cons c t => simp
  | cons p ps ih =>
    cases t with
    | nil =>
      have hp : isRegexpSpace p = false := hsch p (List.mem_cons_self _ _)
      have hne : (p == ' ') = false := by
        simp only [isRegexpSpace, Bool.or_eq_false_iff] at hp
        exact hp.2
      simp [List.isPrefixOf, hne]
    | cons c t =>
      have := ih (fun c hc => hsch c (List.mem_cons_of_mem _ hc)) t
      simp only [List.cons_append, List.isPrefixOf, List.length_cons, List.drop_succ_cons,
        Bool.and_assoc, List.append_eq, this]

theorem urlAt_before_space (t s : List Char) : urlAt (t ++ ' ' :: s) = urlAt t := by
  have h7 := scheme_before_space "http://".toList (by decide) t s
  have h8 := scheme_before_space "https://".toList (by decide) t s
  have e7 : "http://".toList.length = 7 := by decide
  have e8 : "https://".toList.length = 8 := by decide
  rw [e7] at h7
  rw [e8] at h8
  simp only [urlAt, h7, h8]

/-- The removal of URLs works on each side of a space separately. -/
theorem stripURLs_space (inURL : Bool) (t s : List Char) :
    stripURLs inURL (t ++ ' ' :: s) = stripURLs inURL t ++ ' ' :: stripURLs false s := by
  induction t generalizing inURL with
  | nil =>
    cases inURL with
    | true => simp [stripURLs, isRegexpSpace]
    | false =>
      have h : urlAt (' ' :: s) = false := by
        have := urlAt_before_space [] s
        simpa using this
      simp [stripURLs, h]
  | cons c t ih =>
    cases inURL with
    | true =>
      simp only [List.cons_append, stripURLs, List.append_eq]
      split
      · rw [ih]; rfl
      · rw [ih]
    | false =>
      have h : urlAt (c :: (t ++ ' ' :: s)) = urlAt (c :: t) := urlAt_before_space (c :: t) s
      simp only [List.cons_append, stripURLs, List.append_eq, h]
      split
      · rw [ih]
      · rw [ih]; rfl

theorem stripURLs_inside (v : List Char) (hv : ∀ c ∈ v, isRegexpSpace c = false) :
    stripURLs true v = [] := by
  induction v with
  | nil => rfl
  | cons c v ih =>
    simp only [stripURLs, hv c (List.mem_cons_self _ _), Bool.false_eq_true, if_false]
    exact ih (fun x hx => hv x (List.mem_cons_of_mem _ hx))

/-- A URL is removed whole. -/
theorem stripURLs_url (scheme rest : List Char)
    (hscheme : scheme = "http://".toList ∨ scheme = "https://".toList)
    (hne : rest ≠ []) (hrest : ∀ c ∈ rest, isRegexpSpace c = false) :
    stripURLs false (scheme ++ rest) = [] := by
  obtain ⟨c, rest', rfl⟩ := List.exists_cons_of_ne_nil hne
  have hc : isRegexpSpace c = false := hrest c (List.mem_cons_self _ _)
  have hall : ∀ x ∈ scheme ++ c :: rest', isRegexpSpace x = false := by
    intro x hx
    rcases List.mem_append.1 hx with hx | hx
    · have h7 : ∀ x ∈ "http://".toList, isRegexpSpace x = false := by decide
      have h8 : ∀ x ∈ "https://".toList, isRegexpSpace x = false := by decide
      rcases hscheme with rfl | rfl
      · exact h7 x hx
      · exact h8 x hx
    · exact hrest x hx
  have hurl : urlAt (scheme ++ c :: rest') = true := by
    rcases hscheme with rfl | rfl
    · have e : "http://".toList = ['h', 't', 't', 'p', ':', '/', '/'] := by decide
      simp [urlAt, e, List.isPrefixOf, hc]
    · have e : "https://".toList = ['h', 't', 't', 'p', 's', ':', '/', '/'] := by decide
      simp [urlAt, e, List.isPrefixOf, hc]
  have hcons : ∃ h tl, scheme ++ c :: rest' = h :: tl := by
    rcases hscheme with rfl | rfl
    · exact ⟨_, _, rfl⟩
    · exact ⟨_, _, rfl⟩
  obtain ⟨h, tl, htl⟩ := hcons
  rw [htl] at hurl hall ⊢
  simp only [stripURLs, hurl, if_true]
  exact stripURLs_inside tl (fun x hx => hall x (List.mem_cons_of_mem _ hx))

/-- The words of two texts separated by two boundary characters. -/
theorem scan_two_boundaries (U : unicode.Tables) (sp : Char)
    (hsp : (U.IsLetter sp || U.IsDigit sp) = false) (x y : List Char) :
    closeWord U ((x ++ sp :: sp :: y).foldl (scanRune U) ⟨[], []⟩) =
      closeWord U (x.foldl (scanRune U) ⟨[], []⟩) ++ closeWord U (y.foldl (scanRune U) ⟨[], []⟩) := by
  have hstep : ∀ s : WordScan, scanRune U s sp = ⟨closeWord U s, []⟩ := by
    intro s
    simp [scanRune, hsp]
  have hclose : ∀ W : List String, closeWord U ⟨W, []⟩ = W := by
    intro W
    simp [closeWord]
  rw [List.foldl_append, List.foldl_cons, List.foldl_cons, hstep, hstep, hclose,
    scan_runs U y _ [] (by simp), scan_runs U y [] [] (by simp)]
  simp

end analyzer

/-! ## The claims about the aggregator -/

namespace analyzer

/-- C1 (conservation). For every message sequence `Analyze` returns a result,
and in the overall accumulator and in every year accumulator of that result
the values of `MessagesByUser`, the values of `HourlyActivity` and the values
of `MonthlyActivity` each sum to `TotalMessages`. -/
theorem analyze_conservation (U : unicode.Tables) (result : parser.ParseResult) :
    ∃ stats, Analyze U result = some stats ∧
      ∀ ys ∈ stats.accumulators,
        ys.MessagesByUser.total = ys.TotalMessages ∧
        ys.HourlyActivity.total = ys.TotalMessages ∧
        ys.MonthlyActivity.total = ys.TotalMessages := by
  obtain ⟨stats, hs, hall⟩ := Analyze_accumulators U result
  refine ⟨stats, hs, ?_⟩
  intro ys' hys'
  obtain ⟨ys, hys, hfin⟩ := hall ys' hys'
  have h := accumulate_inv U
    (fun ys => ys.MessagesByUser.total = ys.TotalMessages ∧
      ys.HourlyActivity.total = ys.TotalMessages ∧
      ys.MonthlyActivity.total = ys.TotalMessages)
    (fun _ => by simp [newYearStats, Go.Map.total, Go.Map.values])
    (fun msg ys h => conserved_countMessage msg ys h)
    (fun _ _ h => h) (fun _ _ _ _ _ _ h => h) result ys hys
  rw [hfin.messagesByUser, hfin.hourlyActivity, hfin.monthlyActivity, hfin.totalMessages]
  exact h

/-- C2 (year partition). For every message sequence `Analyze` returns a result
in which the sum of `TotalMessages` over the accumulators of `ByYear` equals
`Overall.TotalMessages`, which equals the number of input messages. -/
theorem analyze_year_partition (U : unicode.Tables) (result : parser.ParseResult) :
    ∃ stats, Analyze U result = some stats ∧
      (stats.ByYear.map (fun e => e.2.TotalMessages)).sum = stats.Overall.TotalMessages ∧
      stats.Overall.TotalMessages = result.Messages.length := by
  obtain ⟨stats, hs, hov, -, -, hall⟩ := Analyze_some U result
  obtain ⟨h1, h2⟩ := accumulate_totalMessages U result
  have hmap := forall₂_map_eq _ (fun e : Int × YearStats => e.2.TotalMessages)
    (fun e : Int × YearStats => e.2.TotalMessages)
    (fun a b (h : b.1 = a.1 ∧ Finalized a.2 b.2 ∧ b.2.FirstMessage = a.2.FirstMessage ∧
      b.2.LastMessage = a.2.LastMessage) => h.2.1.totalMessages.symm) _ _ hall
  refine ⟨stats, hs, ?_, ?_⟩
  · rw [← hmap, h2, hov.totalMessages, h1]
  · rw [hov.totalMessages, h1]

/-- C3 (stopword exclusion). For every message sequence `Analyze` returns a
result in which no key of `WordFrequency` and no key of an inner map of
`WordFrequencyByUser`, in the overall accumulator or in a year accumulator, is
a member of `stopwords.Russian`.  The texts range over all strings, so the
letter case of the text does not matter; on the Latin and Cyrillic tables the
text "ЧТО Что что мир" leaves the single key "мир". -/
theorem analyze_stopword_exclusion (U : unicode.Tables) (result : parser.ParseResult) :
    (∃ stats, Analyze U result = some stats ∧
      ∀ ys ∈ stats.accumulators,
        (∀ w ∈ Go.Map.keys ys.WordFrequency, w ∉ stopwords.Russian) ∧
        ∀ e ∈ ys.WordFrequencyByUser, ∀ w ∈ Go.Map.keys e.2, w ∉ stopwords.Russian) ∧
    (Analyze unicode.latinCyrillic
      ⟨⟨"", "", time.Time.zero, time.Time.zero, 0⟩,
        [⟨"", ⟨2021, 1, 1, 10, 0, 0⟩, "Alice", "ЧТО Что что мир", 15, false, false⟩]⟩).map
      (fun stats => stats.Overall.WordFrequency) = some [("мир", 1)] := by
  refine ⟨?_, by decide⟩
  obtain ⟨stats, hs, hall⟩ := Analyze_accumulators U result
  refine ⟨stats, hs, ?_⟩
  intro ys' hys'
  obtain ⟨ys, hys, hfin⟩ := hall ys' hys'
  have h := accumulate_inv U
    (fun ys => (∀ w ∈ Go.Map.keys ys.WordFrequency, w ∉ stopwords.Russian) ∧
      ∀ e ∈ ys.WordFrequencyByUser, ∀ w ∈ Go.Map.keys e.2, w ∉ stopwords.Russian)
    (fun _ => by simp [newYearStats, Go.Map.keys])
    (fun _ _ h => h) (fun _ _ h => h)
    (fun msg w ys _ hw _ h => stopfree_countWord msg.From w ys hw h) result ys hys
  rw [hfin.wordFrequency, hfin.wordFrequencyByUser]
  exact h

/-- C4 (top-N bound). For every frequency map and every `n ≥ 0`, `getTopWords`
returns a list of length `min n (number of keys)` whose counts do not increase
from first to last; and every `TopWords` list and every `TopWordsByUser` list
of the result of `Analyze` has at most 20 entries, with counts that do not
increase from first to last. -/
theorem getTopWords_bound (U : unicode.Tables) (result : parser.ParseResult)
    (freq : Go.Map String Int) (n : Int) (hn : 0 ≤ n) :
    (∃ l, getTopWords freq n = some l ∧
      (l.length : Int) = min n (Go.Map.keys freq).length ∧
      l.Pairwise (fun a b => b.Count ≤ a.Count)) ∧
    (∃ stats, Analyze U result = some stats ∧
      ∀ ys ∈ stats.accumulators,
        (ys.TopWords.length ≤ 20 ∧ ys.TopWords.Pairwise (fun a b => b.Count ≤ a.Count)) ∧
        ∀ e ∈ ys.TopWordsByUser,
          e.2.length ≤ 20 ∧ e.2.Pairwise (fun a b => b.Count ≤ a.Count)) := by
  have bound : ∀ (f : Go.Map String Int) (l : List WordCount), getTopWords f 20 = some l →
      l.length ≤ 20 ∧ l.Pairwise (fun a b => b.Count ≤ a.Count) := by
    intro f l hl
    have h := getTopWords_length f 20 (by decide) l hl
    exact ⟨by omega, getTopWords_sorted f 20 l hl⟩
  constructor
  · exact ⟨_, getTopWords_eq freq n hn,
      getTopWords_length freq n hn _ (getTopWords_eq freq n hn),
      getTopWords_sorted freq n _ (getTopWords_eq freq n hn)⟩
  · obtain ⟨stats, hs, hall⟩ := Analyze_accumulators U result
    refine ⟨stats, hs, ?_⟩
    intro ys' hys'
    obtain ⟨ys, -, hfin⟩ := hall ys' hys'
    refine ⟨bound _ _ hfin.topWords, ?_⟩
    intro e he
    obtain ⟨m, hm, hmem⟩ := topWordsByUser_some ys.WordFrequencyByUser
    have hm' : m = ys'.TopWordsByUser := Option.some.inj (hm.symm.trans hfin.topWordsByUser)
    obtain ⟨e₀, -, -, htop⟩ := hmem e (hm' ▸ he)
    exact bound _ _ htop

/-- A run of C4: two words asked of a map of three, and the two-message chat. -/
theorem getTopWords_bound_witness :
    (0 : Int) ≤ 2 ∧
    ((∃ l, getTopWords [("мир", 1), ("привет", 3), ("hello", 2)] 2 = some l ∧
      (l.length : Int) = min 2 (Go.Map.keys [("мир", (1 : Int)), ("привет", 3), ("hello", 2)]).length ∧
      l.Pairwise (fun a b => b.Count ≤ a.Count)) ∧
    (∃ stats, Analyze unicode.latinCyrillic
        ⟨⟨"", "", time.Time.zero, time.Time.zero, 0⟩,
          [⟨"", ⟨2021, 1, 1, 10, 0, 0⟩, "Alice", "привет привет мир", 17, false, false⟩]⟩ =
          some stats ∧
      ∀ ys ∈ stats.accumulators,
        (ys.TopWords.length ≤ 20 ∧ ys.TopWords.Pairwise (fun a b => b.Count ≤ a.Count)) ∧
        ∀ e ∈ ys.TopWordsByUser,
          e.2.length ≤ 20 ∧ e.2.Pairwise (fun a b => b.Count ≤ a.Count))) :=
  ⟨by decide, getTopWords_bound _ _ _ 2 (by decide)⟩

/-- C5 (top-N selection). For every frequency map and every `n`, `getTopWords`
returns when `n ≥ 0` and panics when `n < 0`, and a list it returns has
`min n (number of keys)` entries and consists of pairwise distinct words, each
a key of the map paired with exactly its count in the map, and every key of
the map that is not in the list has a count less than or equal to the count of
every entry of the list: the list is the `n` highest-count entries, all
entries when the map has fewer than `n` keys. -/
theorem getTopWords_selection (freq : Go.Map String Int) (hfreq : Go.Map.WF freq) (n : Int) :
    (0 ≤ n → (getTopWords freq n).isSome) ∧
    (n < 0 → getTopWords freq n = none) ∧
    ∀ l, getTopWords freq n = some l →
      (l.length : Int) = min n (Go.Map.keys freq).length ∧
      (l.map (fun wc => wc.Word)).Nodup ∧
      (∀ wc ∈ l, Go.Map.find? freq wc.Word = some wc.Count) ∧
      ∀ e ∈ freq, e.1 ∉ l.map (fun wc => wc.Word) → ∀ wc ∈ l, e.2 ≤ wc.Count := by
  have hneg : n < 0 → getTopWords freq n = none := by
    intro hn
    have h1 : ((Go.sortSlice (fun a b : WordCount => decide (a.Count > b.Count))
        (freq.map (fun e => ({ Word := e.1, Count := e.2 } : WordCount)))).length : Int) > n := by
      omega
    have h2 : ¬ (0 ≤ n) := by omega
    simp only [getTopWords]
    rw [if_pos h1, if_neg h2]
  refine ⟨?_, hneg, ?_⟩
  · intro hn
    rw [getTopWords_eq freq n hn]
    rfl
  · intro l hl
    have hn : 0 ≤ n := by
      by_contra hcon
      rw [hneg (by omega)] at hl
      exact Option.noConfusion hl
    refine ⟨getTopWords_length freq n hn l hl, ?_⟩
    obtain ⟨k, rfl⟩ := getTopWords_some freq n l hl
    have hperm := Go.sortSlice_perm (fun a b : WordCount => decide (a.Count > b.Count))
      (freq.map (fun e => ({ Word := e.1, Count := e.2 } : WordCount)))
    have hsorted := Go.sortSlice_pairwise WordCount.Count
      (freq.map (fun e => ({ Word := e.1, Count := e.2 } : WordCount)))
    refine ⟨?_, ?_, ?_⟩
    · have hnd : ((Go.sortSlice (fun a b : WordCount => decide (a.Count > b.Count))
          (freq.map (fun e => ({ Word := e.1, Count := e.2 } : WordCount)))).map
          (fun wc => wc.Word)).Nodup := by
        rw [(hperm.map _).nodup_iff]
        simpa [Go.Map.WF, Go.Map.keys, Function.comp_def] using hfreq
      exact hnd.sublist ((List.take_sublist _ _).map _)
    · intro wc hwc
      have hmem := hperm.subset ((List.take_sublist _ _).subset hwc)
      obtain ⟨e, he, rfl⟩ := List.mem_map.1 hmem
      exact Go.Map.find?_of_mem freq hfreq e.1 e.2 he
    · intro e he hnot wc hwc
      have hmem : ({ Word := e.1, Count := e.2 } : WordCount) ∈
          Go.sortSlice (fun a b : WordCount => decide (a.Count > b.Count))
            (freq.map (fun e => ({ Word := e.1, Count := e.2 } : WordCount))) :=
        hperm.symm.subset (List.mem_map.2 ⟨e, he, rfl⟩)
      rw [← List.take_append_drop k (Go.sortSlice _ _)] at hmem hsorted
      rcases List.mem_append.1 hmem with h | h
      · exact absurd (List.mem_map.2 ⟨_, h, rfl⟩) hnot
      · exact (List.pairwise_append.1 hsorted).2.2 wc hwc _ h

/-- A run of C5: the two most frequent words of a map of three. -/
theorem getTopWords_selection_witness :
    Go.Map.WF [("мир", (1 : Int)), ("привет", 3), ("hello", 2)] ∧
    ((0 ≤ (2 : Int) → (getTopWords [("мир", 1), ("привет", 3), ("hello", 2)] 2).isSome) ∧
    ((2 : Int) < 0 → getTopWords [("мир", 1), ("привет", 3), ("hello", 2)] 2 = none) ∧
    ∀ l, getTopWords [("мир", 1), ("привет", 3), ("hello", 2)] 2 = some l →
      (l.length : Int) = min 2 (Go.Map.keys [("мир", (1 : Int)), ("привет", 3), ("hello", 2)]).length ∧
      (l.map (fun wc => wc.Word)).Nodup ∧
      (∀ wc ∈ l, Go.Map.find? [("мир", (1 : Int)), ("привет", 3), ("hello", 2)] wc.Word =
        some wc.Count) ∧
      ∀ e ∈ [("мир", (1 : Int)), ("привет", 3), ("hello", 2)],
        e.1 ∉ l.map (fun wc => wc.Word) → ∀ wc ∈ l, e.2 ≤ wc.Count) :=
  ⟨by decide, getTopWords_selection _ (by decide) 2⟩

end analyzer

/-! ## The most active window and the most active month -/

namespace analyzer

/-- The windows of `getMostActiveWindow` after the counting loop: window `k`
is `[2k, 2k+2)` with the sum of its two hourly buckets. -/
theorem filled_windows (hourly : Go.Map Int Int) :
    windowTable.map (fillWindow hourly) =
      (List.range 12).map (fun k : Nat =>
        ({ StartHour := 2 * (k : Int), EndHour := 2 * (k : Int) + 2,
           Count := hourly.get (2 * (k : Int)) + hourly.get (2 * (k : Int) + 1) } : TimeWindow)) := by
  simp [windowTable, fillWindow, List.range_succ]

/-- The scan for the maximum keeps the first window of the greatest count
above the count of the start value. -/
theorem scan_max (ws : List TimeWindow) (m₀ : TimeWindow) :
    (m₀.Count ≤ (ws.foldl pickWindow m₀).Count ∧
      ∀ w ∈ ws, w.Count ≤ (ws.foldl pickWindow m₀).Count) ∧
    (ws.foldl pickWindow m₀ = m₀ ∨
      ∃ i : Nat, ws[i]? = some (ws.foldl pickWindow m₀) ∧
        m₀.Count < (ws.foldl pickWindow m₀).Count ∧
        ∀ j : Nat, j < i → ∀ w : TimeWindow, ws[j]? = some w →
          w.Count < (ws.foldl pickWindow m₀).Count) := by
  induction ws generalizing m₀ with
  | nil => simp
  | cons w ws ih =>
    simp only [List.foldl_cons]
    obtain ⟨⟨h1, h2⟩, h3⟩ := ih (pickWindow m₀ w)
    have hm : m₀.Count ≤ (pickWindow m₀ w).Count ∧ w.Count ≤ (pickWindow m₀ w).Count := by
      unfold pickWindow
      split <;> constructor <;> omega
    refine ⟨⟨by omega, ?_⟩, ?_⟩
    · intro w' hw'
      rcases List.mem_cons.1 hw' with rfl | hw'
      · omega
      · exact h2 w' hw'
    · rcases h3 with h3 | ⟨i, hi, hlt, hfirst⟩
      · by_cases hc : w.Count > m₀.Count
        · right
          have hp : pickWindow m₀ w = w := by simp [pickWindow, hc]
          rw [hp] at h3 ⊢
          refine ⟨0, by simp [h3], by rw [h3]; exact hc, ?_⟩
          intro j hj
          omega
        · left
          have hp : pickWindow m₀ w = m₀ := by simp [pickWindow, hc]
          rw [hp] at h3 ⊢
          exact h3
      · right
        refine ⟨i + 1, by simpa using hi, by omega, ?_⟩
        intro j hj w' hw'
        cases j with
        | zero =>
          simp only [List.getElem?_cons_zero, Option.some.injEq] at hw'
          subst hw'
          omega
        | succ j =>
          simp only [List.getElem?_cons_succ] at hw'
          exact hfirst j (by omega) w' hw'

/-- One iteration of `getMostActiveMonth` and the entries seen so far. -/
theorem scanMonth_spec (seen : Go.Map String Int) (maxStat : MonthStat) (e : String × Int)
    (he : (time.parseYearMonth e.1).isSome)
    (h : (maxStat = ⟨0, 0, 0⟩ ∧ ∀ x ∈ seen, x.2 ≤ 0) ∨
      (0 < maxStat.Count ∧ (∀ x ∈ seen, x.2 ≤ maxStat.Count) ∧
        ∃ x ∈ seen, x.2 = maxStat.Count ∧ ∃ t, time.parseYearMonth x.1 = some t ∧
          maxStat.Year = t.Year ∧ maxStat.Month = t.Month)) :
    (scanMonth maxStat e = ⟨0, 0, 0⟩ ∧ ∀ x ∈ seen ++ [e], x.2 ≤ 0) ∨
      (0 < (scanMonth maxStat e).Count ∧ (∀ x ∈ seen ++ [e], x.2 ≤ (scanMonth maxStat e).Count) ∧
        ∃ x ∈ seen ++ [e], x.2 = (scanMonth maxStat e).Count ∧
          ∃ t, time.parseYearMonth x.1 = some t ∧
            (scanMonth maxStat e).Year = t.Year ∧ (scanMonth maxStat e).Month = t.Month) := by
  obtain ⟨t, ht⟩ := Option.isSome_iff_exists.1 he
  by_cases hc : e.2 > maxStat.Count
  · have hs : scanMonth maxStat e = { Year := t.Year, Month := t.Month, Count := e.2 } := by
      simp [scanMonth, hc, ht]
    right
    rw [hs]
    have hpos : 0 < e.2 := by
      rcases h with ⟨h0, -⟩ | ⟨hp, -⟩
      · rw [h0] at hc; exact hc
      · omega
    refine ⟨hpos, ?_, e, by simp, rfl, t, ht, rfl, rfl⟩
    intro x hx
    rcases List.mem_append.1 hx with hx | hx
    · rcases h with ⟨-, h0⟩ | ⟨-, hle, -⟩
      · have := h0 x hx
        show x.2 ≤ e.2
        omega
      · have := hle x hx
        show x.2 ≤ e.2
        omega
    · simp only [List.mem_singleton] at hx
      rw [hx]
  · have hs : scanMonth maxStat e = maxStat := by simp [scanMonth, hc]
    rw [hs]
    rcases h with ⟨h0, hle⟩ | ⟨hp, hle, x, hx, hxc, hxt⟩
    · left
      refine ⟨h0, ?_⟩
      intro x hx
      rcases List.mem_append.1 hx with hx | hx
      · exact hle x hx
      · simp only [List.mem_singleton] at hx
        rw [h0] at hc
        rw [hx]
        simpa using hc
    · right
      refine ⟨hp, ?_, x, List.mem_append_left _ hx, hxc, hxt⟩
      intro y hy
      rcases List.mem_append.1 hy with hy | hy
      · exact hle y hy
      · simp only [List.mem_singleton] at hy
        rw [hy]
        omega

theorem getMostActiveMonth_spec (monthly : Go.Map String Int)
    (hkeys : ∀ e ∈ monthly, (time.parseYearMonth e.1).isSome) :
    (getMostActiveMonth monthly = ⟨0, 0, 0⟩ ∧ ∀ x ∈ monthly, x.2 ≤ 0) ∨
      (0 < (getMostActiveMonth monthly).Count ∧
        (∀ x ∈ monthly, x.2 ≤ (getMostActiveMonth monthly).Count) ∧
        ∃ x ∈ monthly, x.2 = (getMostActiveMonth monthly).Count ∧
          ∃ t, time.parseYearMonth x.1 = some t ∧
            (getMostActiveMonth monthly).Year = t.Year ∧
            (getMostActiveMonth monthly).Month = t.Month) := by
  induction monthly using List.reverseRecOn with
  | nil => left; simp [getMostActiveMonth]
  | append_singleton l e ih =>
    have ih' := ih (fun x hx => hkeys x (List.mem_append_left _ hx))
    have he := hkeys e (by simp)
    have := scanMonth_spec l (getMostActiveMonth l) e he ih'
    simpa only [getMostActiveMonth, List.foldl_append, List.foldl_cons, List.foldl_nil] using this

/-- C6 (most-active window selection). For every hourly histogram with
non-negative counts in which some hour from 0 to 23 has a positive count,
`getMostActiveWindow` returns the window `[2k, 2k+2)` for some `k` from 0 to
11, with the count `hourly[2k] + hourly[2k+1]`; that count is greater than or
equal to the sum of every window, and `k` is the least index of a window of
that sum. -/
theorem getMostActiveWindow_selection (hourly : Go.Map Int Int)
    (hnonneg : ∀ h : Int, 0 ≤ hourly.get h)
    (hpos : ∃ h : Nat, h < 24 ∧ 0 < hourly.get (h : Int)) :
    ∃ k : Nat, k < 12 ∧
      (getMostActiveWindow hourly).StartHour = 2 * (k : Int) ∧
      (getMostActiveWindow hourly).EndHour = 2 * (k : Int) + 2 ∧
      (getMostActiveWindow hourly).Count =
        hourly.get (2 * (k : Int)) + hourly.get (2 * (k : Int) + 1) ∧
      (∀ j : Nat, j < 12 →
        hourly.get (2 * (j : Int)) + hourly.get (2 * (j : Int) + 1) ≤
          (getMostActiveWindow hourly).Count) ∧
      (∀ j : Nat, j < 12 →
        hourly.get (2 * (j : Int)) + hourly.get (2 * (j : Int) + 1) =
          (getMostActiveWindow hourly).Count → k ≤ j) := by
  have hscan := scan_max (windowTable.map (fillWindow hourly)) ⟨0, 0, 0⟩
  simp only [filled_windows] at hscan
  have hdef : getMostActiveWindow hourly =
      ((List.range 12).map (fun k : Nat =>
        ({ StartHour := 2 * (k : Int), EndHour := 2 * (k : Int) + 2,
           Count := hourly.get (2 * (k : Int)) + hourly.get (2 * (k : Int) + 1) } :
            TimeWindow))).foldl pickWindow ⟨0, 0, 0⟩ := by
    simp only [getMostActiveWindow, filled_windows]
  rw [← hdef] at hscan
  obtain ⟨⟨-, hmax⟩, hfirst⟩ := hscan
  have hall : ∀ j : Nat, j < 12 →
      hourly.get (2 * (j : Int)) + hourly.get (2 * (j : Int) + 1) ≤
        (getMostActiveWindow hourly).Count := by
    intro j hj
    exact hmax _ (List.mem_map.2 ⟨j, List.mem_range.2 hj, rfl⟩)
  -- some window has a positive count, so the result is not the start value
  have hcount : 0 < (getMostActiveWindow hourly).Count := by
    obtain ⟨h, hh, hp⟩ := hpos
    have hw := hall (h / 2) (by omega)
    have h1 := hnonneg (2 * ((h / 2 : Nat) : Int))
    have h2 := hnonneg (2 * ((h / 2 : Nat) : Int) + 1)
    rcases Nat.mod_two_eq_zero_or_one h with hm | hm
    · have e : (2 * ((h / 2 : Nat) : Int)) = (h : Int) := by omega
      rw [e] at hw h1 h2
      omega
    · have e : (2 * ((h / 2 : Nat) : Int) + 1) = (h : Int) := by omega
      rw [e] at hw h2
      omega
  rcases hfirst with h0 | ⟨i, hi, -, hlt⟩
  · rw [h0] at hcount
    exact absurd hcount (by decide)
  · simp only [List.getElem?_map, List.getElem?_range, Option.map_eq_some'] at hi
    obtain ⟨k, hk, hr⟩ := hi
    have hki : i < 12 ∧ k = i := by
      by_cases hlt12 : i < 12
      · rw [List.getElem?_range hlt12] at hk
        exact ⟨hlt12, (Option.some.inj hk).symm⟩
      · rw [List.getElem?_eq_none (by simpa using hlt12)] at hk
        cases hk
    obtain ⟨hi12, rfl⟩ := hki
    refine ⟨k, hi12, by rw [← hr], by rw [← hr], by rw [← hr], hall, ?_⟩
    intro j hj heq
    by_contra hcon
    have hjk : j < k := by omega
    have := hlt j hjk _ (by
      rw [List.getElem?_map, List.getElem?_range hj]
      rfl)
    simp only at this
    omega

/-- A run of C6: three hours of activity, the windows `[10,12)` and `[20,22)` tie. -/
theorem getMostActiveWindow_selection_witness :
    (∀ h : Int, 0 ≤ Go.Map.get [((10 : Int), (2 : Int)), (11, 1), (21, 3)] h) ∧
    (∃ h : Nat, h < 24 ∧ 0 < Go.Map.get [((10 : Int), (2 : Int)), (11, 1), (21, 3)] (h : Int)) ∧
    ∃ k : Nat, k < 12 ∧
      (getMostActiveWindow [(10, 2), (11, 1), (21, 3)]).StartHour = 2 * (k : Int) ∧
      (getMostActiveWindow [(10, 2), (11, 1), (21, 3)]).EndHour = 2 * (k : Int) + 2 ∧
      (getMostActiveWindow [(10, 2), (11, 1), (21, 3)]).Count =
        Go.Map.get [((10 : Int), (2 : Int)), (11, 1), (21, 3)] (2 * (k : Int)) +
          Go.Map.get [((10 : Int), (2 : Int)), (11, 1), (21, 3)] (2 * (k : Int) + 1) ∧
      (∀ j : Nat, j < 12 →
        Go.Map.get [((10 : Int), (2 : Int)), (11, 1), (21, 3)] (2 * (j : Int)) +
          Go.Map.get [((10 : Int), (2 : Int)), (11, 1), (21, 3)] (2 * (j : Int) + 1) ≤
          (getMostActiveWindow [(10, 2), (11, 1), (21, 3)]).Count) ∧
      (∀ j : Nat, j < 12 →
        Go.Map.get [((10 : Int), (2 : Int)), (11, 1), (21, 3)] (2 * (j : Int)) +
          Go.Map.get [((10 : Int), (2 : Int)), (11, 1), (21, 3)] (2 * (j : Int) + 1) =
          (getMostActiveWindow [(10, 2), (11, 1), (21, 3)]).Count → k ≤ j) :=
  have hnonneg : ∀ h : Int, 0 ≤ Go.Map.get [((10 : Int), (2 : Int)), (11, 1), (21, 3)] h := by
    intro h
    simp only [Go.Map.get, Go.Map.find?]
    split_ifs <;> simp
  have hpos : ∃ h : Nat, h < 24 ∧
      0 < Go.Map.get [((10 : Int), (2 : Int)), (11, 1), (21, 3)] (h : Int) :=
    ⟨10, by decide, by decide⟩
  ⟨hnonneg, hpos, getMostActiveWindow_selection _ hnonneg hpos⟩

end analyzer

namespace analyzer

/-- C7, as stated, fails on the empty histogram: every window has count 0 and
the result is not the window `[0,2)`, its `EndHour` is 0. -/
theorem getMostActiveWindow_no_activity_counterexample :
    (∀ j : Nat, j < 12 →
      Go.Map.get ([] : Go.Map Int Int) (2 * (j : Int)) +
        Go.Map.get ([] : Go.Map Int Int) (2 * (j : Int) + 1) = 0) ∧
    ¬ ((getMostActiveWindow []).StartHour = 0 ∧ (getMostActiveWindow []).EndHour = 2 ∧
      (getMostActiveWindow []).Count = 0) := by
  constructor
  · intro j _
    rfl
  · decide

/-- C7 (most-active window with no activity), amended. When every 2-hour
window has count 0, `getMostActiveWindow` returns the zero value of
`TimeWindow`: `StartHour = 0`, `EndHour = 0`, `Count = 0`. -/
theorem getMostActiveWindow_no_activity (hourly : Go.Map Int Int)
    (hzero : ∀ j : Nat, j < 12 →
      hourly.get (2 * (j : Int)) + hourly.get (2 * (j : Int) + 1) = 0) :
    getMostActiveWindow hourly = { StartHour := 0, EndHour := 0, Count := 0 } := by
  have hscan := scan_max (windowTable.map (fillWindow hourly)) ⟨0, 0, 0⟩
  rcases hscan.2 with h | ⟨i, hi, hlt, -⟩
  · exact h
  · exfalso
    rw [filled_windows] at hi hlt
    by_cases hlt12 : i < 12
    · rw [List.getElem?_map, List.getElem?_range hlt12] at hi
      have hi' := Option.some.inj hi
      rw [← hi'] at hlt
      have := hzero i hlt12
      simp only [Option.map_some'] at hlt
      omega
    · rw [List.getElem?_eq_none (by simpa using hlt12)] at hi
      cases hi

/-- A run of the amended C7: a histogram whose only entry is outside the 24 hours. -/
theorem getMostActiveWindow_no_activity_witness :
    (∀ j : Nat, j < 12 →
      Go.Map.get [((24 : Int), (5 : Int))] (2 * (j : Int)) +
        Go.Map.get [((24 : Int), (5 : Int))] (2 * (j : Int) + 1) = 0) ∧
    getMostActiveWindow [(24, 5)] = { StartHour := 0, EndHour := 0, Count := 0 } :=
  have hzero : ∀ j : Nat, j < 12 →
      Go.Map.get [((24 : Int), (5 : Int))] (2 * (j : Int)) +
        Go.Map.get [((24 : Int), (5 : Int))] (2 * (j : Int) + 1) = 0 := by
    intro j hj
    have h1 : ¬ ((24 : Int) = 2 * (j : Int)) := by omega
    have h2 : ¬ ((24 : Int) = 2 * (j : Int) + 1) := by omega
    simp [Go.Map.get, Go.Map.find?, h1, h2]
  ⟨hzero, getMostActiveWindow_no_activity _ hzero⟩

/-- C8 (most-active month). For every monthly histogram whose keys are
well-formed "YYYY-MM" strings (the strings that `time.Parse` accepts for the
layout "2006-01"): if some month has a positive count, the `Count` of the
result of `getMostActiveMonth` is the maximum count of the histogram and its
`Year` and `Month` are the year and month of a key that has that count; if no
month has a positive count, the result is the zero value of `MonthStat`. -/
theorem getMostActiveMonth_selection (monthly : Go.Map String Int)
    (hkeys : ∀ e ∈ monthly, (time.parseYearMonth e.1).isSome) :
    ((∃ e ∈ monthly, 0 < e.2) →
      (∀ x ∈ monthly, x.2 ≤ (getMostActiveMonth monthly).Count) ∧
      ∃ x ∈ monthly, x.2 = (getMostActiveMonth monthly).Count ∧
        ∃ t, time.parseYearMonth x.1 = some t ∧
          (getMostActiveMonth monthly).Year = t.Year ∧
          (getMostActiveMonth monthly).Month = t.Month) ∧
    ((∀ e ∈ monthly, e.2 ≤ 0) →
      getMostActiveMonth monthly = { Year := 0, Month := 0, Count := 0 }) := by
  rcases getMostActiveMonth_spec monthly hkeys with ⟨h0, hle⟩ | ⟨hp, hmax, hex⟩
  · refine ⟨?_, fun _ => h0⟩
    rintro ⟨e, he, hpos⟩
    have := hle e he
    omega
  · refine ⟨fun _ => ⟨hmax, hex⟩, ?_⟩
    intro hall
    obtain ⟨x, hx, hxc, -⟩ := hex
    have := hall x hx
    omega

/-- A run of C8: three months, two of them with the greatest count. -/
theorem getMostActiveMonth_selection_witness :
    (∀ e ∈ [("2021-01", (2 : Int)), ("2020-12", 5), ("2021-02", 5)],
      (time.parseYearMonth e.1).isSome) ∧
    (((∃ e ∈ [("2021-01", (2 : Int)), ("2020-12", 5), ("2021-02", 5)], 0 < e.2) →
      (∀ x ∈ [("2021-01", (2 : Int)), ("2020-12", 5), ("2021-02", 5)],
        x.2 ≤ (getMostActiveMonth [("2021-01", 2), ("2020-12", 5), ("2021-02", 5)]).Count) ∧
      ∃ x ∈ [("2021-01", (2 : Int)), ("2020-12", 5), ("2021-02", 5)],
        x.2 = (getMostActiveMonth [("2021-01", 2), ("2020-12", 5), ("2021-02", 5)]).Count ∧
        ∃ t, time.parseYearMonth x.1 = some t ∧
          (getMostActiveMonth [("2021-01", 2), ("2020-12", 5), ("2021-02", 5)]).Year = t.Year ∧
          (getMostActiveMonth [("2021-01", 2), ("2020-12", 5), ("2021-02", 5)]).Month =
            t.Month) ∧
    ((∀ e ∈ [("2021-01", (2 : Int)), ("2020-12", 5), ("2021-02", 5)], e.2 ≤ 0) →
      getMostActiveMonth [("2021-01", 2), ("2020-12", 5), ("2021-02", 5)] =
        { Year := 0, Month := 0, Count := 0 })) :=
  ⟨by decide, getMostActiveMonth_selection _ (by decide)⟩

end analyzer

/-! ## The claims about the tokenizer -/

namespace analyzer

/-- C9 (tokenizer reference definition). For every text without URL,
`extractWords` returns, in order of occurrence, the maximal runs of letters
and digits of the lowercased text that have at least 2 characters and are not
all digits; and for every message sequence whose texts have no URL, the count
of every word in the overall `WordFrequency` of the result of `Analyze` is
the number of its occurrences, over all messages, among the reference words of
the text: the maximal runs minus the runs of exactly one character, the runs
of digits only and the runs in the stopword set. -/
theorem extractWords_reference (U : unicode.Tables) (text : String)
    (htext : containsURL text = false) (result : parser.ParseResult)
    (hresult : ∀ msg ∈ result.Messages, containsURL msg.Text = false) :
    extractWords U text =
      ((tokenRuns U text).filter
        (fun run => decide (2 ≤ run.length) && !run.all U.IsDigit)).map String.mk ∧
    ∃ stats, Analyze U result = some stats ∧
      ∀ w : String, stats.Overall.WordFrequency.get w =
        (result.Messages.map (fun msg =>
          (((referenceWords U msg.Text).count w : Nat) : Int))).sum := by
  refine ⟨extractWords_of_no_url U text htext, ?_⟩
  obtain ⟨stats, hs, hov, -⟩ := Analyze_some U result
  refine ⟨stats, hs, ?_⟩
  intro w
  rw [hov.wordFrequency, accumulate_wordFrequency]
  congr 1
  apply List.map_congr_left
  intro msg hmsg
  rw [counted_words_eq U msg.Text (hresult msg hmsg)]

/-- A run of C9: a text with capitals, a stopword, a number and a one-letter
word, and a chat of two messages. -/
theorem extractWords_reference_witness :
    containsURL "Привет, ЧТО 12 a 3d мир" = false ∧
    (∀ msg ∈ [(⟨"", ⟨2021, 1, 1, 10, 0, 0⟩, "Alice", "Привет, привет мир", 18, false, false⟩ :
        parser.Message),
      ⟨"", ⟨2021, 1, 1, 10, 30, 0⟩, "Bob", "Что за мир 2021", 15, false, false⟩],
      containsURL msg.Text = false) ∧
    (extractWords unicode.latinCyrillic "Привет, ЧТО 12 a 3d мир" =
      ((tokenRuns unicode.latinCyrillic "Привет, ЧТО 12 a 3d мир").filter
        (fun run => decide (2 ≤ run.length) && !run.all unicode.latinCyrillic.IsDigit)).map
          String.mk ∧
    ∃ stats, Analyze unicode.latinCyrillic
        ⟨⟨"", "", time.Time.zero, time.Time.zero, 0⟩,
          [⟨"", ⟨2021, 1, 1, 10, 0, 0⟩, "Alice", "Привет, привет мир", 18, false, false⟩,
           ⟨"", ⟨2021, 1, 1, 10, 30, 0⟩, "Bob", "Что за мир 2021", 15, false, false⟩]⟩ =
          some stats ∧
      ∀ w : String, stats.Overall.WordFrequency.get w =
        (([⟨"", ⟨2021, 1, 1, 10, 0, 0⟩, "Alice", "Привет, привет мир", 18, false, false⟩,
           ⟨"", ⟨2021, 1, 1, 10, 30, 0⟩, "Bob", "Что за мир 2021", 15, false, false⟩] :
            List parser.Message).map (fun msg =>
          (((referenceWords unicode.latinCyrillic msg.Text).count w : Nat) : Int))).sum) :=
  ⟨by decide, by decide, extractWords_reference _ _ (by decide) _ (by decide)⟩

theorem extractWords_eq (U : unicode.Tables) (text : String) :
    extractWords U text =
      closeWord U (((stripURLs false text.toList).map U.ToLower).foldl (scanRune U) ⟨[], []⟩) :=
  rfl

/-- C10 (URL stripping). For every URL `u` made of `http://` or `https://`
and one or more characters outside `\s`, and all texts `a` and `b` (with or
without URL), `extractWords (a ++ " " ++ u ++ " " ++ b)` is
`extractWords a ++ extractWords b`, and `extractWords u` is empty.  The
tables are such that the space is neither a letter nor a digit. -/
theorem extractWords_url_stripping (U : unicode.Tables)
    (hspace : (U.IsLetter (U.ToLower ' ') || U.IsDigit (U.ToLower ' ')) = false)
    (scheme rest : String) (hscheme : scheme = "http://" ∨ scheme = "https://")
    (hne : rest ≠ "") (hrest : ∀ c ∈ rest.toList, isRegexpSpace c = false)
    (a b : String) :
    extractWords U (a ++ " " ++ (scheme ++ rest) ++ " " ++ b) =
      extractWords U a ++ extractWords U b ∧
    extractWords U (scheme ++ rest) = [] := by
  have hscheme' : scheme.toList = "http://".toList ∨ scheme.toList = "https://".toList := by
    rcases hscheme with rfl | rfl
    · exact Or.inl rfl
    · exact Or.inr rfl
  have hne' : rest.toList ≠ [] := fun h => hne (String.ext h)
  have hurl := stripURLs_url scheme.toList rest.toList hscheme' hne' hrest
  have hu : (scheme ++ rest).toList = scheme.toList ++ rest.toList := by
    simp [String.toList]
  have hfull : (a ++ " " ++ (scheme ++ rest) ++ " " ++ b).toList =
      a.toList ++ ' ' :: ((scheme.toList ++ rest.toList) ++ ' ' :: b.toList) := by
    simp [String.toList]
  constructor
  · rw [extractWords_eq, hfull, stripURLs_space, stripURLs_space, hurl, List.nil_append,
      List.map_append, List.map_cons, List.map_cons, scan_two_boundaries U _ hspace]
    rfl
  · rw [extractWords_eq, hu, hurl]
    rfl

/-- A run of C10: a link between a Russian and an English phrase. -/
theorem extractWords_url_stripping_witness :
    (unicode.latinCyrillic.IsLetter (unicode.latinCyrillic.ToLower ' ') ||
      unicode.latinCyrillic.IsDigit (unicode.latinCyrillic.ToLower ' ')) = false ∧
    ("https://" = "http://" ∨ "https://" = "https://") ∧
    "example.com/page?x=1" ≠ "" ∧
    (∀ c ∈ "example.com/page?x=1".toList, isRegexpSpace c = false) ∧
    (extractWords unicode.latinCyrillic
        ("Привет мир" ++ " " ++ ("https://" ++ "example.com/page?x=1") ++ " " ++ "hello world") =
      extractWords unicode.latinCyrillic "Привет мир" ++
        extractWords unicode.latinCyrillic "hello world" ∧
    extractWords unicode.latinCyrillic ("https://" ++ "example.com/page?x=1") = []) :=
  ⟨by decide, Or.inr rfl, by decide, by decide,
    extractWords_url_stripping _ (by decide) _ _ (Or.inr rfl) (by decide) (by decide) _ _⟩

end analyzer

/-! ## The claims about the scenarios of the extractor and of the aggregator -/

namespace parser

/-- C11, as stated, fails: the node whose only text is the URL
"https://example.com/page", with a valid timestamp, is retained by
`parseFile`, and `Analyze` counts its message in `TotalMessages`,
`MessagesByUser`, `HourlyActivity` and `MonthlyActivity`. -/
theorem url_only_message_counterexample :
    (parseDocument ⟨[], [goquery.exampleNode (some "01.01.2021 10:00:00 UTC+00:00")
        (some "Alice") (some "https://example.com/page") none none]⟩).1 =
      [⟨"", ⟨2021, 1, 1, 10, 0, 0⟩, "Alice", "https://example.com/page", 24, false, false⟩] ∧
    (analyzer.Analyze unicode.latinCyrillic
      ⟨⟨"", "", time.Time.zero, time.Time.zero, 0⟩,
        [⟨"", ⟨2021, 1, 1, 10, 0, 0⟩, "Alice", "https://example.com/page", 24, false, false⟩]⟩).map
      (fun stats => (stats.Overall.TotalMessages, stats.Overall.MessagesByUser.get "Alice",
        stats.Overall.HourlyActivity.get 10, stats.Overall.MonthlyActivity.get "2021-01")) =
      some (1, 1, 1, 1) := by
  constructor <;> decide

/-- C12 on the code: a message node without direct text element that holds a
forwarded message with the text "some content" gets the text "some content"
and is retained; the second selection `s.Find(".text")` reads the nested
element. -/
theorem forwarded_text_is_read :
    goquery.exampleNode (some "01.01.2021 10:00:00 UTC+00:00") (some "Alice") none
        (some "Bob  05.03.2022 14:00:00") (some "some content") "> .body > .text" = [] ∧
    (parseDocument ⟨[], [goquery.exampleNode (some "01.01.2021 10:00:00 UTC+00:00")
        (some "Alice") none (some "Bob  05.03.2022 14:00:00") (some "some content")]⟩).1 =
      [⟨"", ⟨2021, 1, 1, 10, 0, 0⟩, "Alice", "some content", 12, false, true⟩] := by
  constructor <;> decide

/-- C13, as stated, fails: with one message of "Alice" in `messages.html` and
one message without sender label in `messages1.html`, the sender of the
second message is the empty string, not "Alice". -/
theorem sender_across_files_counterexample :
    (ParseAllFiles
      (fun path =>
        if path = "export/messages.html" then
          some ⟨[], [goquery.exampleNode (some "01.01.2021 10:00:00 UTC+00:00")
            (some "Alice") (some "привет привет мир") none none]⟩
        else if path = "export/messages1.html" then
          some ⟨[], [goquery.exampleNode (some "01.01.2021 10:30:00 UTC+00:00")
            none (some "hello world") none none]⟩
        else none)
      ["export/messages.html", "export/messages1.html"]).map
      (fun result => result.Messages.map (fun msg => (msg.From, msg.Text))) =
      some [("Alice", "привет привет мир"), ("", "hello world")] := by
  decide

end parser

namespace analyzer

/-- C19 (two-message scenario). For the two messages of "Alice" on
2021-01-01 at 10:00:00 and 10:30:00 with the texts "привет привет мир" and
"hello world", `Analyze` (on the Latin and Cyrillic tables) yields a 2021
accumulator with `TotalMessages = 2`, the word counts привет 2, мир 1, hello
1, world 1 and no other, `HourlyActivity[10] = 2` and the most active window
`[10,12)` with count 2. -/
theorem analyze_two_messages :
    ∃ stats ys,
      Analyze unicode.latinCyrillic
        ⟨⟨"", "", ⟨2021, 1, 1, 10, 0, 0⟩, ⟨2021, 1, 1, 10, 30, 0⟩, 2⟩,
          [⟨"", ⟨2021, 1, 1, 10, 0, 0⟩, "Alice", "привет привет мир", 17, false, false⟩,
           ⟨"", ⟨2021, 1, 1, 10, 30, 0⟩, "Alice", "hello world", 11, false, false⟩]⟩ =
        some stats ∧
      Go.Map.find? stats.ByYear 2021 = some ys ∧
      ys.TotalMessages = 2 ∧
      ys.WordFrequency.Perm [("привет", 2), ("мир", 1), ("hello", 1), ("world", 1)] ∧
      ys.HourlyActivity.get 10 = 2 ∧
      ys.MostActiveWindow = { StartHour := 10, EndHour := 12, Count := 2 } := by
  obtain ⟨stats, hs, -⟩ := Analyze_some unicode.latinCyrillic
    ⟨⟨"", "", ⟨2021, 1, 1, 10, 0, 0⟩, ⟨2021, 1, 1, 10, 30, 0⟩, 2⟩,
      [⟨"", ⟨2021, 1, 1, 10, 0, 0⟩, "Alice", "привет привет мир", 17, false, false⟩,
       ⟨"", ⟨2021, 1, 1, 10, 30, 0⟩, "Alice", "hello world", 11, false, false⟩]⟩
  have key : ((Analyze unicode.latinCyrillic
      ⟨⟨"", "", ⟨2021, 1, 1, 10, 0, 0⟩, ⟨2021, 1, 1, 10, 30, 0⟩, 2⟩,
        [⟨"", ⟨2021, 1, 1, 10, 0, 0⟩, "Alice", "привет привет мир", 17, false, false⟩,
         ⟨"", ⟨2021, 1, 1, 10, 30, 0⟩, "Alice", "hello world", 11, false, false⟩]⟩).bind
      (fun st => Go.Map.find? st.ByYear 2021)).map
      (fun ys => (ys.TotalMessages, ys.WordFrequency, ys.HourlyActivity.get 10,
        ys.MostActiveWindow)) =
      some (2, [("привет", 2), ("мир", 1), ("hello", 1), ("world", 1)], 2, ⟨10, 12, 2⟩) := by
    decide
  rw [hs] at key
  simp only [Option.some_bind] at key
  cases hf : Go.Map.find? stats.ByYear 2021 with
  | none => rw [hf] at key; simp at key
  | some ys =>
    rw [hf] at key
    simp only [Option.map_some', Option.some.injEq, Prod.mk.injEq] at key
    obtain ⟨h1, h2, h3, h4⟩ := key
    exact ⟨stats, ys, hs, hf, h1, by rw [h2], h3, h4⟩

/-- C20 on the code: of eleven users, one with 10 and ten with 9 of the 100
messages, `GetMainUsers` returns the first ten; the user "u10" has 9 % of the
messages and is not returned, because the threshold is raised to 10 messages. -/
theorem getMainUsers_threshold :
    (GetMainUsers [("u0", 10), ("u1", 9), ("u2", 9), ("u3", 9), ("u4", 9), ("u5", 9),
        ("u6", 9), ("u7", 9), ("u8", 9), ("u9", 9), ("u10", 9)] 100).map (fun u => u.Name) =
      ["u0", "u1", "u2", "u3", "u4", "u5", "u6", "u7", "u8", "u9"] ∧
    Go.Map.get [("u0", 10), ("u1", 9), ("u2", 9), ("u3", 9), ("u4", 9), ("u5", 9),
        ("u6", 9), ("u7", 9), ("u8", 9), ("u9", 9), ("u10", 9)] "u10" * 100 ≥ 100 := by
  constructor <;> decide

end analyzer

/-! ## The callback of `parseFile` -/

namespace parser

/-- The callback adds the message of the node after the messages retained
before, and neither the message nor the last known sender depend on those. -/
theorem scanNode_append (chatName : String) (st : FileScan) (s : goquery.Node) :
    (scanNode chatName st s).messages =
      st.messages ++ (scanNode chatName ⟨[], st.lastFrom⟩ s).messages ∧
    (scanNode chatName st s).lastFrom = (scanNode chatName ⟨[], st.lastFrom⟩ s).lastFrom := by
  refine ⟨?_, rfl⟩
  simp only [scanNode]
  split_ifs <;> simp

/-- The messages retained from a run of nodes are added after the messages
retained before, and neither they nor the last known sender depend on those. -/
theorem scan_fold_append (chatName : String) (nodes : List goquery.Node) (st : FileScan) :
    (nodes.foldl (scanNode chatName) st).messages =
      st.messages ++ (nodes.foldl (scanNode chatName) ⟨[], st.lastFrom⟩).messages ∧
    (nodes.foldl (scanNode chatName) st).lastFrom =
      (nodes.foldl (scanNode chatName) ⟨[], st.lastFrom⟩).lastFrom := by
  induction nodes generalizing st with
  | nil => simp
  | cons s nodes ih =>
    simp only [List.foldl_cons]
    obtain ⟨h1, h2⟩ := ih (scanNode chatName st s)
    obtain ⟨h3, h4⟩ := ih (scanNode chatName ⟨[], st.lastFrom⟩ s)
    obtain ⟨hm, hl⟩ := scanNode_append chatName st s
    constructor
    · rw [h1, h3, hm, hl, List.append_assoc]
    · rw [h2, h4, hl]

/-- The last known sender after a run of nodes that starts without sender. -/
theorem scan_lastFrom (chatName : String) (nodes : List goquery.Node) :
    (nodes.foldl (scanNode chatName) ⟨[], ""⟩).lastFrom =
      nearestLabel ((nodes.map nodeFromName).reverse) := by
  induction nodes using List.reverseRecOn with
  | nil => rfl
  | append_singleton pre s ih =>
    simp only [List.foldl_append, List.foldl_cons, List.foldl_nil, List.map_append,
      List.map_cons, List.map_nil, List.reverse_append, List.reverse_cons, List.reverse_nil,
      List.nil_append, List.singleton_append, nearestLabel]
    simp only [scanNode, ih]

/-- The step of the callback on one node, from an empty message list. -/
theorem scanNode_messages (chatName lastFrom : String) (s : goquery.Node) :
    (scanNode chatName ⟨[], lastFrom⟩ s).messages =
      if nodeText s ≠ "" ∧ (nodeDate s).IsZero = false then
        [nodeMessage chatName (scanNode chatName ⟨[], lastFrom⟩ s).lastFrom s]
      else [] := by
  have hcond : (nodeText s != "" && !(nodeDate s).IsZero) = true ↔
      (nodeText s ≠ "" ∧ (nodeDate s).IsZero = false) := by
    simp only [Bool.and_eq_true, bne_iff_ne, ne_eq, Bool.not_eq_true']
  unfold scanNode
  dsimp only [nodeMessage]
  by_cases h : nodeText s ≠ "" ∧ (nodeDate s).IsZero = false
  · rw [if_pos h, if_pos (hcond.2 h), List.nil_append]
  · rw [if_neg h, if_neg (fun hb => h (hcond.1 hb))]

theorem nearestLabel_eq_empty (labels : List String) :
    nearestLabel labels = "" ↔ ∀ l ∈ labels, l = "" := by
  induction labels with
  | nil => simp [nearestLabel]
  | cons l before ih =>
    simp only [nearestLabel, List.mem_cons, forall_eq_or_imp]
    by_cases h : l = ""
    · simp [h, ih]
    · simp [h]

/-- The sender that the callback resolves. For every file and every message
node `s` of it, with the nodes `pre` before and `post` after: the messages of
the file are the messages of the nodes before, then, if the node is retained,
its message with the sender `nearestLabel` of the values of `fromName` at `s`
and at the nodes before it (the value at `s` when that is not empty, otherwise
the nearest non-empty value before it, retained or not), then the messages of
the nodes after; and that sender is empty exactly when `fromName` is empty at
`s` and at all nodes before it.  The value of `fromName` is the label of the
node itself only when the node has one; otherwise it is the first label among
its descendants. -/
theorem scan_sender_resolution (doc : goquery.Document)
    (pre post : List goquery.Node) (s : goquery.Node) (hdoc : doc.messages = pre ++ s :: post) :
    (parseDocument doc).1 =
      (parseDocument { doc with messages := pre }).1 ++
      (if nodeText s ≠ "" ∧ (nodeDate s).IsZero = false then
        [nodeMessage (parseDocument doc).2
          (nearestLabel (((pre ++ [s]).map nodeFromName).reverse)) s]
       else []) ++
      (post.foldl (scanNode (parseDocument doc).2)
        ⟨[], nearestLabel (((pre ++ [s]).map nodeFromName).reverse)⟩).messages ∧
    (nearestLabel (((pre ++ [s]).map nodeFromName).reverse) = "" ↔
      ∀ n ∈ pre ++ [s], nodeFromName n = "") := by
  constructor
  · have hlast := scan_lastFrom (strings.TrimSpace doc.header.First.Text) (pre ++ [s])
    simp only [List.foldl_append, List.foldl_cons, List.foldl_nil] at hlast
    simp only [parseDocument, hdoc, List.foldl_append, List.foldl_cons]
    rw [(scan_fold_append _ post _).1, (scanNode_append _ _ s).1, hlast, scanNode_messages,
      ← (scanNode_append _ _ s).2, hlast]
  · rw [nearestLabel_eq_empty]
    simp only [List.mem_reverse, List.mem_map, forall_exists_index, and_imp,
      forall_apply_eq_imp_iff₂]

/-- C14 on the code: in a file of three message nodes, the first with the
label "Alice", the second without a label of its own but with a forwarded
message of "Bob" nested in it, the third without any label, the senders are
"Alice", "Bob" and "Bob", where the nearest label before the second and the
third node is "Alice": the second selection `s.Find(".from_name")` reads the
label of the forwarded message, and the sender it yields is carried forward. -/
theorem forwarded_sender_is_read :
    (goquery.exampleNode (some "01.01.2021 10:01:00 UTC+00:00") none (some "look at this")
      (some "Bob  05.03.2022 14:00:00") (some "some content")) "> .body > .from_name" = [] ∧
    (goquery.exampleNode (some "01.01.2021 10:02:00 UTC+00:00") none (some "nice") none none)
      ".from_name" = [] ∧
    nearestLabel ["", "", "Alice"] = "Alice" ∧
    ((parseDocument ⟨[], [
        goquery.exampleNode (some "01.01.2021 10:00:00 UTC+00:00") (some "Alice") (some "hello") none none,
        goquery.exampleNode (some "01.01.2021 10:01:00 UTC+00:00") none (some "look at this")
          (some "Bob  05.03.2022 14:00:00") (some "some content"),
        goquery.exampleNode (some "01.01.2021 10:02:00 UTC+00:00") none (some "nice") none none]⟩).1.map
      (fun msg => (msg.From, msg.Text))) =
      [("Alice", "hello"), ("Bob", "look at this"), ("Bob", "nice")] := by
  refine ⟨?_, ?_, ?_, ?_⟩ <;> decide

end parser

namespace parser

theorem withMetadata_messages (result : ParseResult) :
    (withMetadata result).Messages = result.Messages := by
  unfold withMetadata
  split <;> rfl

/-- The messages of a document whose first node has no sender label and is retained. -/
theorem parseDocument_first_unlabelled (doc : goquery.Document) (s : goquery.Node)
    (rest : List goquery.Node) (hdoc : doc.messages = s :: rest)
    (hlabel : nodeFromName s = "")
    (hkeep : nodeText s ≠ "" ∧ (nodeDate s).IsZero = false) :
    ∃ tail, (parseDocument doc).1 = nodeMessage (parseDocument doc).2 "" s :: tail := by
  have hl : ∀ c, (scanNode c ⟨[], ""⟩ s).lastFrom = "" := by
    intro c
    simp [scanNode, hlabel]
  refine ⟨(rest.foldl (scanNode (parseDocument doc).2) ⟨[], ""⟩).messages, ?_⟩
  simp only [parseDocument, hdoc, List.foldl_cons]
  rw [(scan_fold_append _ rest _).1, scanNode_messages, if_pos hkeep, hl]
  rfl

/-- C13 (last known sender across files), amended. The last known sender is
a variable of `parseFile` and starts empty in every file: when
`ParseAllFiles` processes the files `f₁` then `f₂` and the first message node
of `f₂` has no sender label (and is retained), the messages of `f₂` follow
those of `f₁` and the first of them has the empty string as sender, whatever
the senders of `f₁` are. -/
theorem parseAllFiles_sender_reset (fs : FileSystem) (f₁ f₂ : String)
    (d₁ d₂ : goquery.Document) (h₁ : fs f₁ = some d₁) (h₂ : fs f₂ = some d₂)
    (hord : extractFileNumber f₁ ≤ extractFileNumber f₂)
    (s : goquery.Node) (rest : List goquery.Node) (hd₂ : d₂.messages = s :: rest)
    (hlabel : nodeFromName s = "")
    (hkeep : nodeText s ≠ "" ∧ (nodeDate s).IsZero = false) :
    ∃ result tail, ParseAllFiles fs [f₁, f₂] = some result ∧
      result.Messages =
        (parseDocument d₁).1 ++ nodeMessage (parseDocument d₂).2 "" s :: tail ∧
      (nodeMessage (parseDocument d₂).2 "" s).From = "" := by
  obtain ⟨tail, htail⟩ := parseDocument_first_unlabelled d₂ s rest hd₂ hlabel hkeep
  have hless : decide (extractFileNumber f₂ < extractFileNumber f₁) = false := by
    simpa using hord
  have hsort : Go.sortSlice (fun a b => decide (extractFileNumber a < extractFileNumber b))
      [f₁, f₂] = [f₁, f₂] := by
    simp only [Go.sortSlice, List.foldl_cons, List.foldl_nil, Go.insertSorted, hless,
      Bool.false_eq_true, if_false]
  have hlen : ¬ ([f₁, f₂].length = 0) := by simp
  simp only [ParseAllFiles, if_neg hlen, hsort, parseFiles, parseFile, h₁, h₂, Option.map_some',
    Option.some_bind]
  refine ⟨_, tail, rfl, ?_, rfl⟩
  rw [withMetadata_messages]
  simp only [List.nil_append, htail]

/-- A run of the amended C13: the two files of the scenario. -/
theorem parseAllFiles_sender_reset_witness :
    (fun path : String =>
        if path = "export/messages.html" then
          some (⟨[], [goquery.exampleNode (some "01.01.2021 10:00:00 UTC+00:00")
            (some "Alice") (some "привет привет мир") none none]⟩ : goquery.Document)
        else some ⟨[], [goquery.exampleNode (some "01.01.2021 10:30:00 UTC+00:00")
            none (some "hello world") none none]⟩) "export/messages.html" =
      some ⟨[], [goquery.exampleNode (some "01.01.2021 10:00:00 UTC+00:00")
            (some "Alice") (some "привет привет мир") none none]⟩ ∧
    (fun path : String =>
        if path = "export/messages.html" then
          some (⟨[], [goquery.exampleNode (some "01.01.2021 10:00:00 UTC+00:00")
            (some "Alice") (some "привет привет мир") none none]⟩ : goquery.Document)
        else some ⟨[], [goquery.exampleNode (some "01.01.2021 10:30:00 UTC+00:00")
            none (some "hello world") none none]⟩) "export/messages1.html" =
      some ⟨[], [goquery.exampleNode (some "01.01.2021 10:30:00 UTC+00:00")
            none (some "hello world") none none]⟩ ∧
    extractFileNumber "export/messages.html" ≤ extractFileNumber "export/messages1.html" ∧
    nodeFromName (goquery.exampleNode (some "01.01.2021 10:30:00 UTC+00:00")
      none (some "hello world") none none) = "" ∧
    (nodeText (goquery.exampleNode (some "01.01.2021 10:30:00 UTC+00:00")
      none (some "hello world") none none) ≠ "" ∧
     (nodeDate (goquery.exampleNode (some "01.01.2021 10:30:00 UTC+00:00")
      none (some "hello world") none none)).IsZero = false) ∧
    ∃ result tail,
      ParseAllFiles
        (fun path : String =>
          if path = "export/messages.html" then
            some (⟨[], [goquery.exampleNode (some "01.01.2021 10:00:00 UTC+00:00")
              (some "Alice") (some "привет привет мир") none none]⟩ : goquery.Document)
          else some ⟨[], [goquery.exampleNode (some "01.01.2021 10:30:00 UTC+00:00")
              none (some "hello world") none none]⟩)
        ["export/messages.html", "export/messages1.html"] = some result ∧
      result.Messages =
        (parseDocument ⟨[], [goquery.exampleNode (some "01.01.2021 10:00:00 UTC+00:00")
              (some "Alice") (some "привет привет мир") none none]⟩).1 ++
          nodeMessage (parseDocument ⟨[], [goquery.exampleNode
            (some "01.01.2021 10:30:00 UTC+00:00") none (some "hello world") none none]⟩).2 ""
            (goquery.exampleNode (some "01.01.2021 10:30:00 UTC+00:00")
              none (some "hello world") none none) :: tail ∧
      (nodeMessage (parseDocument ⟨[], [goquery.exampleNode
            (some "01.01.2021 10:30:00 UTC+00:00") none (some "hello world") none none]⟩).2 ""
            (goquery.exampleNode (some "01.01.2021 10:30:00 UTC+00:00")
              none (some "hello world") none none)).From = "" :=
  ⟨if_pos rfl, if_neg (by decide), by decide, by decide, by decide,
    parseAllFiles_sender_reset _ _ _ _ _ (if_pos rfl) (if_neg (by decide)) (by decide) _ [] rfl
      (by decide) (by decide)⟩

end parser

namespace analyzer

/-- The tokenizer finds no word in a URL. -/
theorem extractWords_of_url (U : unicode.Tables) (scheme rest : String)
    (hscheme : scheme = "http://" ∨ scheme = "https://")
    (hne : rest ≠ "") (hrest : ∀ c ∈ rest.toList, isRegexpSpace c = false) :
    extractWords U (scheme ++ rest) = [] := by
  have hscheme' : scheme.toList = "http://".toList ∨ scheme.toList = "https://".toList := by
    rcases hscheme with rfl | rfl
    · exact Or.inl rfl
    · exact Or.inr rfl
  have hne' : rest.toList ≠ [] := fun h => hne (String.ext h)
  have hurl := stripURLs_url scheme.toList rest.toList hscheme' hne' hrest
  have hu : (scheme ++ rest).toList = scheme.toList ++ rest.toList := by
    simp [String.toList]
  rw [extractWords_eq, hu, hurl]
  rfl

/-- The message loop on one more message whose text has no word: the overall
accumulator counts the message and nothing else. -/
theorem accumulate_wordless (U : unicode.Tables) (result : parser.ParseResult)
    (m : parser.Message) (hwords : extractWords U m.Text = []) :
    (accumulate U { result with Messages := result.Messages ++ [m] }).Overall =
      countMessage m (accumulate U result).Overall := by
  have hacc : accumulate U { result with Messages := result.Messages ++ [m] } =
      processMessage U (accumulate U result) m := by
    simp only [accumulate, List.foldl_append, List.foldl_cons, List.foldl_nil]
    rfl
  rw [hacc]
  simp only [processMessage, hwords, List.foldl_nil]

end analyzer

namespace parser

/-- C11 (URL-only message), amended. A message whose only text is a URL
(`http://` or `https://` and one or more characters outside `\s`), with a
timestamp that is not the zero time, is retained by the callback of
`parseFile`; and in the result of `Analyze` it adds 1 to `TotalMessages` and
to its entries of `MessagesByUser`, `HourlyActivity` and `MonthlyActivity` of
the overall accumulator, and leaves every count of `WordFrequency` as it is. -/
theorem url_only_message_counted (U : unicode.Tables) (scheme rest : String)
    (hscheme : scheme = "http://" ∨ scheme = "https://")
    (hne : rest ≠ "") (hrest : ∀ c ∈ rest.toList, analyzer.isRegexpSpace c = false)
    (chatName : String) (st : FileScan) (s : goquery.Node)
    (htext : nodeText s = scheme ++ rest) (hdate : (nodeDate s).IsZero = false)
    (result : ParseResult) (m : Message) (hm : m.Text = scheme ++ rest) :
    (∃ msg, (scanNode chatName st s).messages = st.messages ++ [msg] ∧
      msg.Text = scheme ++ rest) ∧
    ∃ before after,
      analyzer.Analyze U result = some before ∧
      analyzer.Analyze U { result with Messages := result.Messages ++ [m] } = some after ∧
      after.Overall.TotalMessages = before.Overall.TotalMessages + 1 ∧
      after.Overall.MessagesByUser.get m.From = before.Overall.MessagesByUser.get m.From + 1 ∧
      after.Overall.HourlyActivity.get m.Date.Hour =
        before.Overall.HourlyActivity.get m.Date.Hour + 1 ∧
      after.Overall.MonthlyActivity.get (time.formatYearMonth m.Date) =
        before.Overall.MonthlyActivity.get (time.formatYearMonth m.Date) + 1 ∧
      ∀ w, after.Overall.WordFrequency.get w = before.Overall.WordFrequency.get w := by
  constructor
  · have hnonempty : nodeText s ≠ "" := by
      rw [htext]
      intro h
      apply hne
      apply String.ext
      have h' := congrArg String.toList h
      simp only [String.toList, String.data_append] at h'
      exact (List.append_eq_nil.1 h').2
    refine ⟨nodeMessage chatName (scanNode chatName ⟨[], st.lastFrom⟩ s).lastFrom s, ?_, htext⟩
    rw [(scanNode_append chatName st s).1, scanNode_messages, if_pos ⟨hnonempty, hdate⟩]
  · obtain ⟨before, hb, fb, -⟩ := analyzer.Analyze_some U result
    obtain ⟨after, ha, fa, -⟩ :=
      analyzer.Analyze_some U { result with Messages := result.Messages ++ [m] }
    have hwords : analyzer.extractWords U m.Text = [] := by
      rw [hm]
      exact analyzer.extractWords_of_url U scheme rest hscheme hne hrest
    have hov := analyzer.accumulate_wordless U result m hwords
    refine ⟨before, after, hb, ha, ?_, ?_, ?_, ?_, ?_⟩
    · rw [fa.totalMessages, fb.totalMessages, hov]
      rfl
    · rw [fa.messagesByUser, fb.messagesByUser, hov]
      simp [analyzer.countMessage, Go.Map.get_incr]
    · rw [fa.hourlyActivity, fb.hourlyActivity, hov]
      simp [analyzer.countMessage, Go.Map.get_incr]
    · rw [fa.monthlyActivity, fb.monthlyActivity, hov]
      simp [analyzer.countMessage, Go.Map.get_incr]
    · intro w
      rw [fa.wordFrequency, fb.wordFrequency, hov]
      rfl

/-- A run of the amended C11: a link after one message of text. -/
theorem url_only_message_counted_witness :
    ("https://" = "http://" ∨ "https://" = "https://") ∧
    "example.com/page" ≠ "" ∧
    (∀ c ∈ "example.com/page".toList, analyzer.isRegexpSpace c = false) ∧
    nodeText (goquery.exampleNode (some "01.01.2021 10:30:00 UTC+00:00") (some "Alice")
      (some "https://example.com/page") none none) = "https://" ++ "example.com/page" ∧
    (nodeDate (goquery.exampleNode (some "01.01.2021 10:30:00 UTC+00:00") (some "Alice")
      (some "https://example.com/page") none none)).IsZero = false ∧
    (⟨"", ⟨2021, 1, 1, 10, 30, 0⟩, "Alice", "https://example.com/page", 24, false, false⟩ :
      Message).Text = "https://" ++ "example.com/page" ∧
    ((∃ msg, (scanNode "" ⟨[], ""⟩ (goquery.exampleNode (some "01.01.2021 10:30:00 UTC+00:00")
        (some "Alice") (some "https://example.com/page") none none)).messages = [] ++ [msg] ∧
      msg.Text = "https://" ++ "example.com/page") ∧
    ∃ before after,
      analyzer.Analyze unicode.latinCyrillic
        ⟨⟨"", "", time.Time.zero, time.Time.zero, 0⟩,
          [⟨"", ⟨2021, 1, 1, 10, 0, 0⟩, "Alice", "hello world", 11, false, false⟩]⟩ =
        some before ∧
      analyzer.Analyze unicode.latinCyrillic
        { (⟨⟨"", "", time.Time.zero, time.Time.zero, 0⟩,
            [⟨"", ⟨2021, 1, 1, 10, 0, 0⟩, "Alice", "hello world", 11, false, false⟩]⟩ :
              ParseResult) with
          Messages :=
            [⟨"", ⟨2021, 1, 1, 10, 0, 0⟩, "Alice", "hello world", 11, false, false⟩] ++
            [⟨"", ⟨2021, 1, 1, 10, 30, 0⟩, "Alice", "https://example.com/page", 24,
              false, false⟩] } = some after ∧
      after.Overall.TotalMessages = before.Overall.TotalMessages + 1 ∧
      after.Overall.MessagesByUser.get "Alice" = before.Overall.MessagesByUser.get "Alice" + 1 ∧
      after.Overall.HourlyActivity.get (⟨2021, 1, 1, 10, 30, 0⟩ : time.Time).Hour =
        before.Overall.HourlyActivity.get (⟨2021, 1, 1, 10, 30, 0⟩ : time.Time).Hour + 1 ∧
      after.Overall.MonthlyActivity.get (time.formatYearMonth ⟨2021, 1, 1, 10, 30, 0⟩) =
        before.Overall.MonthlyActivity.get (time.formatYearMonth ⟨2021, 1, 1, 10, 30, 0⟩) + 1 ∧
      ∀ w, after.Overall.WordFrequency.get w = before.Overall.WordFrequency.get w) :=
  ⟨Or.inr rfl, by decide, by decide, by decide, by decide, rfl,
    url_only_message_counted unicode.latinCyrillic "https://" "example.com/page" (Or.inr rfl)
      (by decide) (by decide) "" ⟨[], ""⟩ _ (by decide) (by decide)
      ⟨⟨"", "", time.Time.zero, time.Time.zero, 0⟩,
        [⟨"", ⟨2021, 1, 1, 10, 0, 0⟩, "Alice", "hello world", 11, false, false⟩]⟩
      ⟨"", ⟨2021, 1, 1, 10, 30, 0⟩, "Alice", "https://example.com/page", 24, false, false⟩ rfl⟩

end parser

namespace parser

/-- A character of the class `\s` is one of its five characters. -/
theorem isRegexpSpace_cases (c : Char) (h : analyzer.isRegexpSpace c = true) :
    c = '\t' ∨ c = '\n' ∨ c = '\x0c' ∨ c = '\r' ∨ c = ' ' := by
  simpa [analyzer.isRegexpSpace, or_assoc] using h

/-- A character of the class `\s` is white space for `strings.TrimSpace`. -/
theorem isSpace_of_isRegexpSpace (c : Char) (h : analyzer.isRegexpSpace c = true) :
    unicode.IsSpace c = true := by
  rcases isRegexpSpace_cases c h with rfl | rfl | rfl | rfl | rfl <;> decide

/-- No test of the date pattern accepts a character of the class `\s`. -/
theorem datePattern_rejects_space (c : Char) (h : analyzer.isRegexpSpace c = true) :
    ∀ p ∈ datePattern, p c = false := by
  rcases isRegexpSpace_cases c h with rfl | rfl | rfl | rfl | rfl <;> decide

/-- A digit is not in the class `\s`. -/
theorem isRegexpSpace_of_isDigit (c : Char) (h : time.isDigit c = true) :
    analyzer.isRegexpSpace c = false := by
  cases hc : analyzer.isRegexpSpace c
  · rfl
  · rcases isRegexpSpace_cases c hc with rfl | rfl | rfl | rfl | rfl <;> revert h <;> decide

/-- A pattern that matches at the head of a text followed by a character it
rejects matches within the text. -/
theorem matchesHead_of_append (tail : List Char) :
    ∀ (ps : List (Char → Bool)) (l : List Char),
      (∀ p ∈ ps, ∀ t, tail.head? = some t → p t = false) →
      matchesHead ps (l ++ tail) = true → matchesHead ps l = true
  | [], _, _, _ => rfl
  | p :: ps, [], hrej, h => by
    cases tail with
    | nil => simp [matchesHead] at h
    | cons t ts =>
      have := hrej p (List.mem_cons_self _ _) t rfl
      simp [matchesHead, this] at h
  | p :: ps, c :: cs, hrej, h => by
    simp only [List.cons_append, matchesHead, Bool.and_eq_true] at h ⊢
    exact ⟨h.1, matchesHead_of_append tail ps cs
      (fun q hq => hrej q (List.mem_cons_of_mem _ hq)) h.2⟩

/-- A match of the suffix pattern that starts inside a text whose last
character is outside `\s` shows a character of `\s` before a date in the text. -/
theorem spaceDateIn_of_run (tail : List Char)
    (hrej : ∀ p ∈ datePattern, ∀ t, tail.head? = some t → p t = false) :
    ∀ (cs : List Char) (c : Char), analyzer.isRegexpSpace c = true →
      (∀ x, (c :: cs).getLast? = some x → analyzer.isRegexpSpace x = false) →
      matchesHead datePattern ((cs ++ tail).dropWhile analyzer.isRegexpSpace) = true →
      spaceDateIn (c :: cs) = true
  | [], c, hc, hlast, _ => by
    have := hlast c rfl
    rw [hc] at this
    exact absurd this (by decide)
  | d :: ds, c, hc, hlast, h => by
    have hlast' : ∀ x, (d :: ds).getLast? = some x → analyzer.isRegexpSpace x = false := by
      intro x hx
      apply hlast x
      rw [List.getLast?_cons_cons]
      exact hx
    cases hd : analyzer.isRegexpSpace d with
    | true =>
      simp only [List.cons_append, List.dropWhile_cons, hd, if_true] at h
      have ih := spaceDateIn_of_run tail hrej ds d hd hlast' h
      show (analyzer.isRegexpSpace c && matchesHead datePattern (d :: ds) ||
        spaceDateIn (d :: ds)) = true
      rw [ih, Bool.or_true]
    | false =>
      simp only [List.cons_append, List.dropWhile_cons, hd] at h
      have hm := matchesHead_of_append tail datePattern (d :: ds) hrej h
      show (analyzer.isRegexpSpace c && matchesHead datePattern (d :: ds) ||
        spaceDateIn (d :: ds)) = true
      rw [hc, hm]
      rfl

/-- The scan of the suffix pattern passes a text without a character of `\s`
before a date, and whose last character is outside `\s`. -/
theorem stripDateSuffix_append (tail : List Char)
    (hrej : ∀ p ∈ datePattern, ∀ t, tail.head? = some t → p t = false) :
    ∀ n : List Char, spaceDateIn n = false →
      (∀ x, n.getLast? = some x → analyzer.isRegexpSpace x = false) →
      stripDateSuffix (n ++ tail) = n ++ stripDateSuffix tail
  | [], _, _ => rfl
  | c :: cs, hn, hlast => by
    have hn' : (analyzer.isRegexpSpace c && matchesHead datePattern cs ||
        spaceDateIn cs) = false := hn
    rw [Bool.or_eq_false_iff] at hn'
    have hno : dateSuffixAt (c :: (cs ++ tail)) = false := by
      cases hd : dateSuffixAt (c :: (cs ++ tail)) with
      | false => rfl
      | true =>
        simp only [dateSuffixAt, Bool.and_eq_true] at hd
        have := spaceDateIn_of_run tail hrej cs c hd.1.1 hlast hd.1.2
        rw [hn] at this
        exact absurd this (by decide)
    have hlast' : ∀ x, cs.getLast? = some x → analyzer.isRegexpSpace x = false := by
      intro x hx
      cases cs with
      | nil => simp at hx
      | cons d ds =>
        apply hlast x
        rw [List.getLast?_cons_cons]
        exact hx
    show (if dateSuffixAt (c :: (cs ++ tail)) then [] else c :: stripDateSuffix (cs ++ tail)) = _
    rw [hno, stripDateSuffix_append tail hrej cs hn'.2 hlast']
    rfl

/-- The suffix pattern matches at the head of a run of `\s` before a date and
characters other than the line feed. -/
theorem stripDateSuffix_suffix (ws rest : List Char) (hne : ws ≠ [])
    (hws : ∀ c ∈ ws, analyzer.isRegexpSpace c = true)
    (hdate : matchesHead datePattern rest = true)
    (hline : ∀ c ∈ rest.drop 10, c ≠ '\n') :
    stripDateSuffix (ws ++ rest) = [] := by
  cases ws with
  | nil => exact absurd rfl hne
  | cons w ws =>
    have hdrop : ∀ l : List Char, (∀ c ∈ l, analyzer.isRegexpSpace c = true) →
        (l ++ rest).dropWhile analyzer.isRegexpSpace = rest := by
      intro l
      induction l with
      | nil =>
        intro _
        cases rest with
        | nil => rfl
        | cons r rs =>
          have hr : time.isDigit r = true := by
            simp only [datePattern, matchesHead, Bool.and_eq_true] at hdate
            exact hdate.1
          simp [List.dropWhile_cons, isRegexpSpace_of_isDigit r hr]
      | cons a l ih =>
        intro hl
        simp only [List.cons_append, List.dropWhile_cons, hl a (List.mem_cons_self _ _), if_true]
        exact ih (fun c hc => hl c (List.mem_cons_of_mem _ hc))
    have hmatch : dateSuffixAt (w :: (ws ++ rest)) = true := by
      simp only [dateSuffixAt, hdrop ws (fun c hc => hws c (List.mem_cons_of_mem _ hc)),
        hws w (List.mem_cons_self _ _), hdate, Bool.and_self, Bool.true_and, List.all_eq_true]
      intro x hx
      simpa using hline x hx
    show (if dateSuffixAt (w :: (ws ++ rest)) then [] else _) = _
    rw [hmatch]
    rfl

/-- The last character of a text that `strings.TrimSpace` leaves as it is, is outside `\s`. -/
theorem getLast_of_trimmed (n : String) (h : strings.TrimSpace n = n) :
    ∀ x, n.toList.getLast? = some x → analyzer.isRegexpSpace x = false := by
  intro x hx
  have hl : strings.trimSpace n.toList = n.toList := congrArg String.toList h
  have hhead : ∀ (l : List Char) c, (l.dropWhile unicode.IsSpace).head? = some c →
      unicode.IsSpace c = false := by
    intro l
    induction l with
    | nil => intro c hc; simp at hc
    | cons a l ih =>
      intro c hc
      cases ha : unicode.IsSpace a with
      | true =>
        simp only [List.dropWhile_cons, ha, if_true] at hc
        exact ih c hc
      | false =>
        simp only [List.dropWhile_cons, ha] at hc
        simp at hc
        rw [← hc]
        exact ha
  have hrev : n.toList.reverse =
      ((n.toList.dropWhile unicode.IsSpace).reverse.dropWhile unicode.IsSpace) := by
    have := congrArg List.reverse hl
    simp only [strings.trimSpace, List.reverse_reverse] at this
    exact this.symm
  have hx' : n.toList.reverse.head? = some x := by
    rw [List.head?_reverse]
    exact hx
  rw [hrev] at hx'
  have hsp := hhead _ x hx'
  cases hr : analyzer.isRegexpSpace x with
  | false => rfl
  | true =>
    rw [isSpace_of_isRegexpSpace x hr] at hsp
    exact absurd hsp (by decide)

/-- C15 (trailing-date stripping). The label `"Bob  05.03.2022 14:00:00"` is
cleaned to `"Bob"`.  For every name `n` that `strings.TrimSpace` leaves as it
is and that has no character of `\s` followed by a `DD.MM.YYYY` digit pattern,
and for every suffix made of one or more characters of `\s` (the white space
of the pattern), two digits, a period, two digits, a period, four digits and
further characters other than the line feed, `cleanForwardedName` maps
`n ++ suffix` to `n`, and maps `n` to `n`. -/
theorem cleanForwardedName_strips_date (n ws rest : String)
    (htrim : strings.TrimSpace n = n)
    (hname : spaceDateIn n.toList = false)
    (hne : ws ≠ "")
    (hws : ∀ c ∈ ws.toList, analyzer.isRegexpSpace c = true)
    (hdate : matchesHead datePattern rest.toList = true)
    (hline : ∀ c ∈ rest.toList.drop 10, c ≠ '\n') :
    cleanForwardedName "Bob  05.03.2022 14:00:00" = "Bob" ∧
    cleanForwardedName (n ++ (ws ++ rest)) = n ∧
    cleanForwardedName n = n := by
  have hlast := getLast_of_trimmed n htrim
  have hne' : ws.toList ≠ [] := fun h => hne (String.ext h)
  refine ⟨by decide, ?_, ?_⟩
  · have hl : (n ++ (ws ++ rest)).toList = n.toList ++ (ws.toList ++ rest.toList) := by
      simp [String.toList]
    have hrej : ∀ p ∈ datePattern, ∀ t, (ws.toList ++ rest.toList).head? = some t →
        p t = false := by
      intro p hp t ht
      cases hw : ws.toList with
      | nil => exact absurd hw hne'
      | cons w ws' =>
        rw [hw] at ht
        simp only [List.cons_append, List.head?_cons, Option.some.injEq] at ht
        subst ht
        exact datePattern_rejects_space w (hws w (by rw [hw]; exact List.mem_cons_self _ _)) p hp
    unfold cleanForwardedName
    rw [hl, stripDateSuffix_append _ hrej n.toList hname hlast,
      stripDateSuffix_suffix ws.toList rest.toList hne' hws hdate hline, List.append_nil]
    exact htrim
  · have h : stripDateSuffix n.toList = n.toList := by
      have h := stripDateSuffix_append [] (fun _ _ t ht => by simp at ht) n.toList hname hlast
      simpa only [List.append_nil, stripDateSuffix] using h
    unfold cleanForwardedName
    rw [h]
    exact htrim

/-- A run of C15: a name of two words and a suffix with a tab and a time. -/
theorem cleanForwardedName_strips_date_witness :
    strings.TrimSpace "Анна Maria" = "Анна Maria" ∧
    spaceDateIn "Анна Maria".toList = false ∧
    " \t" ≠ "" ∧
    (∀ c ∈ " \t".toList, analyzer.isRegexpSpace c = true) ∧
    matchesHead datePattern "05.03.2022 14:00:00".toList = true ∧
    (∀ c ∈ "05.03.2022 14:00:00".toList.drop 10, c ≠ '\n') ∧
    (cleanForwardedName "Bob  05.03.2022 14:00:00" = "Bob" ∧
      cleanForwardedName ("Анна Maria" ++ (" \t" ++ "05.03.2022 14:00:00")) = "Анна Maria" ∧
      cleanForwardedName "Анна Maria" = "Анна Maria") :=
  ⟨by decide, by decide, by decide, by decide, by decide, by decide,
    cleanForwardedName_strips_date "Анна Maria" " \t" "05.03.2022 14:00:00"
      (by decide) (by decide) (by decide) (by decide) (by decide) (by decide)⟩

end parser

namespace parser

/-- A digit is not white space. -/
theorem isSpace_of_isDigit (c : Char) (h : time.isDigit c = true) : unicode.IsSpace c = false := by
  simp only [time.isDigit, Bool.and_eq_true, decide_eq_true_eq] at h
  simp only [unicode.IsSpace, Bool.or_eq_false_iff, Bool.and_eq_false_iff, decide_eq_false_iff_not,
    beq_eq_false_iff_ne, ne_eq]
  omega

/-- A digit is not the letter `U`. -/
theorem ne_U_of_isDigit (c : Char) (h : time.isDigit c = true) : c ≠ 'U' := by
  rintro rfl
  revert h
  decide

/-- The scan of `dropWhile` over a text followed by one that starts outside the class. -/
theorem dropWhile_append_of_head (p : Char → Bool) (c : Char) (b : List Char) (hc : p c = false) :
    ∀ a : List Char, (a ++ c :: b).dropWhile p = a.dropWhile p ++ c :: b
  | [] => by simp [List.dropWhile_cons, hc]
  | x :: a => by
    cases hx : p x with
    | true =>
      simp only [List.cons_append, List.dropWhile_cons, hx, if_true]
      exact dropWhile_append_of_head p c b hc a
    | false => simp [List.dropWhile_cons, hx]

/-- The text `strings.TrimSpace` yields for a text after a first and a last
character that are not white space: the white space at the end is removed. -/
theorem trimSpace_append (a c : Char) (mid r : List Char)
    (ha : unicode.IsSpace a = false) (hc : unicode.IsSpace c = false) :
    strings.trimSpace (a :: (mid ++ c :: r)) =
      a :: (mid ++ c :: (r.reverse.dropWhile unicode.IsSpace).reverse) := by
  have h1 : (a :: (mid ++ c :: r)).dropWhile unicode.IsSpace = a :: (mid ++ c :: r) := by
    simp [List.dropWhile_cons, ha]
  have h2 : (a :: (mid ++ c :: r)).reverse = r.reverse ++ c :: (a :: mid).reverse := by
    simp
  unfold strings.trimSpace
  rw [h1, h2, dropWhile_append_of_head unicode.IsSpace c _ hc]
  simp

/-- The text before the first `" UTC"`, after a text without the letter `U`. -/
theorem beforeFirst_append (tail : List Char) (htail : tail.head? ≠ some 'U') :
    ∀ d : List Char, (∀ c ∈ d, c ≠ 'U') →
      strings.beforeFirst " UTC".toList (d ++ tail) =
        d ++ strings.beforeFirst " UTC".toList tail
  | [], _ => rfl
  | c :: d, hd => by
    have hnext : (d ++ tail).head? ≠ some 'U' := by
      cases d with
      | nil => exact htail
      | cons e d =>
        simp only [List.cons_append, List.head?_cons, ne_eq, Option.some.injEq]
        exact hd e (by simp)
    have hno : " UTC".toList.isPrefixOf (c :: (d ++ tail)) = false := by
      show List.isPrefixOf [' ', 'U', 'T', 'C'] (c :: (d ++ tail)) = false
      cases hx : d ++ tail with
      | nil => simp [List.isPrefixOf]
      | cons x xs =>
        rw [hx] at hnext
        simp only [List.head?_cons, ne_eq, Option.some.injEq] at hnext
        simp only [List.isPrefixOf, Bool.and_eq_false_iff, beq_eq_false_iff_ne, ne_eq]
        exact Or.inr (Or.inl (fun h => hnext h.symm))
    show (if " UTC".toList.isPrefixOf (c :: (d ++ tail)) then []
      else c :: strings.beforeFirst " UTC".toList (d ++ tail)) = _
    rw [hno, beforeFirst_append tail htail d (fun x hx => hd x (List.mem_cons_of_mem _ hx))]
    rfl

/-- The shape of a text that is exactly a valid timestamp. -/
theorem timestampFields_shape (l : List Char) (t : time.Time)
    (h : timestampFields l = some t) :
    ∃ d₁ d₂ m₁ m₂ y₁ y₂ y₃ y₄ h₁ h₂ n₁ n₂ s₁ s₂,
      l = [d₁, d₂, '.', m₁, m₂, '.', y₁, y₂, y₃, y₄, ' ', h₁, h₂, ':', n₁, n₂, ':', s₁, s₂] ∧
      (∀ c ∈ [d₁, d₂, m₁, m₂, y₁, y₂, y₃, y₄, h₁, h₂, n₁, n₂, s₁, s₂], time.isDigit c = true) ∧
      1 ≤ time.digitVal m₁ * 10 + time.digitVal m₂ ∧
      time.digitVal m₁ * 10 + time.digitVal m₂ ≤ 12 ∧
      1 ≤ time.digitVal d₁ * 10 + time.digitVal d₂ ∧
      time.digitVal d₁ * 10 + time.digitVal d₂ ≤
        time.daysIn (time.digitVal m₁ * 10 + time.digitVal m₂)
          ((time.digitVal y₁ * 1000 + time.digitVal y₂ * 100 + time.digitVal y₃ * 10 +
            time.digitVal y₄ : Nat) : Int) ∧
      time.digitVal h₁ * 10 + time.digitVal h₂ < 24 ∧
      time.digitVal n₁ * 10 + time.digitVal n₂ < 60 ∧
      time.digitVal s₁ * 10 + time.digitVal s₂ < 60 ∧
      t = ⟨((time.digitVal y₁ * 1000 + time.digitVal y₂ * 100 + time.digitVal y₃ * 10 +
              time.digitVal y₄ : Nat) : Int),
            time.digitVal m₁ * 10 + time.digitVal m₂,
            time.digitVal d₁ * 10 + time.digitVal d₂,
            time.digitVal h₁ * 10 + time.digitVal h₂,
            time.digitVal n₁ * 10 + time.digitVal n₂,
            time.digitVal s₁ * 10 + time.digitVal s₂⟩ := by
  unfold timestampFields at h
  split at h
  · rename_i d₁ d₂ p₁ m₁ m₂ p₂ y₁ y₂ y₃ y₄ sp h₁ h₂ c₁ n₁ n₂ c₂ s₁ s₂
    dsimp only at h
    split at h
    · rename_i hc
      obtain ⟨hdig, rfl, rfl, rfl, rfl, rfl, hm1, hm2, hd1, hd2, hh, hn, hs⟩ := hc
      refine ⟨d₁, d₂, m₁, m₂, y₁, y₂, y₃, y₄, h₁, h₂, n₁, n₂, s₁, s₂, rfl, ?_,
        hm1, hm2, hd1, hd2, hh, hn, hs, ?_⟩
      · rw [List.all_eq_true] at hdig
        exact hdig
      · exact (Option.some.inj h).symm
    · exact absurd h (by simp)
  · exact absurd h (by simp)

/-- The calendar fields in a zone without offset are the fields in UTC. -/
theorem inFixedZone_zero (t : time.Time) (h : t.hour < 24) : t.inFixedZone 0 = t := by
  have h1 : ¬ ((t.hour : Int) + 0 < 0) := by omega
  have h2 : ¬ (24 ≤ (t.hour : Int) + 0) := by omega
  unfold time.Time.inFixedZone
  rw [if_neg h1, if_neg h2]
  simp

/-- The two layouts on a text that is exactly a valid timestamp: the layout
with a zone fails, the layout without a zone yields the fields as written. -/
theorem parseClock_of_timestamp (l : List Char) (t : time.Time)
    (h : timestampFields l = some t) :
    time.parseClock true l = none ∧ time.parseClock false l = some t := by
  obtain ⟨d₁, d₂, m₁, m₂, y₁, y₂, y₃, y₄, h₁, h₂, n₁, n₂, s₁, s₂, rfl, hdig,
    hm1, hm2, hd1, hd2, hh, hn, hs, rfl⟩ := timestampFields_shape l t h
  simp only [List.mem_cons, List.mem_singleton, forall_eq_or_imp, forall_eq] at hdig
  obtain ⟨e1, e2, e3, e4, e5, e6, e7, e8, e9, e10, e11, e12, e13, e14, -⟩ := hdig
  have hsp : (h₁ == ' ') = false := by
    rw [beq_eq_false_iff_ne]
    rintro rfl
    revert e9
    decide
  have hd2' := hd2
  push_cast at hd2'
  constructor
  · simp [List.dropWhile_cons, hsp, hd2', time.parseClock, time.parseDateFields,
      time.parseClockFields, time.getnum,
      time.skipChar, time.skipSpace, time.getYear, time.skipFraction, time.inRange,
      time.skipZone, time.parseTimeZone,
      e1, e2, e3, e4, e5, e6, e7, e8, e9, e10, e11, e12, e13, e14,
      hm1, hm2, hd1, hd2, hh, hn, hs]
  · simp [List.dropWhile_cons, hsp, hd2', time.parseClock, time.parseDateFields,
      time.parseClockFields, time.getnum,
      time.skipChar, time.skipSpace, time.getYear, time.skipFraction, time.inRange,
      e1, e2, e3, e4, e5, e6, e7, e8, e9, e10, e11, e12, e13, e14,
      hm1, hm2, hd1, hd2, hh, hn, hs]
    exact inFixedZone_zero _ hh

/-- C16 (the UTC offset is discarded). The text `"01.09.2020 23:56:18 UTC+03:00"`
is parsed to 2020-09-01 23:56:18, hour 23.  For every text `d` that is exactly
a valid timestamp `DD.MM.YYYY HH:MM:SS` with the calendar fields `t`, and for
every text after `" UTC"` (an offset `+HH:MM` or `-HH:MM` among them),
`parseDate` maps `d` followed by `" UTC"` and that text to `t`, and maps `d`
to `t`: the fields written in `d`, with no conversion. -/
theorem parseDate_discards_offset (d offset : String) (t : time.Time)
    (h : timestampFields d.toList = some t) :
    parseDate "01.09.2020 23:56:18 UTC+03:00" = ⟨2020, 9, 1, 23, 56, 18⟩ ∧
    parseDate (d ++ (" UTC" ++ offset)) = t ∧
    parseDate d = t := by
  obtain ⟨hzoned, hplain⟩ := parseClock_of_timestamp d.toList t h
  obtain ⟨d₁, d₂, m₁, m₂, y₁, y₂, y₃, y₄, h₁, h₂, n₁, n₂, s₁, s₂, hl, hdig, -⟩ :=
    timestampFields_shape d.toList t h
  have hd₁ : unicode.IsSpace d₁ = false := isSpace_of_isDigit d₁ (hdig d₁ (by simp))
  have hs₂ : unicode.IsSpace s₂ = false := isSpace_of_isDigit s₂ (hdig s₂ (by simp))
  have hU : ∀ c ∈ d.toList, c ≠ 'U' := by
    intro c hc
    rw [hl] at hc
    simp only [List.mem_cons, List.mem_singleton, List.not_mem_nil, or_false] at hc
    rcases hc with rfl | rfl | rfl | rfl | rfl | rfl | rfl | rfl | rfl | rfl | rfl | rfl | rfl |
      rfl | rfl | rfl | rfl | rfl | rfl
    all_goals first
      | decide
      | exact ne_U_of_isDigit _ (hdig _ (by simp))
  have hplainText : dateText d = d.toList := by
    have h1 : strings.trimSpace d.toList = d.toList := by
      rw [hl]
      have := trimSpace_append d₁ s₂
        [d₂, '.', m₁, m₂, '.', y₁, y₂, y₃, y₄, ' ', h₁, h₂, ':', n₁, n₂, ':', s₁] [] hd₁ hs₂
      simpa using this
    have h2 : strings.beforeFirst " UTC".toList d.toList = d.toList := by
      have := beforeFirst_append [] (by simp) d.toList hU
      simpa [strings.beforeFirst] using this
    show strings.trimSpace (strings.beforeFirst " UTC".toList (strings.trimSpace d.toList)) =
      d.toList
    rw [h1, h2, h1]
  have hoffsetText : dateText (d ++ (" UTC" ++ offset)) = d.toList := by
    have h0 : (d ++ (" UTC" ++ offset)).toList =
        d.toList ++ ([' ', 'U', 'T'] ++ 'C' :: offset.toList) := by
      simp [String.toList]
    have h1 : strings.trimSpace (d ++ (" UTC" ++ offset)).toList =
        d.toList ++ " UTC".toList ++
          (offset.toList.reverse.dropWhile unicode.IsSpace).reverse := by
      rw [h0, hl]
      have := trimSpace_append d₁ 'C'
        ([d₂, '.', m₁, m₂, '.', y₁, y₂, y₃, y₄, ' ', h₁, h₂, ':', n₁, n₂, ':', s₁, s₂] ++
          [' ', 'U', 'T']) offset.toList hd₁ (by decide)
      simpa using this
    have h2 : strings.beforeFirst " UTC".toList (d.toList ++ (" UTC".toList ++
        (offset.toList.reverse.dropWhile unicode.IsSpace).reverse)) = d.toList := by
      rw [beforeFirst_append _ (by simp) d.toList hU]
      simp [strings.beforeFirst, List.isPrefixOf]
    have h3 : strings.trimSpace d.toList = d.toList := by
      rw [hl]
      have := trimSpace_append d₁ s₂
        [d₂, '.', m₁, m₂, '.', y₁, y₂, y₃, y₄, ' ', h₁, h₂, ':', n₁, n₂, ':', s₁] [] hd₁ hs₂
      simpa using this
    show strings.trimSpace (strings.beforeFirst " UTC".toList
      (strings.trimSpace (d ++ (" UTC" ++ offset)).toList)) = d.toList
    rw [h1, List.append_assoc, h2, h3]
  refine ⟨by decide, ?_, ?_⟩
  · simp only [parseDate, hoffsetText, hzoned, hplain]
  · simp only [parseDate, hplainText, hzoned, hplain]

/-- A run of C16: the last day of a leap February with a negative offset. -/
theorem parseDate_discards_offset_witness :
    timestampFields "29.02.2024 00:05:59".toList = some ⟨2024, 2, 29, 0, 5, 59⟩ ∧
    (parseDate "01.09.2020 23:56:18 UTC+03:00" = ⟨2020, 9, 1, 23, 56, 18⟩ ∧
      parseDate ("29.02.2024 00:05:59" ++ (" UTC" ++ "-11:30")) = ⟨2024, 2, 29, 0, 5, 59⟩ ∧
      parseDate "29.02.2024 00:05:59" = ⟨2024, 2, 29, 0, 5, 59⟩) :=
  ⟨by decide, parseDate_discards_offset "29.02.2024 00:05:59" "-11:30" _ (by decide)⟩

end parser

namespace parser

/-- The text and the date of the messages retained from a run of nodes: those
of the nodes with a text and a date that is not the zero time, in order. -/
theorem scan_fold_retained (chatName : String) (nodes : List goquery.Node) :
    ∀ lastFrom : String,
      ((nodes.foldl (scanNode chatName) ⟨[], lastFrom⟩).messages).map
          (fun m => (m.Text, m.Date)) =
        (nodes.filter (fun s => decide (nodeText s ≠ "") && !(nodeDate s).IsZero)).map
          (fun s => (nodeText s, nodeDate s)) := by
  induction nodes with
  | nil => intro _; rfl
  | cons s nodes ih =>
    intro lastFrom
    simp only [List.foldl_cons]
    rw [(scan_fold_append chatName nodes _).1, scanNode_messages, List.map_append, ih]
    by_cases h : nodeText s ≠ "" ∧ (nodeDate s).IsZero = false
    · have hb : (decide (nodeText s ≠ "") && !(nodeDate s).IsZero) = true := by
        simp [h.1, h.2]
      rw [if_pos h]
      simp only [List.filter_cons, hb, if_true]
      rfl
    · have hb : (decide (nodeText s ≠ "") && !(nodeDate s).IsZero) = false := by
        cases hc : (decide (nodeText s ≠ "") && !(nodeDate s).IsZero) with
        | false => rfl
        | true => exact absurd (by simpa using hc) h
      rw [if_neg h]
      simp only [List.filter_cons, hb]
      rfl

end parser

namespace time

/-- The digit characters of the library: a digit below 10 is an ASCII digit with that value. -/
theorem digitChar_digit : ∀ k < 10,
    isDigit (Nat.digitChar k) = true ∧ digitVal (Nat.digitChar k) = k := by
  decide

/-- The digits that `Nat.toDigitsCore` puts before the digits it is given:
they are not empty, they are ASCII digits, and read from the left after a
value `acc` they give `acc` shifted by their number and the number added. -/
theorem toDigitsCore_value : ∀ (fuel n : Nat) (ds : List Char), n < fuel →
    ∃ pre, Nat.toDigitsCore 10 fuel n ds = pre ++ ds ∧ pre ≠ [] ∧
      (∀ c ∈ pre, isDigit c = true) ∧
      ∀ acc, pre.foldl (fun n c => 10 * n + digitVal c) acc = acc * 10 ^ pre.length + n
  | 0, _, _, h => absurd h (Nat.not_lt_zero _)
  | fuel + 1, n, ds, h => by
    have hmod := digitChar_digit (n % 10) (Nat.mod_lt _ (by decide))
    unfold Nat.toDigitsCore
    by_cases hq : n / 10 = 0
    · refine ⟨[Nat.digitChar (n % 10)], ?_, by simp, ?_, ?_⟩
      · simp [hq]
      · intro c hc
        rw [List.mem_singleton.1 hc]
        exact hmod.1
      · intro acc
        simp only [List.foldl_cons, List.foldl_nil, List.length_singleton, pow_one, hmod.2]
        omega
    · have hlt : n / 10 < fuel := by omega
      obtain ⟨pre, hpre, -, hdig, hval⟩ :=
        toDigitsCore_value fuel (n / 10) (Nat.digitChar (n % 10) :: ds) hlt
      refine ⟨pre ++ [Nat.digitChar (n % 10)], ?_, by simp, ?_, ?_⟩
      · simp [hq, hpre]
      · intro c hc
        rcases List.mem_append.1 hc with hc | hc
        · exact hdig c hc
        · rw [List.mem_singleton.1 hc]
          exact hmod.1
      · intro acc
        rw [List.foldl_append, hval]
        simp only [List.foldl_cons, List.foldl_nil]
        rw [hmod.2, List.length_append, List.length_singleton, pow_succ, ← Nat.mul_assoc]
        omega

/-- The decimal digits of a number: not empty, ASCII digits, with the number as their value. -/
theorem toDigits_value (N : Nat) :
    Nat.toDigits 10 N ≠ [] ∧ (∀ c ∈ Nat.toDigits 10 N, isDigit c = true) ∧
    decimalValue (Nat.toDigits 10 N) = N := by
  obtain ⟨pre, hpre, hne, hdig, hval⟩ := toDigitsCore_value (N + 1) N [] (Nat.lt_succ_self N)
  rw [List.append_nil] at hpre
  unfold Nat.toDigits
  rw [hpre]
  refine ⟨hne, hdig, ?_⟩
  have := hval 0
  simpa [decimalValue] using this

end time

namespace Go

/-- The library function `sort.Slice` with the order of an integer key leaves
the keys in non-decreasing order. -/
theorem sortSlice_ascending {α : Type} (key : α → Int) (xs : List α) :
    (sortSlice (fun a b => decide (key a < key b)) xs).Pairwise (fun a b => key a ≤ key b) := by
  have hless : (fun a b => decide (key a < key b)) =
      (fun a b => decide ((fun x => - key x) a > (fun x => - key x) b)) := by
    funext a b
    simp
  rw [hless]
  refine (sortSlice_pairwise (fun x => - key x) xs).imp ?_
  intro a b h
  simpa using h

end Go

namespace parser

/-- The group of the pattern `messages(\d*)\.html` in a base name that is
`messages`, digits and `.html`: the digits. -/
theorem findFileNumber_of_digits (ds : List Char) (hdig : ∀ c ∈ ds, time.isDigit c = true) :
    findFileNumber ('m' :: 'e' :: 's' :: 's' :: 'a' :: 'g' :: 'e' :: 's' ::
      (ds ++ ['.', 'h', 't', 'm', 'l'])) = some ds := by
  have h0 : time.isDigit '.' = false := by decide
  have h1 : (ds ++ ['.', 'h', 't', 'm', 'l']).dropWhile time.isDigit =
      ['.', 'h', 't', 'm', 'l'] := by
    rw [List.dropWhile_append_of_pos hdig]
    simp [List.dropWhile_cons, h0]
  have h2 : (ds ++ ['.', 'h', 't', 'm', 'l']).takeWhile time.isDigit = ds := by
    rw [List.takeWhile_append_of_pos hdig]
    simp [List.takeWhile_cons, h0]
  have hat : fileNumberAt ('m' :: 'e' :: 's' :: 's' :: 'a' :: 'g' :: 'e' :: 's' ::
      (ds ++ ['.', 'h', 't', 'm', 'l'])) = some ds := by
    have hp : "messages".toList = ['m', 'e', 's', 's', 'a', 'g', 'e', 's'] := rfl
    have hq : ".html".toList = ['.', 'h', 't', 'm', 'l'] := rfl
    simp only [fileNumberAt, hp, hq, List.drop_succ_cons, List.drop_zero, h1, h2]
    simp [List.isPrefixOf]
  unfold findFileNumber
  rw [hat]

/-- The key of a path whose base name is `messages`, the decimal digits of a
number that is a Go `int`, and `.html`: the number. -/
theorem extractFileNumber_of_repr (path : String) (N : Nat) (hN : N < 2 ^ 63)
    (hbase : filepath.Base path = "messages" ++ Nat.repr N ++ ".html") :
    extractFileNumber path = N := by
  obtain ⟨hne, hdig, hval⟩ := time.toDigits_value N
  have hl : ("messages" ++ Nat.repr N ++ ".html").toList =
      'm' :: 'e' :: 's' :: 's' :: 'a' :: 'g' :: 'e' :: 's' ::
        (Nat.toDigits 10 N ++ ['.', 'h', 't', 'm', 'l']) := by
    simp [String.toList, Nat.repr, List.asString]
  unfold extractFileNumber
  rw [hbase, hl, findFileNumber_of_digits _ hdig]
  simp only [hne, if_false, scanInt, hval, hN, if_true]

/-- The loop of `ParseAllFiles` over files that open: it returns, and the
messages of the files are added in the order of the files. -/
theorem parseFiles_messages (fs : FileSystem) :
    ∀ (files : List String) (docs : List goquery.Document) (i : Nat) (result : ParseResult),
      List.Forall₂ (fun f d => fs f = some d) files docs →
      ∃ final, parseFiles fs i files result = some final ∧
        final.Messages = result.Messages ++ (docs.map (fun d => (parseDocument d).1)).flatten
  | [], _, i, result, h => by
    cases h
    exact ⟨result, rfl, by simp⟩
  | f :: files, _, i, result, h => by
    cases h with
    | cons hf hrest =>
      rename_i d docs
      obtain ⟨final, hfinal, hmsgs⟩ := parseFiles_messages fs files docs (i + 1)
        { Metadata :=
            if i == 0 && (parseDocument d).2 != "" then
              { result.Metadata with Name := (parseDocument d).2, Kind := "личный" }
            else result.Metadata
          Messages := result.Messages ++ (parseDocument d).1 } hrest
      refine ⟨final, ?_, ?_⟩
      · simp only [parseFiles, parseFile, hf, Option.map_some', Option.some_bind]
        exact hfinal
      · rw [hmsgs]
        simp [List.flatten]

/-- The documents of files that open. -/
theorem documents_of_open (fs : FileSystem) :
    ∀ files : List String, (∀ f ∈ files, ∃ d, fs f = some d) →
      ∃ docs, List.Forall₂ (fun f d => fs f = some d) files docs
  | [], _ => ⟨[], List.Forall₂.nil⟩
  | f :: files, h => by
    obtain ⟨d, hd⟩ := h f (List.mem_cons_self _ _)
    obtain ⟨docs, hdocs⟩ := documents_of_open fs files
      (fun g hg => h g (List.mem_cons_of_mem _ hg))
    exact ⟨d :: docs, List.Forall₂.cons hd hdocs⟩

/-- In a list with non-decreasing keys, an element with a smaller key stands
before an element with a greater key. -/
theorem precedes_of_ascending {α : Type} (key : α → Int) (sorted : List α)
    (hsorted : sorted.Pairwise (fun a b => key a ≤ key b)) (a b : α)
    (ha : a ∈ sorted) (hb : b ∈ sorted) (hlt : key a < key b) :
    ∃ l₁ l₂ l₃, sorted = l₁ ++ a :: (l₂ ++ b :: l₃) := by
  obtain ⟨l₁, r, rfl⟩ := List.append_of_mem ha
  rw [List.pairwise_append] at hsorted
  rcases List.mem_append.1 hb with hb | hb
  · have := hsorted.2.2 b hb a (List.mem_cons_self _ _)
    omega
  · rcases List.mem_cons.1 hb with hb | hb
    · rw [hb] at hlt
      omega
    · obtain ⟨l₂, l₃, rfl⟩ := List.append_of_mem hb
      exact ⟨l₁, l₂, l₃, rfl⟩

/-- C18 (file ordering key). `extractFileNumber` returns 0 for a path whose
base name is `messages.html`, and the number `N` for a path whose base name is
`messages`, the decimal digits of `N` and `.html`, whatever the directory part
(`N` is a Go `int`: below `2 ^ 63`).  For a non-empty list of files that all
open, `ParseAllFiles` returns, and the messages of its result are the messages
of the files one after the other, each list in the document order of
`parseFile`, the files taken in an order with non-decreasing keys: a file with
a smaller key (the unnumbered file before a file with a positive number)
stands before a file with a greater key. -/
theorem extractFileNumber_orders_files (unnumbered path : String) (N : Nat)
    (fs : FileSystem) (files : List String)
    (hunnumbered : filepath.Base unnumbered = "messages.html")
    (hN : N < 2 ^ 63)
    (hbase : filepath.Base path = "messages" ++ Nat.repr N ++ ".html")
    (hne : files ≠ [])
    (hopen : ∀ f ∈ files, ∃ d, fs f = some d) :
    extractFileNumber unnumbered = 0 ∧
    extractFileNumber path = N ∧
    ∃ result sorted docs,
      ParseAllFiles fs files = some result ∧
      sorted.Perm files ∧
      sorted.Pairwise (fun a b => extractFileNumber a ≤ extractFileNumber b) ∧
      List.Forall₂ (fun f d => fs f = some d) sorted docs ∧
      result.Messages = (docs.map (fun d => (parseDocument d).1)).flatten ∧
      ∀ a b, a ∈ files → b ∈ files → extractFileNumber a < extractFileNumber b →
        ∃ l₁ l₂ l₃, sorted = l₁ ++ a :: (l₂ ++ b :: l₃) := by
  refine ⟨?_, extractFileNumber_of_repr path N hN hbase, ?_⟩
  · unfold extractFileNumber
    rw [hunnumbered]
    rfl
  · have hperm := Go.sortSlice_perm
      (fun a b => decide (extractFileNumber a < extractFileNumber b)) files
    have hsorted := Go.sortSlice_ascending extractFileNumber files
    obtain ⟨docs, hdocs⟩ := documents_of_open fs _
      (fun f hf => hopen f (hperm.subset hf))
    obtain ⟨final, hfinal, hmsgs⟩ := parseFiles_messages fs _ docs 0
      { Metadata := { Name := "", Kind := "", FirstMessage := time.Time.zero,
                      LastMessage := time.Time.zero, TotalCount := 0 }
        Messages := [] } hdocs
    have hlen : ¬ files.length = 0 := fun h => hne (List.length_eq_zero.1 h)
    refine ⟨withMetadata final, _, docs, ?_, hperm, hsorted, hdocs, ?_, ?_⟩
    · simp only [ParseAllFiles, if_neg hlen, hfinal, Option.map_some']
    · rw [withMetadata_messages, hmsgs, List.nil_append]
    · intro a b ha hb hlt
      exact precedes_of_ascending extractFileNumber _ hsorted a b
        (hperm.mem_iff.2 ha) (hperm.mem_iff.2 hb) hlt

/-- A run of C18: the numbered file is listed first and parsed second. -/
theorem extractFileNumber_orders_files_witness :
    filepath.Base "export/messages.html" = "messages.html" ∧
    12 < 2 ^ 63 ∧
    filepath.Base "export/chat/messages12.html" = "messages" ++ Nat.repr 12 ++ ".html" ∧
    ["export/messages2.html", "export/messages.html"] ≠ [] ∧
    (∀ f ∈ ["export/messages2.html", "export/messages.html"], ∃ d,
      (fun path : String => some (⟨[], [goquery.exampleNode
          (some "01.01.2021 10:00:00 UTC+00:00") (some path) (some "hello world")
          none none]⟩ : goquery.Document)) f = some d) ∧
    (extractFileNumber "export/messages.html" = 0 ∧
    extractFileNumber "export/chat/messages12.html" = (12 : Nat) ∧
    ∃ result sorted docs,
      ParseAllFiles (fun path : String => some (⟨[], [goquery.exampleNode
          (some "01.01.2021 10:00:00 UTC+00:00") (some path) (some "hello world")
          none none]⟩ : goquery.Document))
        ["export/messages2.html", "export/messages.html"] = some result ∧
      sorted.Perm ["export/messages2.html", "export/messages.html"] ∧
      sorted.Pairwise (fun a b => extractFileNumber a ≤ extractFileNumber b) ∧
      List.Forall₂ (fun f d => (fun path : String => some (⟨[], [goquery.exampleNode
          (some "01.01.2021 10:00:00 UTC+00:00") (some path) (some "hello world")
          none none]⟩ : goquery.Document)) f = some d) sorted docs ∧
      result.Messages = (docs.map (fun d => (parseDocument d).1)).flatten ∧
      ∀ a b, a ∈ ["export/messages2.html", "export/messages.html"] →
        b ∈ ["export/messages2.html", "export/messages.html"] →
        extractFileNumber a < extractFileNumber b →
        ∃ l₁ l₂ l₃, sorted = l₁ ++ a :: (l₂ ++ b :: l₃)) :=
  ⟨by decide, by decide, by decide, by decide, fun _ _ => ⟨_, rfl⟩,
    extractFileNumber_orders_files "export/messages.html" "export/chat/messages12.html" 12
      (fun path : String => some (⟨[], [goquery.exampleNode
          (some "01.01.2021 10:00:00 UTC+00:00") (some path) (some "hello world")
          none none]⟩ : goquery.Document))
      ["export/messages2.html", "export/messages.html"]
      (by decide) (by decide) (by decide) (by decide) (fun _ _ => ⟨_, rfl⟩)⟩

end parser

/-! ## The year accumulators of the message loop -/

namespace Go.Map

variable {κ ν : Type} [DecidableEq κ]

/-- A key is in the map exactly when the lookup finds an entry. -/
theorem mem_keys_iff (m : Map κ ν) (k : κ) : k ∈ keys m ↔ ∃ v, find? m k = some v := by
  induction m with
  | nil => simp [keys, find?]
  | cons e m ih =>
    obtain ⟨k₀, v₀⟩ := e
    by_cases h₀ : k₀ = k
    · simp [keys, find?, h₀]
    · have ih' := ih
      simp only [keys] at ih'
      simp [keys, find?, h₀, Ne.symm h₀, ih']

end Go.Map

namespace analyzer

/-- One iteration of the message loop, seen from the year accumulators: the
accumulator of the year of the message (a fresh one when the year is new) gets
the updates of the message, the overall accumulator gets the same updates
without the first and last timestamps, and no other accumulator changes. -/
theorem processMessage_step (U : unicode.Tables) (s : Stats) (msg : parser.Message) :
    Go.Map.find? (processMessage U s msg).ByYear msg.Date.Year =
      some ((extractWords U msg.Text).foldl (countWords msg.From)
        (trackFirstLast msg (countMessage msg
          ((Go.Map.find? s.ByYear msg.Date.Year).getD (newYearStats msg.Date.Year))),
         countMessage msg s.Overall)).1 ∧
    (processMessage U s msg).Overall =
      ((extractWords U msg.Text).foldl (countWords msg.From)
        (trackFirstLast msg (countMessage msg
          ((Go.Map.find? s.ByYear msg.Date.Year).getD (newYearStats msg.Date.Year))),
         countMessage msg s.Overall)).2 ∧
    (∀ y, y ≠ msg.Date.Year →
      Go.Map.find? (processMessage U s msg).ByYear y = Go.Map.find? s.ByYear y) ∧
    (Go.Map.WF s.ByYear → Go.Map.WF (processMessage U s msg).ByYear) := by
  cases hf : Go.Map.find? s.ByYear msg.Date.Year with
  | none =>
    simp only [processMessage, hf, Option.isNone_none, if_true, Go.Map.find?_set_self,
      Option.getD_some, Option.getD_none, true_and]
    refine ⟨?_, ?_⟩
    · intro y hy
      rw [Go.Map.find?_set_ne _ _ _ _ hy, Go.Map.find?_set_ne _ _ _ _ hy]
    · intro hwf
      exact Go.Map.wf_set _ (Go.Map.wf_set _ hwf _ _) _ _
  | some ys =>
    simp only [processMessage, hf, Option.isNone_some, Bool.false_eq_true, if_false,
      Go.Map.find?_set_self, Option.getD_some, true_and]
    refine ⟨?_, ?_⟩
    · intro y hy
      rw [Go.Map.find?_set_ne _ _ _ _ hy]
    · intro hwf
      exact Go.Map.wf_set _ hwf _ _

/-- The first component of the word loop depends on the first accumulator
only: a property that `countWord` keeps holds after the loop. -/
theorem countWords_fold_fst (Q : YearStats → Prop) (user : String) (words : List String)
    (hword : ∀ w ys, Q ys → Q (countWord user w ys))
    (acc : YearStats × YearStats) (h : Q acc.1) :
    Q (words.foldl (countWords user) acc).1 :=
  (countWords_fold_inv₂ Q (fun _ => True) user words
    (fun w _ ys _ _ hq => hword w ys hq) (fun _ _ _ _ _ _ => trivial) acc ⟨h, trivial⟩).1

/-- The second component of the word loop depends on the second accumulator only. -/
theorem countWords_fold_snd (Q : YearStats → Prop) (user : String) (words : List String)
    (hword : ∀ w ys, Q ys → Q (countWord user w ys))
    (acc : YearStats × YearStats) (h : Q acc.2) :
    Q (words.foldl (countWords user) acc).2 :=
  (countWords_fold_inv₂ (fun _ => True) Q user words
    (fun _ _ _ _ _ _ => trivial) (fun w _ ys _ _ hq => hword w ys hq) acc ⟨trivial, h⟩).2

/-- An invariant of the year accumulators that speaks of the messages of the
year: a relation between the messages of a year seen so far, in order, and
the accumulator of the year, that holds of no message and the fresh
accumulator and that the updates of the loop keep, holds at the end of the
loop of the messages of every year and its accumulator; and there is an
accumulator exactly for the years of the messages. -/
theorem fold_year_inv (U : unicode.Tables) (P : Int → List parser.Message → YearStats → Prop)
    (hnew : ∀ y, P y [] (newYearStats y))
    (hmsg : ∀ (l : List parser.Message) (msg : parser.Message) (ys : YearStats),
      P msg.Date.Year l ys →
      P msg.Date.Year (l ++ [msg]) (trackFirstLast msg (countMessage msg ys)))
    (hword : ∀ y l ys user w, P y l ys → P y l (countWord user w ys))
    (s₀ : Stats) (hs₀ : s₀.ByYear = []) (msgs : List parser.Message) (y : Int) :
    Go.Map.WF (msgs.foldl (processMessage U) s₀).ByYear ∧
    (∀ ys, Go.Map.find? (msgs.foldl (processMessage U) s₀).ByYear y = some ys →
      P y (msgs.filter (fun m => decide (m.Date.Year = y))) ys ∧
      msgs.filter (fun m => decide (m.Date.Year = y)) ≠ []) ∧
    (Go.Map.find? (msgs.foldl (processMessage U) s₀).ByYear y = none →
      msgs.filter (fun m => decide (m.Date.Year = y)) = []) := by
  induction msgs using List.reverseRecOn with
  | nil =>
    simp only [List.foldl_nil, hs₀, List.filter_nil]
    exact ⟨List.nodup_nil, fun ys h => by simp [Go.Map.find?] at h, fun _ => trivial⟩
  | append_singleton msgs msg ih =>
    obtain ⟨hwf, hsome, hnone⟩ := ih
    obtain ⟨hyear, -, hother, hwf'⟩ := processMessage_step U (msgs.foldl (processMessage U) s₀) msg
    rw [List.foldl_append, List.foldl_cons, List.foldl_nil, List.filter_append]
    refine ⟨hwf' hwf, ?_, ?_⟩
    · intro ys hys
      by_cases hy : y = msg.Date.Year
      · subst hy
        rw [hyear] at hys
        have hf : [msg].filter (fun m => decide (m.Date.Year = msg.Date.Year)) = [msg] := by
          simp
        rw [hf]
        refine ⟨?_, by simp⟩
        rw [← Option.some.inj hys]
        apply countWords_fold_fst (P msg.Date.Year _) _ _ (fun w ys h => hword _ _ ys _ w h)
        apply hmsg
        cases hold : Go.Map.find? (msgs.foldl (processMessage U) s₀).ByYear msg.Date.Year with
        | none =>
          rw [hnone hold]
          exact hnew _
        | some old => exact (hsome old hold).1
      · rw [hother y hy] at hys
        have hf : [msg].filter (fun m => decide (m.Date.Year = y)) = [] := by
          simp [Ne.symm hy]
        rw [hf, List.append_nil]
        exact hsome ys hys
    · intro hys
      by_cases hy : y = msg.Date.Year
      · subst hy
        rw [hyear] at hys
        exact absurd hys (by simp)
      · rw [hother y hy] at hys
        have hf : [msg].filter (fun m => decide (m.Date.Year = y)) = [] := by
          simp [Ne.symm hy]
        rw [hf, List.append_nil]
        exact hnone hys

/-- An invariant of the overall accumulator that speaks of the messages seen
so far. -/
theorem fold_overall_inv (U : unicode.Tables) (P : List parser.Message → YearStats → Prop)
    (hmsg : ∀ (l : List parser.Message) (msg : parser.Message) (ys : YearStats),
      P l ys → P (l ++ [msg]) (countMessage msg ys))
    (hword : ∀ l ys user w, P l ys → P l (countWord user w ys))
    (s₀ : Stats) (hs₀ : P [] s₀.Overall) (msgs : List parser.Message) :
    P msgs (msgs.foldl (processMessage U) s₀).Overall := by
  induction msgs using List.reverseRecOn with
  | nil => exact hs₀
  | append_singleton msgs msg ih =>
    obtain ⟨-, hov, -, -⟩ := processMessage_step U (msgs.foldl (processMessage U) s₀) msg
    rw [List.foldl_append, List.foldl_cons, List.foldl_nil, hov]
    apply countWords_fold_snd (P _) _ _ (fun w ys h => hword _ ys _ w h)
    exact hmsg _ _ _ ih

/-- Every year accumulator of the result is the finalization of the year
accumulator of the message loop with the same key, with the same first and
last timestamps; the keys are those of the message loop. -/
theorem Analyze_years (U : unicode.Tables) (result : parser.ParseResult) (stats : Stats)
    (h : Analyze U result = some stats) :
    Go.Map.keys stats.ByYear = Go.Map.keys (accumulate U result).ByYear ∧
    ∀ e ∈ stats.ByYear, ∃ ys,
      Go.Map.find? (accumulate U result).ByYear e.1 = some ys ∧ Finalized ys e.2 ∧
      e.2.FirstMessage = ys.FirstMessage ∧ e.2.LastMessage = ys.LastMessage := by
  obtain ⟨stats', hs', -, -, -, hall⟩ := Analyze_some U result
  rw [h] at hs'
  cases Option.some.inj hs'
  have hwf : Go.Map.WF (accumulate U result).ByYear :=
    (fold_year_inv U (fun _ _ _ => True) (fun _ => trivial) (fun _ _ _ _ => trivial)
      (fun _ _ _ _ _ _ => trivial) (initStats result) rfl result.Messages 0).1
  constructor
  · exact (forall₂_map_eq _ Prod.fst Prod.fst (fun a b hab => hab.1.symm) _ _ hall).symm
  · intro e he
    obtain ⟨e₀, he₀, hkey, hfin, hfirst, hlast⟩ := forall₂_right_mem _ _ _ hall e he
    refine ⟨e₀.2, ?_, hfin, hfirst, hlast⟩
    rw [hkey]
    exact Go.Map.find?_of_mem _ hwf _ _ he₀

end analyzer

/-! ## The arithmetic of `float64` -/

namespace Go.Float64

theorem exponent_spec (q : ℚ) (hq : q ≠ 0) :
    (2 : ℚ) ^ exponent q ≤ |q| ∧ |q| < (2 : ℚ) ^ (exponent q + 1) := by
  have hpos : 0 < |q| := abs_pos.2 hq
  constructor
  · have := Int.zpow_log_le_self (b := 2) (by norm_num) hpos
    simpa [exponent] using this
  · have := Int.lt_zpow_succ_log_self (b := 2) (by norm_num) |q|
    simpa [exponent] using this

theorem exponent_unique (q : ℚ) (e : Int) (h1 : (2 : ℚ) ^ e ≤ |q|) (h2 : |q| < (2 : ℚ) ^ (e + 1)) :
    exponent q = e := by
  have hq : q ≠ 0 := by
    intro h
    rw [h, abs_zero] at h1
    have : (0 : ℚ) < 2 ^ e := by positivity
    linarith
  obtain ⟨h3, h4⟩ := exponent_spec q hq
  have two : (1 : ℚ) < 2 := by norm_num
  have a : e < exponent q + 1 := (zpow_lt_zpow_iff_right₀ two).1 (lt_of_le_of_lt h1 h4)
  have b : exponent q < e + 1 := (zpow_lt_zpow_iff_right₀ two).1 (lt_of_le_of_lt h3 h2)
  omega

theorem roundEven_error (q : ℚ) : |(roundEven q : ℚ) - q| ≤ 1 / 2 := by
  have h1 := Int.floor_le q
  have h2 := Int.lt_floor_add_one q
  unfold roundEven
  split_ifs with a b c
  · rw [abs_le]; constructor <;> linarith
  · push_cast
    rw [abs_le]; constructor <;> linarith
  · rw [abs_le]; constructor <;> linarith
  · push_cast
    rw [abs_le]; constructor <;> linarith

theorem roundEven_eq (q : ℚ) (r : Int) (h : |q - r| < 1 / 2) : roundEven q = r := by
  have h1 := Int.floor_le q
  have h2 := Int.lt_floor_add_one q
  rw [abs_lt] at h
  have hr : (⌊q⌋ : ℚ) = r ∨ (⌊q⌋ : ℚ) + 1 = r := by
    have a : (r : ℚ) < ⌊q⌋ + 2 := by linarith
    have b : (⌊q⌋ : ℚ) - 1 < r := by linarith
    have a' : r < ⌊q⌋ + 2 := by exact_mod_cast a
    have b' : ⌊q⌋ - 1 < r := by exact_mod_cast b
    have : r = ⌊q⌋ ∨ r = ⌊q⌋ + 1 := by omega
    rcases this with h | h
    · left; rw [h]
    · right; rw [h]; push_cast; ring
  unfold roundEven
  rcases hr with hr | hr
  · have : q - (⌊q⌋ : ℚ) < 1 / 2 := by rw [hr]; linarith
    rw [if_pos this]
    exact_mod_cast hr
  · have hn : ¬ q - (⌊q⌋ : ℚ) < 1 / 2 := by
      have : (⌊q⌋ : ℚ) = r - 1 := by linarith
      rw [this]
      linarith
    have hp : 1 / 2 < q - (⌊q⌋ : ℚ) := by
      have : (⌊q⌋ : ℚ) = r - 1 := by linarith
      rw [this]
      linarith
    rw [if_neg hn, if_pos hp]
    exact_mod_cast hr

/-- The value of the rounding from the exponent and the nearest significand. -/
theorem round_eval (q : ℚ) (e r : Int) (h1 : (2 : ℚ) ^ e ≤ |q|) (h2 : |q| < (2 : ℚ) ^ (e + 1))
    (h3 : |q / 2 ^ (e - 52) - r| < 1 / 2) : round q = (r : ℚ) * 2 ^ (e - 52) := by
  have hq : q ≠ 0 := by
    intro h
    rw [h, abs_zero] at h1
    have : (0 : ℚ) < 2 ^ e := by positivity
    linarith
  rw [round, if_neg hq, exponent_unique q e h1 h2, roundEven_eq _ r h3]

/-- The rounding error is at most half a unit in the last place. -/
theorem round_error (q : ℚ) : |round q - q| ≤ |q| / 2 ^ 53 := by
  by_cases hq : q = 0
  · simp [round, hq]
  · obtain ⟨h1, -⟩ := exponent_spec q hq
    have hs : (0 : ℚ) < 2 ^ (exponent q - 52) := by positivity
    have herr := roundEven_error (q / 2 ^ (exponent q - 52))
    rw [round, if_neg hq]
    have heq : (roundEven (q / 2 ^ (exponent q - 52)) : ℚ) * 2 ^ (exponent q - 52) - q =
        ((roundEven (q / 2 ^ (exponent q - 52)) : ℚ) - q / 2 ^ (exponent q - 52)) *
          2 ^ (exponent q - 52) := by
      field_simp
    rw [heq, abs_mul, abs_of_pos hs]
    have hpow : (2 : ℚ) ^ (exponent q - 52) = 2 ^ exponent q / 2 ^ 52 := by
      rw [zpow_sub₀ (by norm_num : (2 : ℚ) ≠ 0)]
      norm_cast
    calc |(roundEven (q / 2 ^ (exponent q - 52)) : ℚ) - q / 2 ^ (exponent q - 52)| *
          2 ^ (exponent q - 52)
        ≤ 1 / 2 * 2 ^ (exponent q - 52) := by
          apply mul_le_mul_of_nonneg_right herr (le_of_lt hs)
      _ = 2 ^ exponent q / 2 ^ 53 := by rw [hpow]; ring
      _ ≤ |q| / 2 ^ 53 := by
          apply div_le_div_of_nonneg_right h1 (by positivity)

/-- An integer below `2 ^ 53` in absolute value is a `float64`. -/
theorem round_intCast (k : Int) (hk : |k| < 2 ^ 53) : round (k : ℚ) = k := by
  by_cases hz : k = 0
  · simp [round, hz]
  · have hq : (k : ℚ) ≠ 0 := by exact_mod_cast hz
    obtain ⟨h1, -⟩ := exponent_spec (k : ℚ) hq
    have hlt : (2 : ℚ) ^ exponent (k : ℚ) < 2 ^ (53 : ℤ) := by
      refine lt_of_le_of_lt h1 ?_
      have hc : |(k : ℚ)| < (2 : ℚ) ^ (53 : ℕ) := by exact_mod_cast hk
      have hz : (2 : ℚ) ^ (53 : ℤ) = (2 : ℚ) ^ (53 : ℕ) := by norm_cast
      rw [hz]
      exact hc
    have he : exponent (k : ℚ) < 53 := (zpow_lt_zpow_iff_right₀ (by norm_num : (1 : ℚ) < 2)).1 hlt
    obtain ⟨n, hn⟩ : ∃ n : ℕ, exponent (k : ℚ) - 52 = -(n : ℤ) :=
      ⟨(52 - exponent (k : ℚ)).toNat, by omega⟩
    have hscaled : (k : ℚ) / 2 ^ (exponent (k : ℚ) - 52) = ((k * 2 ^ n : ℤ) : ℚ) := by
      rw [hn, zpow_neg, zpow_natCast]
      push_cast
      field_simp
    have hround : roundEven ((k * 2 ^ n : ℤ) : ℚ) = k * 2 ^ n :=
      roundEven_eq _ _ (by simp)
    rw [round, if_neg hq, hscaled, hround, hn, zpow_neg, zpow_natCast]
    push_cast
    field_simp

end Go.Float64

namespace Go.Float64

end Go.Float64

/-! ## The average message length -/

namespace analyzer

/-- The counters of a year accumulator at the end of the message loop: its
year is its key, its message count is the number of messages of the year, its
length field is the `float64` sum of their lengths, added from the left, and
there is a message of the year. -/
theorem accumulate_year_counts (U : unicode.Tables) (result : parser.ParseResult) (y : Int)
    (ys : YearStats) (h : Go.Map.find? (accumulate U result).ByYear y = some ys) :
    ys.Year = y ∧
    ys.TotalMessages = ((result.Messages.filter (fun m => decide (m.Date.Year = y))).length : Int) ∧
    ys.AvgMessageLength =
      (result.Messages.filter (fun m => decide (m.Date.Year = y))).foldl
        (fun acc m => Go.Float64.add acc (Go.Float64.ofInt m.Length)) (Go.Float64.finite 0) ∧
    result.Messages.filter (fun m => decide (m.Date.Year = y)) ≠ [] := by
  have key := (fold_year_inv U
    (fun y l ys => ys.Year = y ∧ ys.TotalMessages = (l.length : Int) ∧
      ys.AvgMessageLength = l.foldl
        (fun acc m => Go.Float64.add acc (Go.Float64.ofInt m.Length)) (Go.Float64.finite 0))
    (fun y => ⟨rfl, rfl, rfl⟩)
    (fun l msg ys hP => by
      obtain ⟨h1, h2, h3⟩ := hP
      refine ⟨h1, ?_, ?_⟩
      · simp only [trackFirstLast, countMessage, h2, List.length_append, List.length_singleton]
        push_cast
        ring
      · simp only [trackFirstLast, countMessage, h3, List.foldl_append, List.foldl_cons,
          List.foldl_nil])
    (fun y l ys user w hP => hP)
    (initStats result) rfl result.Messages y).2.1 ys h
  exact ⟨key.1.1, key.1.2.1, key.1.2.2, key.2⟩

/-- The counters of the overall accumulator at the end of the message loop. -/
theorem accumulate_overall_counts (U : unicode.Tables) (result : parser.ParseResult) :
    (accumulate U result).Overall.TotalMessages = (result.Messages.length : Int) ∧
    (accumulate U result).Overall.AvgMessageLength =
      result.Messages.foldl
        (fun acc m => Go.Float64.add acc (Go.Float64.ofInt m.Length)) (Go.Float64.finite 0) :=
  fold_overall_inv U
    (fun l ys => ys.TotalMessages = (l.length : Int) ∧
      ys.AvgMessageLength = l.foldl
        (fun acc m => Go.Float64.add acc (Go.Float64.ofInt m.Length)) (Go.Float64.finite 0))
    (fun l msg ys hP => by
      obtain ⟨h2, h3⟩ := hP
      refine ⟨?_, ?_⟩
      · simp only [countMessage, h2, List.length_append, List.length_singleton]
        push_cast
        ring
      · simp only [countMessage, h3, List.foldl_append, List.foldl_cons, List.foldl_nil])
    (fun l ys user w hP => hP)
    (initStats result) ⟨rfl, rfl⟩ result.Messages

/-- The `float64` sum of lengths that are not negative and whose sum is below
`2 ^ 53` is exact. -/
theorem float_sum_exact (l : List parser.Message) (hlen : ∀ m ∈ l, 0 ≤ m.Length)
    (hsum : (l.map (fun m => m.Length)).sum < 2 ^ 53) :
    l.foldl (fun acc m => Go.Float64.add acc (Go.Float64.ofInt m.Length))
      (Go.Float64.finite 0) =
      Go.Float64.finite (((l.map (fun m => m.Length)).sum : Int) : ℚ) := by
  induction l using List.reverseRecOn with
  | nil => simp
  | append_singleton l m ih =>
    have hm : 0 ≤ m.Length := hlen m (by simp)
    have hl : ∀ x ∈ l, 0 ≤ x.Length := fun x hx => hlen x (List.mem_append_left _ hx)
    have hnonneg : 0 ≤ (l.map (fun m => m.Length)).sum :=
      List.sum_nonneg (fun x hx => by
        obtain ⟨a, ha, rfl⟩ := List.mem_map.1 hx
        exact hl a ha)
    simp only [List.map_append, List.map_cons, List.map_nil, List.sum_append, List.sum_cons,
      List.sum_nil, add_zero] at hsum
    rw [List.foldl_append, ih hl (by omega)]
    simp only [List.foldl_cons, List.foldl_nil, Go.Float64.add, Go.Float64.ofInt,
      List.map_append, List.map_cons, List.map_nil, List.sum_append, List.sum_cons,
      List.sum_nil, add_zero]
    have h1 : Go.Float64.round ((m.Length : Int) : ℚ) = m.Length :=
      Go.Float64.round_intCast _ (by rw [abs_of_nonneg hm]; omega)
    have h2 := Go.Float64.round_intCast ((l.map (fun m => m.Length)).sum + m.Length)
      (by rw [abs_of_nonneg (by omega)]; omega)
    rw [h1]
    push_cast at h2 ⊢
    rw [h2]

/-- The messages of a year have lengths and a number within the bounds of all messages. -/
theorem filter_bounds (l : List parser.Message) (p : parser.Message → Bool)
    (hlen : ∀ m ∈ l, 0 ≤ m.Length) :
    (∀ m ∈ l.filter p, 0 ≤ m.Length) ∧
    ((l.filter p).map (fun m => m.Length)).sum ≤ (l.map (fun m => m.Length)).sum ∧
    (l.filter p).length ≤ l.length := by
  refine ⟨fun m hm => hlen m (List.mem_filter.1 hm).1, ?_, List.length_filter_le _ _⟩
  induction l with
  | nil => simp
  | cons a l ih =>
    have ha : 0 ≤ a.Length := hlen a (List.mem_cons_self _ _)
    have ih' := ih (fun m hm => hlen m (List.mem_cons_of_mem _ hm))
    by_cases hp : p a = true
    · simp only [List.filter_cons, hp, if_true, List.map_cons, List.sum_cons]
      omega
    · simp only [List.filter_cons, hp, Bool.false_eq_true, if_false, List.map_cons,
        List.sum_cons]
      omega

/-- The division of the finalization on an exact sum: the quotient rounded to `float64`. -/
theorem float_average (l : List parser.Message) (hlen : ∀ m ∈ l, 0 ≤ m.Length)
    (hsum : (l.map (fun m => m.Length)).sum < 2 ^ 53) (hcount : l.length < 2 ^ 53)
    (hne : l ≠ []) :
    Go.Float64.div
      (l.foldl (fun acc m => Go.Float64.add acc (Go.Float64.ofInt m.Length))
        (Go.Float64.finite 0))
      (Go.Float64.ofInt (l.length : Int)) =
      Go.Float64.finite (Go.Float64.round
        ((((l.map (fun m => m.Length)).sum : Int) : ℚ) / (l.length : ℚ))) := by
  have hn : Go.Float64.round (((l.length : Int) : ℚ)) = ((l.length : Int) : ℚ) :=
    Go.Float64.round_intCast _ (by rw [abs_of_nonneg (by omega)]; exact_mod_cast hcount)
  have hpos : ((l.length : Int) : ℚ) ≠ 0 := by
    have : 0 < l.length := List.length_pos.2 hne
    exact_mod_cast (Nat.pos_iff_ne_zero.1 this)
  rw [float_sum_exact l hlen hsum]
  simp only [Go.Float64.div, Go.Float64.ofInt, hn, hpos, if_false]
  rw [Int.cast_natCast]

/-- The product of a rounded average and the count differs from the sum by at
most the sum times `2 ^ (-53)`. -/
theorem average_error (sum : Int) (count : Nat) (hsum : 0 ≤ sum) (hcount : 0 < count) :
    |Go.Float64.round ((sum : ℚ) / (count : ℚ)) * (count : ℚ) - (sum : ℚ)| ≤
      (sum : ℚ) / 2 ^ 53 := by
  have hc : (0 : ℚ) < (count : ℚ) := by exact_mod_cast hcount
  have hs : (0 : ℚ) ≤ (sum : ℚ) := by exact_mod_cast hsum
  have herr := Go.Float64.round_error ((sum : ℚ) / (count : ℚ))
  have heq : Go.Float64.round ((sum : ℚ) / (count : ℚ)) * (count : ℚ) - (sum : ℚ) =
      (Go.Float64.round ((sum : ℚ) / (count : ℚ)) - (sum : ℚ) / (count : ℚ)) * (count : ℚ) := by
    field_simp
  rw [heq, abs_mul, abs_of_pos hc]
  have habs : |(sum : ℚ) / (count : ℚ)| = (sum : ℚ) / (count : ℚ) :=
    abs_of_nonneg (div_nonneg hs (le_of_lt hc))
  rw [habs] at herr
  calc |Go.Float64.round ((sum : ℚ) / (count : ℚ)) - (sum : ℚ) / (count : ℚ)| * (count : ℚ)
      ≤ (sum : ℚ) / (count : ℚ) / 2 ^ 53 * (count : ℚ) :=
        mul_le_mul_of_nonneg_right herr (le_of_lt hc)
    _ = (sum : ℚ) / 2 ^ 53 := by
        field_simp
        ring

/-- The averages of the result for lengths that are not negative, with a sum
and a number of messages below `2 ^ 53`: the sums of the message loop are
exact, and the finalization rounds the quotient once. -/
theorem Analyze_averages (U : unicode.Tables) (result : parser.ParseResult)
    (hlen : ∀ m ∈ result.Messages, 0 ≤ m.Length)
    (hsum : (result.Messages.map (fun m => m.Length)).sum < 2 ^ 53)
    (hcount : result.Messages.length < 2 ^ 53) :
    ∃ stats, Analyze U result = some stats ∧
      stats.Overall.TotalMessages = (result.Messages.length : Int) ∧
      stats.Overall.AvgMessageLength =
        (if result.Messages = [] then Go.Float64.finite 0 else
          Go.Float64.finite (Go.Float64.round
            ((((result.Messages.map (fun m => m.Length)).sum : Int) : ℚ) /
              (result.Messages.length : ℚ)))) ∧
      ∀ e ∈ stats.ByYear,
        e.2.TotalMessages =
          ((result.Messages.filter (fun m => decide (m.Date.Year = e.2.Year))).length : Int) ∧
        0 < e.2.TotalMessages ∧
        e.2.AvgMessageLength = Go.Float64.finite (Go.Float64.round
          ((((((result.Messages.filter (fun m => decide (m.Date.Year = e.2.Year))).map
            (fun m => m.Length)).sum : Int) : ℚ)) /
            ((result.Messages.filter (fun m => decide (m.Date.Year = e.2.Year))).length : ℚ))) := by
  obtain ⟨stats, hs, fin, -, -, -⟩ := Analyze_some U result
  obtain ⟨htotal, hfold⟩ := accumulate_overall_counts U result
  refine ⟨stats, hs, by rw [fin.totalMessages, htotal], ?_, ?_⟩
  · rw [fin.avgMessageLength, htotal, hfold]
    by_cases hnil : result.Messages = []
    · rw [if_pos hnil, hnil]
      rfl
    · have hpos : ((result.Messages.length : Int)) > 0 := by
        have := List.length_pos.2 hnil
        omega
      rw [if_neg hnil, if_pos hpos]
      exact float_average _ hlen hsum hcount hnil
  · intro e he
    obtain ⟨ys, hfind, hfin, -, -⟩ := (Analyze_years U result stats hs).2 e he
    obtain ⟨hyear, hcnt, havg, hne⟩ := accumulate_year_counts U result e.1 ys hfind
    have hy : e.2.Year = e.1 := by rw [hfin.year, hyear]
    obtain ⟨hlen', hsum', hcount'⟩ :=
      filter_bounds result.Messages (fun m => decide (m.Date.Year = e.1)) hlen
    have hpos : 0 < ys.TotalMessages := by
      rw [hcnt]
      have := List.length_pos.2 hne
      exact_mod_cast this
    rw [hy, hfin.totalMessages, hfin.avgMessageLength, if_pos hpos]
    refine ⟨hcnt, hpos, ?_⟩
    rw [havg, hcnt]
    exact float_average _ hlen' (by omega) (by omega) hne

/-- C22, as stated, fails: for seven messages whose lengths have the sum 29,
`AvgMessageLength` is the `float64` nearest to 29/7, 4664442471205157 / 2^50
(4.142857142857143), and its product with `TotalMessages = 7` is not 29, in
exact arithmetic and in `float64` arithmetic, where it is 29.000000000000004. -/
theorem average_rounding_counterexample :
    ((⟨⟨"", "", ⟨2021, 1, 1, 10, 0, 0⟩, ⟨2021, 1, 1, 10, 6, 0⟩, 7⟩,
      [⟨"", ⟨2021, 1, 1, 10, 0, 0⟩, "Alice", "hello", 5, false, false⟩,
       ⟨"", ⟨2021, 1, 1, 10, 1, 0⟩, "Bob", "ciao", 4, false, false⟩,
       ⟨"", ⟨2021, 1, 1, 10, 2, 0⟩, "Alice", "ciao", 4, false, false⟩,
       ⟨"", ⟨2021, 1, 1, 10, 3, 0⟩, "Bob", "ciao", 4, false, false⟩,
       ⟨"", ⟨2021, 1, 1, 10, 4, 0⟩, "Alice", "ciao", 4, false, false⟩,
       ⟨"", ⟨2021, 1, 1, 10, 5, 0⟩, "Bob", "ciao", 4, false, false⟩,
       ⟨"", ⟨2021, 1, 1, 10, 6, 0⟩, "Alice", "ciao", 4, false, false⟩]⟩ :
      parser.ParseResult).Messages.map (fun m => m.Length)).sum = 29 ∧
    ∃ stats, Analyze unicode.latinCyrillic (⟨⟨"", "", ⟨2021, 1, 1, 10, 0, 0⟩, ⟨2021, 1, 1, 10, 6, 0⟩, 7⟩,
      [⟨"", ⟨2021, 1, 1, 10, 0, 0⟩, "Alice", "hello", 5, false, false⟩,
       ⟨"", ⟨2021, 1, 1, 10, 1, 0⟩, "Bob", "ciao", 4, false, false⟩,
       ⟨"", ⟨2021, 1, 1, 10, 2, 0⟩, "Alice", "ciao", 4, false, false⟩,
       ⟨"", ⟨2021, 1, 1, 10, 3, 0⟩, "Bob", "ciao", 4, false, false⟩,
       ⟨"", ⟨2021, 1, 1, 10, 4, 0⟩, "Alice", "ciao", 4, false, false⟩,
       ⟨"", ⟨2021, 1, 1, 10, 5, 0⟩, "Bob", "ciao", 4, false, false⟩,
       ⟨"", ⟨2021, 1, 1, 10, 6, 0⟩, "Alice", "ciao", 4, false, false⟩]⟩ :
      parser.ParseResult) = some stats ∧
      stats.Overall.TotalMessages = 7 ∧
      stats.Overall.AvgMessageLength = Go.Float64.finite (4664442471205157 / 2 ^ 50) ∧
      (4664442471205157 / 2 ^ 50 : ℚ) * 7 ≠ 29 ∧
      stats.Overall.AvgMessageLength.mul (Go.Float64.ofInt stats.Overall.TotalMessages) =
        Go.Float64.finite (29 + 1 / 2 ^ 48) := by
  refine ⟨by decide, ?_⟩
  obtain ⟨stats, hs, htotal, havg, -⟩ := Analyze_averages unicode.latinCyrillic (⟨⟨"", "", ⟨2021, 1, 1, 10, 0, 0⟩, ⟨2021, 1, 1, 10, 6, 0⟩, 7⟩,
      [⟨"", ⟨2021, 1, 1, 10, 0, 0⟩, "Alice", "hello", 5, false, false⟩,
       ⟨"", ⟨2021, 1, 1, 10, 1, 0⟩, "Bob", "ciao", 4, false, false⟩,
       ⟨"", ⟨2021, 1, 1, 10, 2, 0⟩, "Alice", "ciao", 4, false, false⟩,
       ⟨"", ⟨2021, 1, 1, 10, 3, 0⟩, "Bob", "ciao", 4, false, false⟩,
       ⟨"", ⟨2021, 1, 1, 10, 4, 0⟩, "Alice", "ciao", 4, false, false⟩,
       ⟨"", ⟨2021, 1, 1, 10, 5, 0⟩, "Bob", "ciao", 4, false, false⟩,
       ⟨"", ⟨2021, 1, 1, 10, 6, 0⟩, "Alice", "ciao", 4, false, false⟩]⟩ :
      parser.ParseResult)
    (by decide) (by decide) (by decide)
  have hround : Go.Float64.round (29 / 7) = 4664442471205157 / 2 ^ 50 := by
    have := Go.Float64.round_eval (29 / 7) 2 4664442471205157 (by norm_num [abs_of_pos])
      (by norm_num [abs_of_pos]) (by norm_num [abs_lt])
    rw [this]
    norm_num
  have h7 : Go.Float64.round 7 = 7 := by
    have := Go.Float64.round_intCast 7 (by decide)
    simpa using this
  have hmul : Go.Float64.round (4664442471205157 / 2 ^ 50 * 7) = 29 + 1 / 2 ^ 48 := by
    have := Go.Float64.round_eval (4664442471205157 / 2 ^ 50 * 7) 4 (29 * 2 ^ 48 + 1)
      (by norm_num [abs_of_pos]) (by norm_num [abs_of_pos]) (by norm_num [abs_lt])
    rw [this]
    norm_num
  have hstats : stats.Overall.AvgMessageLength =
      Go.Float64.finite (4664442471205157 / 2 ^ 50) := by
    rw [havg, if_neg (by decide), ← hround]
    norm_num
  refine ⟨stats, hs, htotal, hstats, by norm_num, ?_⟩
  rw [hstats, htotal]
  simp only [Go.Float64.mul, Go.Float64.ofInt, List.length_cons, List.length_nil]
  norm_num
  rw [h7]
  have := hmul
  norm_num at this ⊢
  exact this

/-- C22 (average message length), amended to `float64`. When no `Length` is
negative and the sum of the `Length` fields and the number of messages are
below `2 ^ 53`, `Analyze` returns, and in the overall accumulator and in every
year accumulator `AvgMessageLength` is the quotient of the sum of the `Length`
fields of the messages the accumulator counts by `TotalMessages`, rounded to
the nearest `float64`: its product with `TotalMessages` differs from the sum
by at most the sum times `2 ^ (-53)`.  The sum is divided only when
`TotalMessages > 0`, which holds in every year accumulator: for the empty
input the overall average is 0, where the division `0 / 0` yields NaN. -/
theorem analyze_average_length (U : unicode.Tables) (result : parser.ParseResult)
    (hlen : ∀ m ∈ result.Messages, 0 ≤ m.Length)
    (hsum : (result.Messages.map (fun m => m.Length)).sum < 2 ^ 53)
    (hcount : result.Messages.length < 2 ^ 53) :
    (Go.Float64.div (Go.Float64.finite 0) (Go.Float64.ofInt 0) = Go.Float64.nan ∧
    ∃ stats avg, Analyze U result = some stats ∧
      stats.Overall.TotalMessages = (result.Messages.length : Int) ∧
      stats.Overall.AvgMessageLength = Go.Float64.finite avg ∧
      avg = (if result.Messages = [] then 0 else
        Go.Float64.round ((((result.Messages.map (fun m => m.Length)).sum : Int) : ℚ) /
          (result.Messages.length : ℚ))) ∧
      |avg * (result.Messages.length : ℚ) -
          (((result.Messages.map (fun m => m.Length)).sum : Int) : ℚ)| ≤
        (((result.Messages.map (fun m => m.Length)).sum : Int) : ℚ) / 2 ^ 53 ∧
      ∀ e ∈ stats.ByYear, ∃ yearAvg,
        e.2.TotalMessages =
          ((result.Messages.filter (fun m => decide (m.Date.Year = e.2.Year))).length : Int) ∧
        0 < e.2.TotalMessages ∧
        e.2.AvgMessageLength = Go.Float64.finite yearAvg ∧
        yearAvg = Go.Float64.round
          ((((((result.Messages.filter (fun m => decide (m.Date.Year = e.2.Year))).map
            (fun m => m.Length)).sum : Int) : ℚ)) /
            ((result.Messages.filter (fun m => decide (m.Date.Year = e.2.Year))).length : ℚ)) ∧
        |yearAvg *
            ((result.Messages.filter (fun m => decide (m.Date.Year = e.2.Year))).length : ℚ) -
          (((((result.Messages.filter (fun m => decide (m.Date.Year = e.2.Year))).map
            (fun m => m.Length)).sum : Int) : ℚ))| ≤
          (((((result.Messages.filter (fun m => decide (m.Date.Year = e.2.Year))).map
            (fun m => m.Length)).sum : Int) : ℚ)) / 2 ^ 53) := by
  refine ⟨by simp [Go.Float64.div, Go.Float64.ofInt, Go.Float64.round], ?_⟩
  obtain ⟨stats, hs, htotal, havg, hyears⟩ := Analyze_averages U result hlen hsum hcount
  have hnonneg : ∀ l : List parser.Message, (∀ m ∈ l, 0 ≤ m.Length) →
      0 ≤ (l.map (fun m => m.Length)).sum := by
    intro l hl
    apply List.sum_nonneg
    intro x hx
    obtain ⟨a, ha, rfl⟩ := List.mem_map.1 hx
    exact hl a ha
  refine ⟨stats, _, hs, htotal, ?_, rfl, ?_, ?_⟩
  · rw [havg]
    split <;> rfl
  · by_cases hnil : result.Messages = []
    · rw [if_pos hnil, hnil]
      simp
    · rw [if_neg hnil]
      exact average_error _ _ (hnonneg _ hlen) (List.length_pos.2 hnil)
  · intro e he
    obtain ⟨h1, h2, h3⟩ := hyears e he
    refine ⟨_, h1, h2, h3, rfl, ?_⟩
    have hpos : 0 < (result.Messages.filter (fun m => decide (m.Date.Year = e.2.Year))).length := by
      rw [h1] at h2
      exact_mod_cast h2
    exact average_error _ _
      (hnonneg _ (fun m hm => hlen m (List.mem_filter.1 hm).1)) hpos

/-- A run of the amended C22: three messages of two years. -/
theorem analyze_average_length_witness :
    (∀ m ∈ (⟨⟨"", "", ⟨2020, 12, 31, 23, 0, 0⟩, ⟨2021, 1, 1, 10, 30, 0⟩, 3⟩,
      [⟨"", ⟨2020, 12, 31, 23, 0, 0⟩, "Alice", "привет привет мир", 17, false, false⟩,
       ⟨"", ⟨2021, 1, 1, 10, 0, 0⟩, "Bob", "hello world", 11, false, false⟩,
       ⟨"", ⟨2021, 1, 1, 10, 30, 0⟩, "Alice", "ok", 2, false, false⟩]⟩ :
      parser.ParseResult).Messages, 0 ≤ m.Length) ∧
    ((⟨⟨"", "", ⟨2020, 12, 31, 23, 0, 0⟩, ⟨2021, 1, 1, 10, 30, 0⟩, 3⟩,
      [⟨"", ⟨2020, 12, 31, 23, 0, 0⟩, "Alice", "привет привет мир", 17, false, false⟩,
       ⟨"", ⟨2021, 1, 1, 10, 0, 0⟩, "Bob", "hello world", 11, false, false⟩,
       ⟨"", ⟨2021, 1, 1, 10, 30, 0⟩, "Alice", "ok", 2, false, false⟩]⟩ :
      parser.ParseResult).Messages.map (fun m => m.Length)).sum < 2 ^ 53 ∧
    (⟨⟨"", "", ⟨2020, 12, 31, 23, 0, 0⟩, ⟨2021, 1, 1, 10, 30, 0⟩, 3⟩,
      [⟨"", ⟨2020, 12, 31, 23, 0, 0⟩, "Alice", "привет привет мир", 17, false, false⟩,
       ⟨"", ⟨2021, 1, 1, 10, 0, 0⟩, "Bob", "hello world", 11, false, false⟩,
       ⟨"", ⟨2021, 1, 1, 10, 30, 0⟩, "Alice", "ok", 2, false, false⟩]⟩ :
      parser.ParseResult).Messages.length < 2 ^ 53 ∧
    (Go.Float64.div (Go.Float64.finite 0) (Go.Float64.ofInt 0) = Go.Float64.nan ∧
    ∃ stats avg, Analyze unicode.latinCyrillic (⟨⟨"", "", ⟨2020, 12, 31, 23, 0, 0⟩, ⟨2021, 1, 1, 10, 30, 0⟩, 3⟩,
      [⟨"", ⟨2020, 12, 31, 23, 0, 0⟩, "Alice", "привет привет мир", 17, false, false⟩,
       ⟨"", ⟨2021, 1, 1, 10, 0, 0⟩, "Bob", "hello world", 11, false, false⟩,
       ⟨"", ⟨2021, 1, 1, 10, 30, 0⟩, "Alice", "ok", 2, false, false⟩]⟩ :
      parser.ParseResult) = some stats ∧
      stats.Overall.TotalMessages = ((⟨⟨"", "", ⟨2020, 12, 31, 23, 0, 0⟩, ⟨2021, 1, 1, 10, 30, 0⟩, 3⟩,
      [⟨"", ⟨2020, 12, 31, 23, 0, 0⟩, "Alice", "привет привет мир", 17, false, false⟩,
       ⟨"", ⟨2021, 1, 1, 10, 0, 0⟩, "Bob", "hello world", 11, false, false⟩,
       ⟨"", ⟨2021, 1, 1, 10, 30, 0⟩, "Alice", "ok", 2, false, false⟩]⟩ :
      parser.ParseResult).Messages.length : Int) ∧
      stats.Overall.AvgMessageLength = Go.Float64.finite avg ∧
      avg = (if (⟨⟨"", "", ⟨2020, 12, 31, 23, 0, 0⟩, ⟨2021, 1, 1, 10, 30, 0⟩, 3⟩,
      [⟨"", ⟨2020, 12, 31, 23, 0, 0⟩, "Alice", "привет привет мир", 17, false, false⟩,
       ⟨"", ⟨2021, 1, 1, 10, 0, 0⟩, "Bob", "hello world", 11, false, false⟩,
       ⟨"", ⟨2021, 1, 1, 10, 30, 0⟩, "Alice", "ok", 2, false, false⟩]⟩ :
      parser.ParseResult).Messages = [] then 0 else
        Go.Float64.round (((((⟨⟨"", "", ⟨2020, 12, 31, 23, 0, 0⟩, ⟨2021, 1, 1, 10, 30, 0⟩, 3⟩,
      [⟨"", ⟨2020, 12, 31, 23, 0, 0⟩, "Alice", "привет привет мир", 17, false, false⟩,
       ⟨"", ⟨2021, 1, 1, 10, 0, 0⟩, "Bob", "hello world", 11, false, false⟩,
       ⟨"", ⟨2021, 1, 1, 10, 30, 0⟩, "Alice", "ok", 2, false, false⟩]⟩ :
      parser.ParseResult).Messages.map (fun m => m.Length)).sum : Int) : ℚ) /
          ((⟨⟨"", "", ⟨2020, 12, 31, 23, 0, 0⟩, ⟨2021, 1, 1, 10, 30, 0⟩, 3⟩,
      [⟨"", ⟨2020, 12, 31, 23, 0, 0⟩, "Alice", "привет привет мир", 17, false, false⟩,
       ⟨"", ⟨2021, 1, 1, 10, 0, 0⟩, "Bob", "hello world", 11, false, false⟩,
       ⟨"", ⟨2021, 1, 1, 10, 30, 0⟩, "Alice", "ok", 2, false, false⟩]⟩ :
      parser.ParseResult).Messages.length : ℚ))) ∧
      |avg * ((⟨⟨"", "", ⟨2020, 12, 31, 23, 0, 0⟩, ⟨2021, 1, 1, 10, 30, 0⟩, 3⟩,
      [⟨"", ⟨2020, 12, 31, 23, 0, 0⟩, "Alice", "привет привет мир", 17, false, false⟩,
       ⟨"", ⟨2021, 1, 1, 10, 0, 0⟩, "Bob", "hello world", 11, false, false⟩,
       ⟨"", ⟨2021, 1, 1, 10, 30, 0⟩, "Alice", "ok", 2, false, false⟩]⟩ :
      parser.ParseResult).Messages.length : ℚ) -
          ((((⟨⟨"", "", ⟨2020, 12, 31, 23, 0, 0⟩, ⟨2021, 1, 1, 10, 30, 0⟩, 3⟩,
      [⟨"", ⟨2020, 12, 31, 23, 0, 0⟩, "Alice", "привет привет мир", 17, false, false⟩,
       ⟨"", ⟨2021, 1, 1, 10, 0, 0⟩, "Bob", "hello world", 11, false, false⟩,
       ⟨"", ⟨2021, 1, 1, 10, 30, 0⟩, "Alice", "ok", 2, false, false⟩]⟩ :
      parser.ParseResult).Messages.map (fun m => m.Length)).sum : Int) : ℚ)| ≤
        ((((⟨⟨"", "", ⟨2020, 12, 31, 23, 0, 0⟩, ⟨2021, 1, 1, 10, 30, 0⟩, 3⟩,
      [⟨"", ⟨2020, 12, 31, 23, 0, 0⟩, "Alice", "привет привет мир", 17, false, false⟩,
       ⟨"", ⟨2021, 1, 1, 10, 0, 0⟩, "Bob", "hello world", 11, false, false⟩,
       ⟨"", ⟨2021, 1, 1, 10, 30, 0⟩, "Alice", "ok", 2, false, false⟩]⟩ :
      parser.ParseResult).Messages.map (fun m => m.Length)).sum : Int) : ℚ) / 2 ^ 53 ∧
      ∀ e ∈ stats.ByYear, ∃ yearAvg,
        e.2.TotalMessages =
          (((⟨⟨"", "", ⟨2020, 12, 31, 23, 0, 0⟩, ⟨2021, 1, 1, 10, 30, 0⟩, 3⟩,
      [⟨"", ⟨2020, 12, 31, 23, 0, 0⟩, "Alice", "привет привет мир", 17, false, false⟩,
       ⟨"", ⟨2021, 1, 1, 10, 0, 0⟩, "Bob", "hello world", 11, false, false⟩,
       ⟨"", ⟨2021, 1, 1, 10, 30, 0⟩, "Alice", "ok", 2, false, false⟩]⟩ :
      parser.ParseResult).Messages.filter (fun m => decide (m.Date.Year = e.2.Year))).length : Int) ∧
        0 < e.2.TotalMessages ∧
        e.2.AvgMessageLength = Go.Float64.finite yearAvg ∧
        yearAvg = Go.Float64.round
          (((((((⟨⟨"", "", ⟨2020, 12, 31, 23, 0, 0⟩, ⟨2021, 1, 1, 10, 30, 0⟩, 3⟩,
      [⟨"", ⟨2020, 12, 31, 23, 0, 0⟩, "Alice", "привет привет мир", 17, false, false⟩,
       ⟨"", ⟨2021, 1, 1, 10, 0, 0⟩, "Bob", "hello world", 11, false, false⟩,
       ⟨"", ⟨2021, 1, 1, 10, 30, 0⟩, "Alice", "ok", 2, false, false⟩]⟩ :
      parser.ParseResult).Messages.filter (fun m => decide (m.Date.Year = e.2.Year))).map
            (fun m => m.Length)).sum : Int) : ℚ)) /
            (((⟨⟨"", "", ⟨2020, 12, 31, 23, 0, 0⟩, ⟨2021, 1, 1, 10, 30, 0⟩, 3⟩,
      [⟨"", ⟨2020, 12, 31, 23, 0, 0⟩, "Alice", "привет привет мир", 17, false, false⟩,
       ⟨"", ⟨2021, 1, 1, 10, 0, 0⟩, "Bob", "hello world", 11, false, false⟩,
       ⟨"", ⟨2021, 1, 1, 10, 30, 0⟩, "Alice", "ok", 2, false, false⟩]⟩ :
      parser.ParseResult).Messages.filter (fun m => decide (m.Date.Year = e.2.Year))).length : ℚ)) ∧
        |yearAvg *
            (((⟨⟨"", "", ⟨2020, 12, 31, 23, 0, 0⟩, ⟨2021, 1, 1, 10, 30, 0⟩, 3⟩,
      [⟨"", ⟨2020, 12, 31, 23, 0, 0⟩, "Alice", "привет привет мир", 17, false, false⟩,
       ⟨"", ⟨2021, 1, 1, 10, 0, 0⟩, "Bob", "hello world", 11, false, false⟩,
       ⟨"", ⟨2021, 1, 1, 10, 30, 0⟩, "Alice", "ok", 2, false, false⟩]⟩ :
      parser.ParseResult).Messages.filter (fun m => decide (m.Date.Year = e.2.Year))).length : ℚ) -
          ((((((⟨⟨"", "", ⟨2020, 12, 31, 23, 0, 0⟩, ⟨2021, 1, 1, 10, 30, 0⟩, 3⟩,
      [⟨"", ⟨2020, 12, 31, 23, 0, 0⟩, "Alice", "привет привет мир", 17, false, false⟩,
       ⟨"", ⟨2021, 1, 1, 10, 0, 0⟩, "Bob", "hello world", 11, false, false⟩,
       ⟨"", ⟨2021, 1, 1, 10, 30, 0⟩, "Alice", "ok", 2, false, false⟩]⟩ :
      parser.ParseResult).Messages.filter (fun m => decide (m.Date.Year = e.2.Year))).map
            (fun m => m.Length)).sum : Int) : ℚ))| ≤
          ((((((⟨⟨"", "", ⟨2020, 12, 31, 23, 0, 0⟩, ⟨2021, 1, 1, 10, 30, 0⟩, 3⟩,
      [⟨"", ⟨2020, 12, 31, 23, 0, 0⟩, "Alice", "привет привет мир", 17, false, false⟩,
       ⟨"", ⟨2021, 1, 1, 10, 0, 0⟩, "Bob", "hello world", 11, false, false⟩,
       ⟨"", ⟨2021, 1, 1, 10, 30, 0⟩, "Alice", "ok", 2, false, false⟩]⟩ :
      parser.ParseResult).Messages.filter (fun m => decide (m.Date.Year = e.2.Year))).map
            (fun m => m.Length)).sum : Int) : ℚ)) / 2 ^ 53) :=
  ⟨by decide, by decide, by decide,
    analyze_average_length unicode.latinCyrillic _ (by decide) (by decide) (by decide)⟩

end analyzer

namespace time.Time

/-- The order of `Before` on the calendar fields, field by field. -/
theorem before_iff (t u : Time) :
    Before t u = true ↔
      t.year < u.year ∨ (t.year = u.year ∧ (t.month < u.month ∨ (t.month = u.month ∧
        (t.day < u.day ∨ (t.day = u.day ∧ (t.hour < u.hour ∨ (t.hour = u.hour ∧
          (t.minute < u.minute ∨ (t.minute = u.minute ∧ t.second < u.second))))))))) := by
  simp only [Before, Bool.or_eq_true, Bool.and_eq_true, decide_eq_true_eq, beq_iff_eq]

/-- No time is before itself. -/
theorem before_irrefl (t : Time) : Before t t = false := by
  cases h : Before t t with
  | false => rfl
  | true =>
    rw [before_iff] at h
    omega

/-- The order of `Before` is transitive. -/
theorem before_trans (a b c : Time) (hab : Before a b = true) (hbc : Before b c = true) :
    Before a c = true := by
  rw [before_iff] at hab hbc ⊢
  omega

/-- Two times of which none is before the other are equal. -/
theorem eq_of_not_before (a b : Time) (hab : Before a b = false) (hba : Before b a = false) :
    a = b := by
  have h1 : ¬ Before a b = true := by rw [hab]; decide
  have h2 : ¬ Before b a = true := by rw [hba]; decide
  rw [before_iff] at h1 h2
  cases a
  cases b
  simp only [Time.mk.injEq]
  simp only at h1 h2
  omega

end time.Time

namespace analyzer

/-- C21, as stated, fails: of the two messages of year 1 with the zero
timestamp 0001-01-01 00:00:00 and with 0001-06-01 00:00:00, in this order, the
year accumulator has the `FirstMessage` 0001-06-01, which is not the minimum;
in the other order it has the `FirstMessage` 0001-01-01. -/
theorem first_message_zero_counterexample :
    (Analyze unicode.latinCyrillic
      ⟨⟨"", "", time.Time.zero, time.Time.zero, 0⟩,
        [⟨"", ⟨1, 1, 1, 0, 0, 0⟩, "Alice", "hello", 5, false, false⟩,
         ⟨"", ⟨1, 6, 1, 0, 0, 0⟩, "Alice", "world", 5, false, false⟩]⟩).map
      (fun stats => stats.ByYear.map (fun e => (e.2.Year, e.2.FirstMessage))) =
      some [(1, ⟨1, 6, 1, 0, 0, 0⟩)] ∧
    (⟨1, 1, 1, 0, 0, 0⟩ : time.Time).Year = 1 ∧
    time.Time.Before ⟨1, 1, 1, 0, 0, 0⟩ ⟨1, 6, 1, 0, 0, 0⟩ = true ∧
    (Analyze unicode.latinCyrillic
      ⟨⟨"", "", time.Time.zero, time.Time.zero, 0⟩,
        [⟨"", ⟨1, 6, 1, 0, 0, 0⟩, "Alice", "world", 5, false, false⟩,
         ⟨"", ⟨1, 1, 1, 0, 0, 0⟩, "Alice", "hello", 5, false, false⟩]⟩).map
      (fun stats => stats.ByYear.map (fun e => (e.2.Year, e.2.FirstMessage))) =
      some [(1, ⟨1, 1, 1, 0, 0, 0⟩)] := by
  refine ⟨?_, ?_, ?_, ?_⟩ <;> decide

/-- The first and last timestamps of a year accumulator at the end of the
message loop, when no message has the zero time: they are timestamps of
messages of the year, no message of the year is before the first and none is
after the last. -/
theorem accumulate_year_first_last (U : unicode.Tables) (result : parser.ParseResult)
    (hzero : ∀ m ∈ result.Messages, m.Date.IsZero = false) (y : Int)
    (ys : YearStats) (h : Go.Map.find? (accumulate U result).ByYear y = some ys) :
    (∃ m ∈ result.Messages, m.Date.Year = y ∧ m.Date = ys.FirstMessage) ∧
    (∀ m ∈ result.Messages, m.Date.Year = y → m.Date.Before ys.FirstMessage = false) ∧
    (∃ m ∈ result.Messages, m.Date.Year = y ∧ m.Date = ys.LastMessage) ∧
    (∀ m ∈ result.Messages, m.Date.Year = y → m.Date.After ys.LastMessage = false) := by
  have key := (fold_year_inv U
    (fun _ l ys => (∀ m ∈ l, m.Date.IsZero = false) →
      (l = [] → ys.FirstMessage = time.Time.zero ∧ ys.LastMessage = time.Time.zero) ∧
      (l ≠ [] →
        (∃ m ∈ l, m.Date = ys.FirstMessage) ∧
        (∀ m ∈ l, m.Date.Before ys.FirstMessage = false) ∧
        (∃ m ∈ l, m.Date = ys.LastMessage) ∧
        (∀ m ∈ l, m.Date.After ys.LastMessage = false)))
    (fun y _ => ⟨fun _ => ⟨rfl, rfl⟩, fun hne => absurd rfl hne⟩)
    (fun l msg ys hP hz => by
      have hz' : ∀ m ∈ l, m.Date.IsZero = false :=
        fun m hm => hz m (List.mem_append_left _ hm)
      obtain ⟨hempty, hfull⟩ := hP hz'
      refine ⟨fun hnil => absurd hnil (by simp), fun _ => ?_⟩
      by_cases hl : l = []
      · obtain ⟨hf, hlast⟩ := hempty hl
        have hzf : ys.FirstMessage.IsZero = true := by rw [hf]; rfl
        have hzl : ys.LastMessage.IsZero = true := by rw [hlast]; rfl
        subst hl
        simp only [trackFirstLast, countMessage, hzf, hzl, Bool.true_or, if_true,
          List.nil_append, List.mem_singleton, exists_eq_left, forall_eq,
          time.Time.After, time.Time.before_irrefl, and_self]
      · obtain ⟨⟨m₁, hm₁, hfirst⟩, hmin, ⟨m₂, hm₂, hlast⟩, hmax⟩ := hfull hl
        have hzf : ys.FirstMessage.IsZero = false := by rw [← hfirst]; exact hz' m₁ hm₁
        have hzl : ys.LastMessage.IsZero = false := by rw [← hlast]; exact hz' m₂ hm₂
        simp only [trackFirstLast, countMessage, hzf, hzl, Bool.false_or]
        refine ⟨?_, ?_, ?_, ?_⟩
        · by_cases hb : msg.Date.Before ys.FirstMessage = true
          · rw [if_pos hb]
            exact ⟨msg, by simp, rfl⟩
          · rw [if_neg hb]
            exact ⟨m₁, List.mem_append_left _ hm₁, hfirst⟩
        · intro m hm
          by_cases hb : msg.Date.Before ys.FirstMessage = true
          · rw [if_pos hb]
            rcases List.mem_append.1 hm with hm | hm
            · cases hlt : m.Date.Before msg.Date with
              | false => rfl
              | true =>
                have := time.Time.before_trans _ _ _ hlt hb
                rw [hmin m hm] at this
                exact absurd this (by decide)
            · rw [List.mem_singleton.1 hm]
              exact time.Time.before_irrefl _
          · rw [if_neg hb]
            rcases List.mem_append.1 hm with hm | hm
            · exact hmin m hm
            · rw [List.mem_singleton.1 hm]
              simpa using hb
        · by_cases hb : msg.Date.After ys.LastMessage = true
          · rw [if_pos hb]
            exact ⟨msg, by simp, rfl⟩
          · rw [if_neg hb]
            exact ⟨m₂, List.mem_append_left _ hm₂, hlast⟩
        · intro m hm
          by_cases hb : msg.Date.After ys.LastMessage = true
          · rw [if_pos hb]
            rcases List.mem_append.1 hm with hm | hm
            · cases hlt : m.Date.After msg.Date with
              | false => rfl
              | true =>
                have := time.Time.before_trans _ _ _ hb hlt
                have hmm := hmax m hm
                simp only [time.Time.After] at hmm
                rw [hmm] at this
                exact absurd this (by decide)
            · rw [List.mem_singleton.1 hm]
              exact time.Time.before_irrefl _
          · rw [if_neg hb]
            rcases List.mem_append.1 hm with hm | hm
            · exact hmax m hm
            · rw [List.mem_singleton.1 hm]
              simpa using hb)
    (fun y l ys user w hP => hP)
    (initStats result) rfl result.Messages y).2.1 ys h
  have hz : ∀ m ∈ result.Messages.filter (fun m => decide (m.Date.Year = y)),
      m.Date.IsZero = false := fun m hm => hzero m (List.mem_filter.1 hm).1
  obtain ⟨⟨m₁, hm₁, hfirst⟩, hmin, ⟨m₂, hm₂, hlast⟩, hmax⟩ := (key.1 hz).2 key.2
  have hmem : ∀ m, m ∈ result.Messages.filter (fun m => decide (m.Date.Year = y)) ↔
      m ∈ result.Messages ∧ m.Date.Year = y := by
    intro m
    simp [List.mem_filter]
  exact ⟨⟨m₁, ((hmem m₁).1 hm₁).1, ((hmem m₁).1 hm₁).2, hfirst⟩,
    fun m hm hy => hmin m ((hmem m).2 ⟨hm, hy⟩),
    ⟨m₂, ((hmem m₂).1 hm₂).1, ((hmem m₂).1 hm₂).2, hlast⟩,
    fun m hm hy => hmax m ((hmem m).2 ⟨hm, hy⟩)⟩

end analyzer

namespace parser

/-- No message of a document has the zero time. -/
theorem parseDocument_nonzero (doc : goquery.Document) :
    ∀ m ∈ (parseDocument doc).1, m.Date.IsZero = false := by
  intro m hm
  have hmap := scan_fold_retained (strings.TrimSpace doc.header.First.Text) doc.messages ""
  have hin : (m.Text, m.Date) ∈ ((parseDocument doc).1).map (fun m => (m.Text, m.Date)) :=
    List.mem_map.2 ⟨m, hm, rfl⟩
  have hin' : (m.Text, m.Date) ∈
      (doc.messages.filter (fun s => decide (nodeText s ≠ "") && !(nodeDate s).IsZero)).map
        (fun s => (nodeText s, nodeDate s)) := by
    rw [← hmap]
    exact hin
  obtain ⟨s, hs, heq⟩ := List.mem_map.1 hin'
  have hkeep := (List.mem_filter.1 hs).2
  simp only [Bool.and_eq_true, Bool.not_eq_true', decide_eq_true_eq] at hkeep
  rw [← (Prod.mk.inj heq).2]
  exact hkeep.2

/-- The loop of `ParseAllFiles` adds no message with the zero time. -/
theorem parseFiles_nonzero (fs : FileSystem) :
    ∀ (files : List String) (i : Nat) (result final : ParseResult),
      parseFiles fs i files result = some final →
      (∀ m ∈ result.Messages, m.Date.IsZero = false) →
      ∀ m ∈ final.Messages, m.Date.IsZero = false
  | [], _, result, final, h, hres => by
    simp only [parseFiles, Option.some.injEq] at h
    rw [← h]
    exact hres
  | f :: files, i, result, final, h, hres => by
    simp only [parseFiles, parseFile] at h
    cases hf : fs f with
    | none => simp [hf] at h
    | some doc =>
      simp only [hf, Option.map_some', Option.some_bind] at h
      refine parseFiles_nonzero fs files (i + 1) _ final h ?_
      intro m hm
      rcases List.mem_append.1 hm with hm | hm
      · exact hres m hm
      · exact parseDocument_nonzero doc m hm

/-- No message that `ParseAllFiles` returns has the zero time. -/
theorem ParseAllFiles_nonzero (fs : FileSystem) (files : List String) (parsed : ParseResult)
    (h : ParseAllFiles fs files = some parsed) :
    ∀ m ∈ parsed.Messages, m.Date.IsZero = false := by
  simp only [ParseAllFiles] at h
  split at h
  · simp at h
  · obtain ⟨final, hfinal, hmeta⟩ := Option.map_eq_some'.1 h
    rw [← hmeta, withMetadata_messages]
    exact parseFiles_nonzero fs _ 0 _ final hfinal (by simp)

end parser

namespace analyzer

theorem forall₂_left_mem {α β : Type} (R : α → β → Prop) (l : List α) (l' : List β)
    (h : List.Forall₂ R l l') (a : α) (ha : a ∈ l) : ∃ b ∈ l', R a b := by
  induction h with
  | nil => simp at ha
  | cons hab _ ih =>
    rcases List.mem_cons.1 ha with ha | ha
    · subst ha
      exact ⟨_, List.mem_cons_self _ _, hab⟩
    · obtain ⟨b, hb, hR⟩ := ih ha
      exact ⟨b, List.mem_cons_of_mem _ hb, hR⟩

/-- C21 (first and last timestamp per year), amended. No message that
`ParseAllFiles` returns has the zero time.  For every message sequence in
which no message has the zero time, `Analyze` returns, and in every year
accumulator `FirstMessage` is the timestamp of a message of the year that no
message of the year is before, and `LastMessage` is the timestamp of a message
of the year that no message of the year is after; and for the same messages
in any other order `Analyze` returns, for every year accumulator, one with the
same year, `FirstMessage` and `LastMessage`. -/
theorem analyze_first_last (U : unicode.Tables) (result : parser.ParseResult)
    (hzero : ∀ m ∈ result.Messages, m.Date.IsZero = false) :
    (∀ (fs : FileSystem) (files : List String) (parsed : parser.ParseResult),
      parser.ParseAllFiles fs files = some parsed →
      ∀ m ∈ parsed.Messages, m.Date.IsZero = false) ∧
    ∃ stats, Analyze U result = some stats ∧
      (∀ e ∈ stats.ByYear,
        (∃ m ∈ result.Messages, m.Date.Year = e.2.Year ∧ m.Date = e.2.FirstMessage) ∧
        (∀ m ∈ result.Messages, m.Date.Year = e.2.Year →
          m.Date.Before e.2.FirstMessage = false) ∧
        (∃ m ∈ result.Messages, m.Date.Year = e.2.Year ∧ m.Date = e.2.LastMessage) ∧
        (∀ m ∈ result.Messages, m.Date.Year = e.2.Year →
          m.Date.After e.2.LastMessage = false)) ∧
      ∀ reordered : parser.ParseResult, reordered.Messages.Perm result.Messages →
        ∃ stats', Analyze U reordered = some stats' ∧
          ∀ e ∈ stats.ByYear, ∃ e' ∈ stats'.ByYear, e'.2.Year = e.2.Year ∧
            e'.2.FirstMessage = e.2.FirstMessage ∧ e'.2.LastMessage = e.2.LastMessage := by
  refine ⟨parser.ParseAllFiles_nonzero, ?_⟩
  obtain ⟨stats, hs, -⟩ := Analyze_some U result
  have hyears := (Analyze_years U result stats hs).2
  refine ⟨stats, hs, ?_, ?_⟩
  · intro e he
    obtain ⟨ys, hfind, hfin, hfirst, hlast⟩ := hyears e he
    have hy : e.2.Year = e.1 := by
      rw [hfin.year, (accumulate_year_counts U result e.1 ys hfind).1]
    rw [hy, hfirst, hlast]
    exact accumulate_year_first_last U result hzero e.1 ys hfind
  · intro reordered hperm
    have hzero' : ∀ m ∈ reordered.Messages, m.Date.IsZero = false :=
      fun m hm => hzero m (hperm.subset hm)
    obtain ⟨stats', hs', -, -, -, hall'⟩ := Analyze_some U reordered
    refine ⟨stats', hs', ?_⟩
    intro e he
    obtain ⟨ys, hfind, hfin, hfirst, hlast⟩ := hyears e he
    obtain ⟨hyear, -, -, hne⟩ := accumulate_year_counts U result e.1 ys hfind
    have hy : e.2.Year = e.1 := by rw [hfin.year, hyear]
    -- the accumulator of the same year for the other order
    have hne' : reordered.Messages.filter (fun m => decide (m.Date.Year = e.1)) ≠ [] := by
      obtain ⟨m, hm⟩ := List.exists_mem_of_ne_nil _ hne
      have hm' := List.mem_filter.1 hm
      exact List.ne_nil_of_mem (List.mem_filter.2 ⟨hperm.symm.subset hm'.1, hm'.2⟩)
    have hinv := fold_year_inv U (fun _ _ _ => True) (fun _ => trivial)
      (fun _ _ _ _ => trivial) (fun _ _ _ _ _ _ => trivial) (initStats reordered) rfl
      reordered.Messages e.1
    cases hfind' : Go.Map.find? (accumulate U reordered).ByYear e.1 with
    | none => exact absurd (hinv.2.2 hfind') hne'
    | some ys' =>
      obtain ⟨e', he', hkey', hfin', hfirst', hlast'⟩ :=
        forall₂_left_mem _ _ _ hall' (e.1, ys') (Go.Map.mem_of_find? _ _ _ hfind')
      obtain ⟨⟨m₁, hm₁, hy₁, hd₁⟩, hmin, ⟨m₂, hm₂, hy₂, hd₂⟩, hmax⟩ :=
        accumulate_year_first_last U result hzero e.1 ys hfind
      obtain ⟨⟨n₁, hn₁, hz₁, hc₁⟩, hmin', ⟨n₂, hn₂, hz₂, hc₂⟩, hmax'⟩ :=
        accumulate_year_first_last U reordered hzero' e.1 ys' hfind'
      refine ⟨e', he', ?_, ?_, ?_⟩
      · rw [hy, hfin'.year]
        exact (accumulate_year_counts U reordered e.1 ys' hfind').1
      · rw [hfirst', hfirst]
        apply time.Time.eq_of_not_before
        · rw [← hc₁]
          exact hmin n₁ (hperm.subset hn₁) hz₁
        · rw [← hd₁]
          exact hmin' m₁ (hperm.symm.subset hm₁) hy₁
      · rw [hlast', hlast]
        apply time.Time.eq_of_not_before
        · rw [← hd₂]
          exact hmax' m₂ (hperm.symm.subset hm₂) hy₂
        · rw [← hc₂]
          exact hmax n₂ (hperm.subset hn₂) hz₂

end analyzer

namespace analyzer

/-- A run of the amended C21: three messages of two years, not in the order of time. -/
theorem analyze_first_last_witness :
    (∀ m ∈ (⟨⟨"", "", time.Time.zero, time.Time.zero, 0⟩,
      [⟨"", ⟨2021, 3, 5, 10, 0, 0⟩, "Alice", "hello world", 11, false, false⟩,
       ⟨"", ⟨2020, 12, 31, 23, 59, 59⟩, "Bob", "old year", 8, false, false⟩,
       ⟨"", ⟨2021, 1, 1, 0, 0, 0⟩, "Alice", "new year", 8, false, false⟩]⟩ :
      parser.ParseResult).Messages, m.Date.IsZero = false) ∧
    ((∀ (fs : FileSystem) (files : List String) (parsed : parser.ParseResult),
      parser.ParseAllFiles fs files = some parsed →
      ∀ m ∈ parsed.Messages, m.Date.IsZero = false) ∧
    ∃ stats, Analyze unicode.latinCyrillic (⟨⟨"", "", time.Time.zero, time.Time.zero, 0⟩,
      [⟨"", ⟨2021, 3, 5, 10, 0, 0⟩, "Alice", "hello world", 11, false, false⟩,
       ⟨"", ⟨2020, 12, 31, 23, 59, 59⟩, "Bob", "old year", 8, false, false⟩,
       ⟨"", ⟨2021, 1, 1, 0, 0, 0⟩, "Alice", "new year", 8, false, false⟩]⟩ :
      parser.ParseResult) = some stats ∧
      (∀ e ∈ stats.ByYear,
        (∃ m ∈ (⟨⟨"", "", time.Time.zero, time.Time.zero, 0⟩,
      [⟨"", ⟨2021, 3, 5, 10, 0, 0⟩, "Alice", "hello world", 11, false, false⟩,
       ⟨"", ⟨2020, 12, 31, 23, 59, 59⟩, "Bob", "old year", 8, false, false⟩,
       ⟨"", ⟨2021, 1, 1, 0, 0, 0⟩, "Alice", "new year", 8, false, false⟩]⟩ :
      parser.ParseResult).Messages, m.Date.Year = e.2.Year ∧ m.Date = e.2.FirstMessage) ∧
        (∀ m ∈ (⟨⟨"", "", time.Time.zero, time.Time.zero, 0⟩,
      [⟨"", ⟨2021, 3, 5, 10, 0, 0⟩, "Alice", "hello world", 11, false, false⟩,
       ⟨"", ⟨2020, 12, 31, 23, 59, 59⟩, "Bob", "old year", 8, false, false⟩,
       ⟨"", ⟨2021, 1, 1, 0, 0, 0⟩, "Alice", "new year", 8, false, false⟩]⟩ :
      parser.ParseResult).Messages, m.Date.Year = e.2.Year →
          m.Date.Before e.2.FirstMessage = false) ∧
        (∃ m ∈ (⟨⟨"", "", time.Time.zero, time.Time.zero, 0⟩,
      [⟨"", ⟨2021, 3, 5, 10, 0, 0⟩, "Alice", "hello world", 11, false, false⟩,
       ⟨"", ⟨2020, 12, 31, 23, 59, 59⟩, "Bob", "old year", 8, false, false⟩,
       ⟨"", ⟨2021, 1, 1, 0, 0, 0⟩, "Alice", "new year", 8, false, false⟩]⟩ :
      parser.ParseResult).Messages, m.Date.Year = e.2.Year ∧ m.Date = e.2.LastMessage) ∧
        (∀ m ∈ (⟨⟨"", "", time.Time.zero, time.Time.zero, 0⟩,
      [⟨"", ⟨2021, 3, 5, 10, 0, 0⟩, "Alice", "hello world", 11, false, false⟩,
       ⟨"", ⟨2020, 12, 31, 23, 59, 59⟩, "Bob", "old year", 8, false, false⟩,
       ⟨"", ⟨2021, 1, 1, 0, 0, 0⟩, "Alice", "new year", 8, false, false⟩]⟩ :
      parser.ParseResult).Messages, m.Date.Year = e.2.Year →
          m.Date.After e.2.LastMessage = false)) ∧
      ∀ reordered : parser.ParseResult, reordered.Messages.Perm (⟨⟨"", "", time.Time.zero, time.Time.zero, 0⟩,
      [⟨"", ⟨2021, 3, 5, 10, 0, 0⟩, "Alice", "hello world", 11, false, false⟩,
       ⟨"", ⟨2020, 12, 31, 23, 59, 59⟩, "Bob", "old year", 8, false, false⟩,
       ⟨"", ⟨2021, 1, 1, 0, 0, 0⟩, "Alice", "new year", 8, false, false⟩]⟩ :
      parser.ParseResult).Messages →
        ∃ stats', Analyze unicode.latinCyrillic reordered = some stats' ∧
          ∀ e ∈ stats.ByYear, ∃ e' ∈ stats'.ByYear, e'.2.Year = e.2.Year ∧
            e'.2.FirstMessage = e.2.FirstMessage ∧ e'.2.LastMessage = e.2.LastMessage) :=
  ⟨by decide, analyze_first_last unicode.latinCyrillic _ (by decide)⟩

end analyzer

/-! ## The overall accumulator and the year accumulators -/

namespace analyzer

/-- The word loop changes an integer measure of the two accumulators by the
same amount, when `countWord` changes the measure by an amount that depends
on the word only. -/
theorem countWords_fold_measure (f : YearStats → Int) (user : String) (δ : String → Int)
    (hword : ∀ w ys, f (countWord user w ys) = f ys + δ w) (words : List String) :
    ∀ acc : YearStats × YearStats, ∃ D : Int,
      f (words.foldl (countWords user) acc).1 = f acc.1 + D ∧
      f (words.foldl (countWords user) acc).2 = f acc.2 + D := by
  induction words with
  | nil => intro acc; exact ⟨0, by simp, by simp⟩
  | cons w ws ih =>
    intro acc
    obtain ⟨D, h1, h2⟩ := ih (countWords user acc w)
    rw [List.foldl_cons, h1, h2]
    by_cases hc : (!stopwords.IsStopWord w && decide (w.length > 1)) = true
    · refine ⟨δ w + D, ?_, ?_⟩
      · simp only [countWords, hc, if_true, hword]
        ring
      · simp only [countWords, hc, if_true, hword]
        ring
    · exact ⟨D, by simp only [countWords, hc, Bool.false_eq_true, if_false],
        by simp only [countWords, hc, Bool.false_eq_true, if_false]⟩

/-- One iteration of the message loop changes the sum of an integer measure
over the year accumulators by the change of the accumulator of the year. -/
theorem processMessage_sum (U : unicode.Tables) (f : YearStats → Int)
    (hnew : ∀ y, f (newYearStats y) = 0) (s : Stats) (msg : parser.Message) :
    ((processMessage U s msg).ByYear.map (fun e => f e.2)).sum =
      (s.ByYear.map (fun e => f e.2)).sum -
        f ((Go.Map.find? s.ByYear msg.Date.Year).getD (newYearStats msg.Date.Year)) +
        f ((extractWords U msg.Text).foldl (countWords msg.From)
          (trackFirstLast msg (countMessage msg
            ((Go.Map.find? s.ByYear msg.Date.Year).getD (newYearStats msg.Date.Year))),
           countMessage msg s.Overall)).1 := by
  simp only [processMessage]
  rw [Go.Map.sum_set f]
  cases hf : Go.Map.find? s.ByYear msg.Date.Year with
  | none =>
    simp only [Option.isNone_none, if_true, Go.Map.find?_set_self, Option.getD_some,
      Option.map_some', Go.Map.sum_set f, hf, Option.map_none', Option.getD_none, hnew]
    ring
  | some ys =>
    simp only [Option.isNone_some, Bool.false_eq_true, if_false, hf, Option.getD_some,
      Option.map_some']

/-- An integer measure that every update of the message loop changes by an
amount that does not depend on the accumulator, and that is 0 on a fresh
accumulator, has in the overall accumulator the sum of its values in the year
accumulators. -/
theorem fold_overall_sum (U : unicode.Tables) (f : YearStats → Int)
    (hnew : ∀ y, f (newYearStats y) = 0)
    (δm : parser.Message → Int) (δw : parser.Message → String → Int)
    (hmsg : ∀ msg ys, f (countMessage msg ys) = f ys + δm msg)
    (hfl : ∀ msg ys, f (trackFirstLast msg ys) = f ys)
    (hword : ∀ (msg : parser.Message) w ys, f (countWord msg.From w ys) = f ys + δw msg w)
    (result : parser.ParseResult) :
    f (accumulate U result).Overall =
      ((accumulate U result).ByYear.map (fun e => f e.2)).sum := by
  have step : ∀ (msgs : List parser.Message) (s : Stats),
      f s.Overall = (s.ByYear.map (fun e => f e.2)).sum →
      f (msgs.foldl (processMessage U) s).Overall =
        ((msgs.foldl (processMessage U) s).ByYear.map (fun e => f e.2)).sum := by
    intro msgs
    induction msgs with
    | nil => intro s hs; exact hs
    | cons msg msgs ih =>
      intro s hs
      rw [List.foldl_cons]
      apply ih
      obtain ⟨-, hov, -, -⟩ := processMessage_step U s msg
      obtain ⟨D, h1, h2⟩ := countWords_fold_measure f msg.From (δw msg) (hword msg)
        (extractWords U msg.Text)
        (trackFirstLast msg (countMessage msg
          ((Go.Map.find? s.ByYear msg.Date.Year).getD (newYearStats msg.Date.Year))),
         countMessage msg s.Overall)
      rw [processMessage_sum U f hnew, hov, h1, h2, hfl, hmsg, hmsg, hs]
      ring
  apply step
  simp only [initStats, List.map_nil, List.sum_nil]
  exact hnew 0

/-- The count of a word of a sender after the statements of the word loop. -/
theorem countWord_byUser_get (user word : String) (ys : YearStats) (u w : String) :
    Go.Map.get (((countWord user word ys).WordFrequencyByUser.find? u).getD []) w =
      Go.Map.get ((ys.WordFrequencyByUser.find? u).getD []) w +
        (if u = user ∧ w = word then 1 else 0) := by
  have hinner : ((if (ys.WordFrequencyByUser.find? user).isNone then
      ys.WordFrequencyByUser.set user [] else ys.WordFrequencyByUser).find? user).getD [] =
      (ys.WordFrequencyByUser.find? user).getD [] := by
    cases hf : Go.Map.find? ys.WordFrequencyByUser user with
    | none => simp [Go.Map.find?_set_self]
    | some inner => simp [hf]
  by_cases hu : u = user
  · subst hu
    simp only [countWord, Go.Map.find?_set_self, Option.getD_some, hinner, Go.Map.get_incr,
      true_and]
  · have hother : Go.Map.find? (if (ys.WordFrequencyByUser.find? user).isNone then
        ys.WordFrequencyByUser.set user [] else ys.WordFrequencyByUser) u =
        Go.Map.find? ys.WordFrequencyByUser u := by
      split
      · exact Go.Map.find?_set_ne _ _ _ _ hu
      · rfl
    simp only [countWord, Go.Map.find?_set_ne _ _ _ _ hu, hother, hu, false_and, if_false,
      add_zero]

end analyzer

namespace analyzer

/-- C23 (the overall accumulator is the sum of the year accumulators). For
every message sequence `Analyze` returns, and for every user `u`, word `w`,
hour and month key the overall `MessagesByUser[u]`, `WordFrequency[w]`,
`WordFrequencyByUser[u][w]`, `HourlyActivity[hour]`, `MonthlyActivity[month]`,
`RepliesCount` and `ForwardedCount` are the sums of the same values over the
accumulators of `ByYear`, a missing key counting as 0.  The keys of `ByYear`
are pairwise distinct and are exactly the calendar years of the messages, and
every year accumulator has `TotalMessages >= 1`. -/
theorem analyze_overall_is_sum_of_years (U : unicode.Tables) (result : parser.ParseResult) :
    ∃ stats, Analyze U result = some stats ∧
      (∀ u, stats.Overall.MessagesByUser.get u =
        (stats.ByYear.map (fun e => e.2.MessagesByUser.get u)).sum) ∧
      (∀ w, stats.Overall.WordFrequency.get w =
        (stats.ByYear.map (fun e => e.2.WordFrequency.get w)).sum) ∧
      (∀ u w, Go.Map.get ((stats.Overall.WordFrequencyByUser.find? u).getD []) w =
        (stats.ByYear.map
          (fun e => Go.Map.get ((e.2.WordFrequencyByUser.find? u).getD []) w)).sum) ∧
      (∀ hour, stats.Overall.HourlyActivity.get hour =
        (stats.ByYear.map (fun e => e.2.HourlyActivity.get hour)).sum) ∧
      (∀ month, stats.Overall.MonthlyActivity.get month =
        (stats.ByYear.map (fun e => e.2.MonthlyActivity.get month)).sum) ∧
      stats.Overall.RepliesCount = (stats.ByYear.map (fun e => e.2.RepliesCount)).sum ∧
      stats.Overall.ForwardedCount = (stats.ByYear.map (fun e => e.2.ForwardedCount)).sum ∧
      Go.Map.WF stats.ByYear ∧
      (∀ y, y ∈ Go.Map.keys stats.ByYear ↔ ∃ m ∈ result.Messages, m.Date.Year = y) ∧
      ∀ e ∈ stats.ByYear, e.2.TotalMessages ≥ 1 := by
  obtain ⟨stats, hs, fin, -, -, hall⟩ := Analyze_some U result
  obtain ⟨hkeys, hyears⟩ := Analyze_years U result stats hs
  -- a measure of the kept fields has the same values before and after the finalization
  have hfinal : ∀ f : YearStats → Int,
      (∀ ys ys', Finalized ys ys' → f ys' = f ys) →
      f (accumulate U result).Overall =
        ((accumulate U result).ByYear.map (fun e => f e.2)).sum →
      f stats.Overall = (stats.ByYear.map (fun e => f e.2)).sum := by
    intro f hf hsum
    rw [hf _ _ fin, hsum]
    congr 1
    exact forall₂_map_eq _ (fun e => f e.2) (fun e => f e.2)
      (fun a b hab => (hf _ _ hab.2.1).symm) _ _ hall
  have hinv := fold_year_inv U (fun _ _ _ => True) (fun _ => trivial)
    (fun _ _ _ _ => trivial) (fun _ _ _ _ _ _ => trivial) (initStats result) rfl
    result.Messages
  refine ⟨stats, hs, ?_, ?_, ?_, ?_, ?_, ?_, ?_, ?_, ?_, ?_⟩
  · intro u
    apply hfinal (fun ys => ys.MessagesByUser.get u)
      (fun ys ys' h => by simp only [h.messagesByUser])
    exact fold_overall_sum U (fun ys => ys.MessagesByUser.get u) (fun _ => rfl)
      (fun msg => if u = msg.From then 1 else 0) (fun _ _ => 0)
      (fun msg ys => by simp only [countMessage, Go.Map.get_incr])
      (fun _ _ => rfl) (fun _ _ _ => by simp only [countWord, add_zero]) result
  · intro w
    apply hfinal (fun ys => ys.WordFrequency.get w)
      (fun ys ys' h => by simp only [h.wordFrequency])
    exact fold_overall_sum U (fun ys => ys.WordFrequency.get w) (fun _ => rfl)
      (fun _ => 0) (fun _ w' => if w = w' then 1 else 0)
      (fun msg ys => by simp only [countMessage, add_zero])
      (fun _ _ => rfl) (fun _ _ _ => by simp only [countWord, Go.Map.get_incr]) result
  · intro u w
    apply hfinal (fun ys => Go.Map.get ((ys.WordFrequencyByUser.find? u).getD []) w)
      (fun ys ys' h => by simp only [h.wordFrequencyByUser])
    exact fold_overall_sum U
      (fun ys => Go.Map.get ((ys.WordFrequencyByUser.find? u).getD []) w) (fun _ => rfl)
      (fun _ => 0) (fun msg w' => if u = msg.From ∧ w = w' then 1 else 0)
      (fun msg ys => by simp only [countMessage, add_zero])
      (fun _ _ => rfl) (fun msg w' ys => countWord_byUser_get msg.From w' ys u w) result
  · intro hour
    apply hfinal (fun ys => ys.HourlyActivity.get hour)
      (fun ys ys' h => by simp only [h.hourlyActivity])
    exact fold_overall_sum U (fun ys => ys.HourlyActivity.get hour) (fun _ => rfl)
      (fun msg => if hour = msg.Date.Hour then 1 else 0) (fun _ _ => 0)
      (fun msg ys => by simp only [countMessage, Go.Map.get_incr])
      (fun _ _ => rfl) (fun _ _ _ => by simp only [countWord, add_zero]) result
  · intro month
    apply hfinal (fun ys => ys.MonthlyActivity.get month)
      (fun ys ys' h => by simp only [h.monthlyActivity])
    exact fold_overall_sum U (fun ys => ys.MonthlyActivity.get month) (fun _ => rfl)
      (fun msg => if month = time.formatYearMonth msg.Date then 1 else 0) (fun _ _ => 0)
      (fun msg ys => by simp only [countMessage, Go.Map.get_incr])
      (fun _ _ => rfl) (fun _ _ _ => by simp only [countWord, add_zero]) result
  · apply hfinal (fun ys => ys.RepliesCount)
      (fun ys ys' h => h.repliesCount)
    exact fold_overall_sum U (fun ys => ys.RepliesCount) (fun _ => rfl)
      (fun msg => if msg.IsReply then 1 else 0) (fun _ _ => 0)
      (fun msg ys => by
        simp only [countMessage]
        split <;> simp)
      (fun _ _ => rfl) (fun _ _ _ => by simp only [countWord, add_zero]) result
  · apply hfinal (fun ys => ys.ForwardedCount)
      (fun ys ys' h => h.forwardedCount)
    exact fold_overall_sum U (fun ys => ys.ForwardedCount) (fun _ => rfl)
      (fun msg => if msg.IsForwarded then 1 else 0) (fun _ _ => 0)
      (fun msg ys => by
        simp only [countMessage]
        split <;> simp)
      (fun _ _ => rfl) (fun _ _ _ => by simp only [countWord, add_zero]) result
  · unfold Go.Map.WF
    rw [hkeys]
    exact (hinv 0).1
  · intro y
    rw [hkeys, Go.Map.mem_keys_iff]
    constructor
    · rintro ⟨ys, hys⟩
      obtain ⟨m, hm⟩ := List.exists_mem_of_ne_nil _ ((hinv y).2.1 ys hys).2
      have hm' := List.mem_filter.1 hm
      exact ⟨m, hm'.1, by simpa using hm'.2⟩
    · rintro ⟨m, hm, hy⟩
      cases hfind : Go.Map.find? (accumulate U result).ByYear y with
      | some ys => exact ⟨ys, rfl⟩
      | none =>
        have hnil := (hinv y).2.2 hfind
        have : m ∈ result.Messages.filter (fun m => decide (m.Date.Year = y)) :=
          List.mem_filter.2 ⟨hm, by simpa using hy⟩
        rw [hnil] at this
        simp at this
  · intro e he
    obtain ⟨ys, hfind, hfin, -, -⟩ := hyears e he
    obtain ⟨-, hcount, -, hne⟩ := accumulate_year_counts U result e.1 ys hfind
    rw [hfin.totalMessages, hcount]
    have := List.length_pos.2 hne
    omega

end analyzer

/-! ## The keys of the word maps -/

namespace unicode

/-- Lower-casing twice is lower-casing once, in the tables of the examples. -/
theorem latinCyrillic_toLower_idem (c : Char) :
    latinCyrillic.ToLower (latinCyrillic.ToLower c) = latinCyrillic.ToLower c := by
  have hc : c = Char.ofNat c.toNat := (Char.ofNat_toNat c).symm
  by_cases h1 : 65 ≤ c.toNat ∧ c.toNat ≤ 90
  · obtain ⟨n, hn⟩ : ∃ n, c.toNat = n := ⟨_, rfl⟩
    rw [hn] at h1 hc
    obtain ⟨ha, hb⟩ := h1
    subst hc
    interval_cases n <;> decide
  · by_cases h2 : 1040 ≤ c.toNat ∧ c.toNat ≤ 1071
    · obtain ⟨n, hn⟩ : ∃ n, c.toNat = n := ⟨_, rfl⟩
      rw [hn] at h2 hc
      obtain ⟨ha, hb⟩ := h2
      subst hc
      interval_cases n <;> decide
    · by_cases h3 : c.toNat = 1025
      · rw [h3] at hc
        subst hc
        decide
      · have hfix : latinCyrillic.ToLower c = c := by
          simp only [latinCyrillic, Bool.and_eq_true, decide_eq_true_eq, h1, h2, beq_iff_eq, h3,
            if_false]
        rw [hfix, hfix]

end unicode

namespace analyzer

/-- The words of the result slice after the current word is closed are words
of at least two characters that are not all digits, made of characters of the
scanned text. -/
theorem closeWord_good (U : unicode.Tables) (S : Char → Prop) (res : List String)
    (cur : List Char) (hcur : ∀ c ∈ cur, S c)
    (hres : ∀ w ∈ res, 2 ≤ w.length ∧ isNumber U w = false ∧ ∀ c ∈ w.toList, S c) :
    ∀ w ∈ closeWord U ⟨res, cur⟩,
      2 ≤ w.length ∧ isNumber U w = false ∧ ∀ c ∈ w.toList, S c := by
  intro w hw
  rw [closeWord_eq] at hw
  rcases List.mem_append.1 hw with hw | hw
  · exact hres w hw
  · split at hw
    · rename_i hc
      simp only [Bool.and_eq_true, decide_eq_true_eq, Bool.not_eq_true'] at hc
      rw [List.mem_singleton.1 hw]
      exact ⟨hc.1, hc.2, hcur⟩
    · simp at hw

/-- The words that the loop of `extractWords` collects are words of at least
two characters that are not all digits, made of characters of the scanned text. -/
theorem scan_good (U : unicode.Tables) (S : Char → Prop) :
    ∀ (l : List Char) (res : List String) (cur : List Char),
      (∀ c ∈ l, S c) → (∀ c ∈ cur, S c) →
      (∀ w ∈ res, 2 ≤ w.length ∧ isNumber U w = false ∧ ∀ c ∈ w.toList, S c) →
      ∀ w ∈ closeWord U (l.foldl (scanRune U) ⟨res, cur⟩),
        2 ≤ w.length ∧ isNumber U w = false ∧ ∀ c ∈ w.toList, S c
  | [], res, cur, _, hcur, hres => closeWord_good U S res cur hcur hres
  | c :: l, res, cur, hl, hcur, hres => by
    rw [List.foldl_cons]
    have hl' : ∀ x ∈ l, S x := fun x hx => hl x (List.mem_cons_of_mem _ hx)
    by_cases hc : (U.IsLetter c || U.IsDigit c) = true
    · have hstep : scanRune U ⟨res, cur⟩ c = ⟨res, cur ++ [c]⟩ := by
        simp only [scanRune, hc, if_true]
      rw [hstep]
      apply scan_good U S l res (cur ++ [c]) hl' _ hres
      intro x hx
      rcases List.mem_append.1 hx with hx | hx
      · exact hcur x hx
      · rw [List.mem_singleton.1 hx]
        exact hl c (List.mem_cons_self _ _)
    · have hstep : scanRune U ⟨res, cur⟩ c = ⟨closeWord U ⟨res, cur⟩, []⟩ := by
        simp [scanRune, hc]
      rw [hstep]
      exact scan_good U S l _ [] hl' (by simp) (closeWord_good U S res cur hcur hres)

/-- The words of `extractWords` have at least two characters, are not all
digits, and are made of lower-cased characters. -/
theorem extractWords_good (U : unicode.Tables) (text : String) :
    ∀ w ∈ extractWords U text,
      2 ≤ w.length ∧ isNumber U w = false ∧ ∀ c ∈ w.toList, ∃ c', c = U.ToLower c' := by
  rw [extractWords_eq]
  apply scan_good U (fun c => ∃ c', c = U.ToLower c')
  · intro c hc
    obtain ⟨c', -, rfl⟩ := List.mem_map.1 hc
    exact ⟨c', rfl⟩
  · simp
  · simp

/-- The keys of the word maps after the statements of the word loop: the
keys before, and the word. -/
theorem keys_countWord (G : String → Prop) (user w : String) (ys : YearStats) (hw : G w)
    (h : (∀ k ∈ Go.Map.keys ys.WordFrequency, G k) ∧
      ∀ e ∈ ys.WordFrequencyByUser, ∀ k ∈ Go.Map.keys e.2, G k) :
    (∀ k ∈ Go.Map.keys (countWord user w ys).WordFrequency, G k) ∧
    ∀ e ∈ (countWord user w ys).WordFrequencyByUser, ∀ k ∈ Go.Map.keys e.2, G k := by
  constructor
  · intro k hk
    rcases Go.Map.keys_incr _ _ _ hk with hk | hk
    · exact h.1 k hk
    · rw [hk]; exact hw
  · have hby : ∀ e ∈ (if (ys.WordFrequencyByUser.find? user).isNone then
        ys.WordFrequencyByUser.set user [] else ys.WordFrequencyByUser),
        ∀ k ∈ Go.Map.keys e.2, G k := by
      intro e he
      split at he
      · rcases Go.Map.mem_set _ _ _ _ he with he | he
        · exact h.2 e he
        · rw [he]; simp [Go.Map.keys]
      · exact h.2 e he
    intro e he k hk
    simp only [countWord] at he
    rcases Go.Map.mem_set _ _ _ _ he with he | he
    · exact hby e he k hk
    · rw [he] at hk
      rcases Go.Map.keys_incr _ _ _ hk with hk | hk
      · cases hf : Go.Map.find? (if (ys.WordFrequencyByUser.find? user).isNone then
          ys.WordFrequencyByUser.set user [] else ys.WordFrequencyByUser) user with
        | none => rw [hf] at hk; simp [Go.Map.keys] at hk
        | some inner =>
          rw [hf] at hk
          exact hby _ (Go.Map.mem_of_find? _ _ _ hf) k hk
      · rw [hk]; exact hw

/-- The statements of the word loop add one to the count of the word in the
map of all words and in the map of one sender: the sum over the senders of
the counts of a word stays the count of the word, and the senders stay distinct. -/
theorem partition_countWord (user word : String) (ys : YearStats)
    (h : Go.Map.WF ys.WordFrequencyByUser ∧
      ∀ w, (ys.WordFrequencyByUser.map (fun e => Go.Map.get e.2 w)).sum =
        ys.WordFrequency.get w) :
    Go.Map.WF (countWord user word ys).WordFrequencyByUser ∧
    ∀ w, ((countWord user word ys).WordFrequencyByUser.map (fun e => Go.Map.get e.2 w)).sum =
      (countWord user word ys).WordFrequency.get w := by
  constructor
  · simp only [countWord]
    apply Go.Map.wf_set
    split
    · exact Go.Map.wf_set _ h.1 _ _
    · exact h.1
  · intro w
    simp only [countWord]
    rw [Go.Map.sum_set (fun inner : Go.Map String Int => Go.Map.get inner w)]
    simp only [Go.Map.get_incr]
    rw [← h.2 w]
    cases hf : Go.Map.find? ys.WordFrequencyByUser user with
    | none =>
      simp only [Option.isNone_none, if_true, Go.Map.find?_set_self, Option.map_some',
        Option.getD_some, Go.Map.sum_set (fun inner : Go.Map String Int => Go.Map.get inner w),
        hf, Option.map_none', Option.getD_none, Go.Map.get_incr]
      simp only [Go.Map.get, Go.Map.find?, Option.getD_none]
      ring
    | some inner =>
      simp only [Option.isNone_some, Bool.false_eq_true, if_false, hf, Option.map_some',
        Option.getD_some, Go.Map.get_incr]
      ring

end analyzer

namespace analyzer

/-- C24 (the word maps of the senders partition the map of all words). For
every message sequence `Analyze` returns, and in the overall accumulator and
in every year accumulator the senders of `WordFrequencyByUser` are pairwise
distinct and, for every word `w`, the sum over the senders of
`WordFrequencyByUser[u][w]` is `WordFrequency[w]`.  Every key of
`WordFrequency` and of every map of `WordFrequencyByUser` has at least 2
characters, does not consist entirely of digits, and is made of lower-cased
characters; when lower-casing twice is lower-casing once, as in the Unicode
tables, `strings.ToLower` leaves the key as it is. -/
theorem analyze_word_maps_partition (U : unicode.Tables) (result : parser.ParseResult) :
    ∃ stats, Analyze U result = some stats ∧ ∀ ys ∈ stats.accumulators,
      Go.Map.WF ys.WordFrequencyByUser ∧
      (∀ w, (ys.WordFrequencyByUser.map (fun e => Go.Map.get e.2 w)).sum =
        ys.WordFrequency.get w) ∧
      ∀ k, (k ∈ Go.Map.keys ys.WordFrequency ∨
          ∃ e ∈ ys.WordFrequencyByUser, k ∈ Go.Map.keys e.2) →
        2 ≤ k.length ∧ isNumber U k = false ∧
        (∀ c ∈ k.toList, ∃ c', c = U.ToLower c') ∧
        ((∀ c, U.ToLower (U.ToLower c) = U.ToLower c) → toLower U k = k) := by
  obtain ⟨stats, hs, hacc⟩ := Analyze_accumulators U result
  have hinv := accumulate_inv U
    (fun ys => (Go.Map.WF ys.WordFrequencyByUser ∧
      ∀ w, (ys.WordFrequencyByUser.map (fun e => Go.Map.get e.2 w)).sum =
        ys.WordFrequency.get w) ∧
      (∀ k ∈ Go.Map.keys ys.WordFrequency,
        2 ≤ k.length ∧ isNumber U k = false ∧ ∀ c ∈ k.toList, ∃ c', c = U.ToLower c') ∧
      ∀ e ∈ ys.WordFrequencyByUser, ∀ k ∈ Go.Map.keys e.2,
        2 ≤ k.length ∧ isNumber U k = false ∧ ∀ c ∈ k.toList, ∃ c', c = U.ToLower c')
    (fun y => ⟨⟨List.nodup_nil, fun w => rfl⟩, by simp [newYearStats, Go.Map.keys],
      by simp [newYearStats]⟩)
    (fun msg ys h => h)
    (fun msg ys h => h)
    (fun msg w ys hw _ _ h =>
      ⟨partition_countWord msg.From w ys h.1,
        keys_countWord _ msg.From w ys (extractWords_good U msg.Text w hw) h.2⟩)
    result
  refine ⟨stats, hs, ?_⟩
  intro ys' hys'
  obtain ⟨ys, hys, hfin⟩ := hacc ys' hys'
  obtain ⟨⟨hwf, hsum⟩, hk₁, hk₂⟩ := hinv ys hys
  rw [hfin.wordFrequency, hfin.wordFrequencyByUser]
  refine ⟨hwf, hsum, ?_⟩
  intro k hk
  have hgood : 2 ≤ k.length ∧ isNumber U k = false ∧
      ∀ c ∈ k.toList, ∃ c', c = U.ToLower c' := by
    rcases hk with hk | ⟨e, he, hk⟩
    · exact hk₁ k hk
    · exact hk₂ e he k hk
  refine ⟨hgood.1, hgood.2.1, hgood.2.2, ?_⟩
  intro hidem
  have hmap : k.toList.map U.ToLower = k.toList := by
    have hid : k.toList.map U.ToLower = k.toList.map id := by
      apply List.map_congr_left
      intro c hc
      obtain ⟨c', rfl⟩ := hgood.2.2 c hc
      exact hidem c'
    rw [hid, List.map_id]
  simp only [toLower, hmap]
  rfl

/-- A run of C24 on the tables of the examples, where lower-casing twice is
lower-casing once: every key of the word maps is left as it is by `strings.ToLower`. -/
theorem analyze_word_maps_partition_witness :
    (∀ c, unicode.latinCyrillic.ToLower (unicode.latinCyrillic.ToLower c) =
      unicode.latinCyrillic.ToLower c) ∧
    ∃ stats, Analyze unicode.latinCyrillic
        ⟨⟨"", "", time.Time.zero, time.Time.zero, 0⟩,
          [⟨"", ⟨2021, 1, 1, 10, 0, 0⟩, "Alice", "Привет ПРИВЕТ мир 2021", 22, false, false⟩,
           ⟨"", ⟨2022, 1, 1, 10, 30, 0⟩, "Bob", "Hello привет", 12, false, false⟩]⟩ =
        some stats ∧
      ∀ ys ∈ stats.accumulators,
        ∀ k, (k ∈ Go.Map.keys ys.WordFrequency ∨
            ∃ e ∈ ys.WordFrequencyByUser, k ∈ Go.Map.keys e.2) →
          toLower unicode.latinCyrillic k = k :=
  ⟨unicode.latinCyrillic_toLower_idem,
    (analyze_word_maps_partition unicode.latinCyrillic
      ⟨⟨"", "", time.Time.zero, time.Time.zero, 0⟩,
        [⟨"", ⟨2021, 1, 1, 10, 0, 0⟩, "Alice", "Привет ПРИВЕТ мир 2021", 22, false, false⟩,
         ⟨"", ⟨2022, 1, 1, 10, 30, 0⟩, "Bob", "Hello привет", 12, false, false⟩]⟩).elim
      (fun stats h => ⟨stats, h.1, fun ys hys k hk =>
        ((h.2 ys hys).2.2 k hk).2.2.2 unicode.latinCyrillic_toLower_idem⟩)⟩

end analyzer
